import Mathlib

/-! Boolean text search over an inverted and a coordinate index (inf_search).

A shallow embedding of `src/search_class.h` (classes `QueryParser` and
`TextIndexer`) followed by theorems about it.

Conventions of the embedding:

* `std::string` is `String`, read character by character through `String.toList`;
  the character classes `isspace`, `isalnum`, `isdigit`, `tolower` are those of the
  C locale (ASCII).
* `int` is `Int` (no document id or position comes near `2^31`).
* `std::vector<T>` is `List T`; `push_back` appends at the end.
* `std::unordered_map<string, V>` is a partial function `String → Option V`
  (`StrMap V`); `find` is application, `operator[]` reads the value or the
  default-constructed one, and a loop over all entries rewrites every value.
* `std::set<int>` is the strictly ascending list of its elements.
* A `while` loop over two cursors `i`, `j` is a recursion over the unread
  suffixes `list1[i..]`, `list2[j..]`, with a fuel argument bounding the number of
  iterations; every caller passes the sum of the two lengths, which the loop
  never exhausts.
* `shared_ptr<ASTNode>` is the type `ASTNode` whose constructor `null` is the
  null pointer. Dereferencing a null pointer makes the evaluation return `none`.
-/

namespace InfSearch

/-! ## Data model -/

/-- Positions of one term in one document (`struct TermPositions`). -/
structure TermPositions where
  doc_id : Int
  positions : List Int
  deriving DecidableEq, Repr

/-- A `std::unordered_map<string, V>`. -/
abbrev StrMap (V : Type) : Type := String → Option V

/-- The map without entries. -/
def StrMap.empty {V : Type} : StrMap V := fun _ => none

/-- Store `v` under `k`: the effect of `m[k] = v`. -/
def StrMap.set {V : Type} (m : StrMap V) (k : String) (v : V) : StrMap V :=
  fun k' => if k' = k then some v else m k'

/-- The value `m[k]` refers to: the stored one, or the default-constructed `d`. -/
def StrMap.at {V : Type} (m : StrMap V) (k : String) (d : V) : V :=
  (m k).getD d

/-- Rewrite every stored value: `for (auto& [k, v] : m) v = f(v)`. -/
def StrMap.mapValues {V : Type} (f : V → V) (m : StrMap V) : StrMap V :=
  fun k => (m k).map f

/-- Term to ascending doc ids (`using InvertedIndex`). -/
abbrev InvertedIndex : Type := StrMap (List Int)

/-- Term to entries of doc id and positions (`using CoordinateIndex`). -/
abbrev CoordinateIndex : Type := StrMap (List TermPositions)

/-- A node of a skip list (`struct SkipListNode`). The chain of a term is the list
of its nodes, `next` of a node being the following element; `skip` is the index,
in that list, of the node the skip pointer refers to, `none` for a null pointer. -/
structure SkipListNode where
  doc_id : Int
  skip : Option Nat
  deriving DecidableEq, Repr

/-- Operator kinds of the query tree (`enum class OperatorType`). -/
inductive OperatorType where
  | TERM | AND | OR | NOT | NEAR | ADJ
  deriving DecidableEq, Repr

/-- A `shared_ptr<ASTNode>`: the null pointer, or a node with its six members. -/
inductive ASTNode where
  | null : ASTNode
  | node (type : OperatorType) (value : String) (field : String) (distance : Int)
      (left : ASTNode) (right : ASTNode) : ASTNode
  deriving DecidableEq, Repr

/-- The members of `class TextIndexer`. -/
structure TextIndexer where
  inverted_index : InvertedIndex
  coordinate_index : CoordinateIndex
  skip_lists : StrMap (List SkipListNode)
  doc_titles : Int → Option String
  doc_contents : Int → Option String
  next_doc_id : Int
  all_doc_ids : List Int
  field_inverted_index : StrMap InvertedIndex
  field_coordinate_index : StrMap CoordinateIndex

/-- The constructor `TextIndexer() : next_doc_id(1)`. -/
def TextIndexer.init : TextIndexer where
  inverted_index := StrMap.empty
  coordinate_index := StrMap.empty
  skip_lists := StrMap.empty
  doc_titles := fun _ => none
  doc_contents := fun _ => none
  next_doc_id := 1
  all_doc_ids := []
  field_inverted_index := StrMap.empty
  field_coordinate_index := StrMap.empty

/-! ## Character classes and tokenisation -/

/-- C `isspace`: space, `\t`, `\n`, `\v`, `\f`, `\r`. -/
def isspace (c : Char) : Bool :=
  c.toNat = 32 || (9 ≤ c.toNat && c.toNat ≤ 13)

/-- C `isalnum` in the C locale. -/
def isalnum (c : Char) : Bool := c.isAlphanum

/-- C `isdigit`. -/
def isdigit (c : Char) : Bool := c.isDigit

/-- C `tolower` in the C locale. -/
def tolower (c : Char) : Char := c.toLower

/-- The separators of `TextIndexer::tokenize`. -/
def isTokenSeparator (c : Char) : Bool :=
  isspace c || c = '.' || c = ',' || c = '!' || c = '?' || c = ';' || c = ':'

/-- The `for (char c : text)` loop of `tokenize` and the flush after it:
`token` is the token being accumulated, `tokens` the tokens pushed so far. -/
def tokenize.loop : List Char → List Char → List String → List String
  | [], token, tokens =>
    if !token.isEmpty then tokens ++ [String.mk token] else tokens
  | c :: cs, token, tokens =>
    if isTokenSeparator c then
      if !token.isEmpty then tokenize.loop cs [] (tokens ++ [String.mk token])
      else tokenize.loop cs token tokens
    else tokenize.loop cs (token ++ [c]) tokens

/-- Embedding of `TextIndexer::tokenize`. -/
def tokenize (text : String) : List String :=
  tokenize.loop text.toList [] []

/-- Embedding of `TextIndexer::normalizeTerm`: the alphanumeric characters, lowercased. -/
def normalizeTerm (term : String) : String :=
  String.mk ((term.toList.filter isalnum).map tolower)

/-! ## Indexing -/

/-- The local `unordered_map<string, vector<int>> term_positions` of the indexing
functions, as the list of its entries in order of first insertion. -/
abbrev TermPosMap : Type := List (String × List Int)

/-- Embedding of `term_positions[term].push_back(pos)`. -/
def TermPosMap.push : TermPosMap → String → Int → TermPosMap
  | [], term, pos => [(term, [pos])]
  | (t, ps) :: rest, term, pos =>
    if t = term then (t, ps ++ [pos]) :: rest
    else (t, ps) :: TermPosMap.push rest term pos

/-- The loop `for (int pos = 0; pos < tokens.size(); ++pos)` of `indexField` and
`indexDocumentFields`, over the tokens from `pos` on. -/
def collectTermPositions : List String → Int → TermPosMap → TermPosMap
  | [], _, term_positions => term_positions
  | tok :: toks, pos, term_positions =>
    let term := normalizeTerm tok
    if term.isEmpty then collectTermPositions toks (pos + 1) term_positions
    else collectTermPositions toks (pos + 1) (term_positions.push term pos)

/-- The update of an inverted list: `push_back(doc_id)` unless `find` finds it. -/
def addToInvList (inv_list : List Int) (doc_id : Int) : List Int :=
  if doc_id ∈ inv_list then inv_list else inv_list ++ [doc_id]

/-- The update of a coordinate list: the positions are appended to the first
entry of `doc_id` (`doc_exists`, `break`), or a new entry is pushed at the end. -/
def addToCoordList : List TermPositions → Int → List Int → List TermPositions
  | [], doc_id, positions => [⟨doc_id, positions⟩]
  | term_pos :: rest, doc_id, positions =>
    if term_pos.doc_id = doc_id then
      ⟨term_pos.doc_id, term_pos.positions ++ positions⟩ :: rest
    else term_pos :: addToCoordList rest doc_id positions

/-- One iteration of the loop over `term_positions` in `indexField`. -/
def indexField.step (doc_id : Int) (field_name : String) (s : TextIndexer)
    (entry : String × List Int) : TextIndexer :=
  let inv := s.field_inverted_index.at field_name StrMap.empty
  let coord := s.field_coordinate_index.at field_name StrMap.empty
  { s with
    field_inverted_index :=
      s.field_inverted_index.set field_name
        (inv.set entry.1 (addToInvList (inv.at entry.1 []) doc_id))
    field_coordinate_index :=
      s.field_coordinate_index.set field_name
        (coord.set entry.1 (addToCoordList (coord.at entry.1 []) doc_id entry.2)) }

/-- Embedding of `TextIndexer::indexField`. -/
def indexField (s : TextIndexer) (doc_id : Int) (field_name : String) (text : String) :
    TextIndexer :=
  (collectTermPositions (tokenize text) 0 []).foldl (indexField.step doc_id field_name) s

/-- One iteration of the loop over `term_positions` in `indexDocumentFields`. -/
def indexDocumentFields.step (doc_id : Int) (s : TextIndexer)
    (entry : String × List Int) : TextIndexer :=
  { s with
    inverted_index :=
      s.inverted_index.set entry.1 (addToInvList (s.inverted_index.at entry.1 []) doc_id)
    coordinate_index :=
      s.coordinate_index.set entry.1
        (addToCoordList (s.coordinate_index.at entry.1 []) doc_id entry.2) }

/-- Embedding of `TextIndexer::indexDocumentFields`. -/
def indexDocumentFields (s : TextIndexer) (doc_id : Int) (full_content : String) :
    TextIndexer :=
  (collectTermPositions (tokenize full_content) 0 []).foldl (indexDocumentFields.step doc_id) s

/-- Embedding of `std::sort` on a `vector<int>`. -/
def sort (l : List Int) : List Int := l.insertionSort (· ≤ ·)

/-- Embedding of `std::sort` on a `vector<TermPositions>`, ordered by `operator<`, that is by
`doc_id`. Entries of equal `doc_id` keep their relative order here; `std::sort`
leaves their order unspecified. -/
def sortByDocId (l : List TermPositions) : List TermPositions :=
  l.insertionSort (fun a b => a.doc_id ≤ b.doc_id)

/-- Embedding of `std::unique` followed by `erase`: of each run of equal neighbours one is kept. -/
def unique : List Int → List Int
  | [] => []
  | [a] => [a]
  | a :: b :: rest => if a = b then unique (b :: rest) else a :: unique (b :: rest)

/-- What `sortIndexes` does to one inverted list. -/
def sortDocList (doc_list : List Int) : List Int := unique (sort doc_list)

/-- What `sortIndexes` does to one coordinate list. -/
def sortDocPositions (doc_positions : List TermPositions) : List TermPositions :=
  (sortByDocId doc_positions).map fun term_pos =>
    ⟨term_pos.doc_id, unique (sort term_pos.positions)⟩

/-- The `skip_target = skip_target->next` step on node indices of a chain of
`n` nodes: the last node has a null `next`. -/
def skipNext (n : Nat) : Option Nat → Option Nat
  | none => none
  | some i => if i + 1 < n then some (i + 1) else none

/-- The inner loop of `addSkipPointers`: at most `skip_step` hops from `target`. -/
def skipTarget (n : Nat) : Nat → Option Nat → Option Nat
  | 0, target => target
  | _ + 1, none => none
  | hops + 1, some i => skipTarget n hops (skipNext n (some i))

/-- The `while (current)` loop of `addSkipPointers` over the nodes from index
`count` on. -/
def addSkipPointers.loop (n skip_step : Nat) : List SkipListNode → Nat → List SkipListNode
  | [], _ => []
  | current :: rest, count =>
    (if count % skip_step = 0 then
        ({ current with skip := skipTarget n skip_step (some count) } : SkipListNode)
      else current) :: addSkipPointers.loop n skip_step rest (count + 1)

/-- Embedding of `TextIndexer::addSkipPointers`. -/
def addSkipPointers (head : List SkipListNode) (list_size : Nat) : List SkipListNode :=
  if head.isEmpty || list_size < 3 then head
  else addSkipPointers.loop list_size (Nat.sqrt list_size) head 0

/-- Embedding of `TextIndexer::buildSkipLists`: cleared, then one chain for every non-empty
list of the global inverted index. -/
def buildSkipLists (s : TextIndexer) : TextIndexer :=
  { s with
    skip_lists := fun term =>
      match s.inverted_index term with
      | none => none
      | some doc_list =>
        if doc_list.isEmpty then none
        else some (addSkipPointers (doc_list.map fun d => ⟨d, none⟩) doc_list.length) }

/-- Embedding of `TextIndexer::sortIndexes`. -/
def sortIndexes (s : TextIndexer) : TextIndexer :=
  buildSkipLists
    { s with
      inverted_index := s.inverted_index.mapValues sortDocList
      coordinate_index := s.coordinate_index.mapValues sortDocPositions
      field_inverted_index := s.field_inverted_index.mapValues (StrMap.mapValues sortDocList)
      field_coordinate_index :=
        s.field_coordinate_index.mapValues (StrMap.mapValues sortDocPositions) }

/-- Embedding of `std::set<int>::insert`. -/
def setInsert : List Int → Int → List Int
  | [], x => [x]
  | a :: rest, x =>
    if x < a then x :: a :: rest
    else if x = a then a :: rest
    else a :: setInsert rest x

/-- One iteration of the loop over `document_pairs` in `addDocument`; the second
component is the local `full_content`. -/
def addDocument.step (doc_id : Int) (acc : TextIndexer × String)
    (pair : String × String) : TextIndexer × String :=
  let s := acc.1
  let full_content := acc.2 ++ (pair.2 ++ " ")
  let s1 : TextIndexer :=
    if pair.1 = "title" then
      { s with doc_titles := fun d => if d = doc_id then some pair.2 else s.doc_titles d }
    else s
  let s2 : TextIndexer :=
    if pair.1 = "content" then
      { s1 with doc_contents := fun d => if d = doc_id then some pair.2 else s1.doc_contents d }
    else s1
  (indexField s2 doc_id pair.1 pair.2, full_content)

/-- The first two statements of `addDocument`: `next_doc_id++` and
`all_doc_ids.insert(doc_id)` with the id taken. -/
def addDocument.allocate (s : TextIndexer) : TextIndexer :=
  { s with
    next_doc_id := s.next_doc_id + 1
    all_doc_ids := setInsert s.all_doc_ids s.next_doc_id }

/-- Embedding of `TextIndexer::addDocument`: the returned id and the indexer after the call. -/
def addDocument (s : TextIndexer) (document_pairs : List (String × String)) :
    Int × TextIndexer :=
  let doc_id := s.next_doc_id
  let r := document_pairs.foldl (addDocument.step doc_id) (addDocument.allocate s, "")
  (doc_id, sortIndexes (indexDocumentFields r.1 doc_id r.2))

/-- The indexer states a program can hold: a fresh indexer, then any finite
sequence of `addDocument` calls. -/
inductive Reachable : TextIndexer → Prop where
  | init : Reachable TextIndexer.init
  | add (s : TextIndexer) (document_pairs : List (String × String)) :
      Reachable s → Reachable (addDocument s document_pairs).2

/-! ## Shapes of query trees -/

/-- A node `make_shared<ASTNode>(OperatorType::TERM, term, field)`. -/
def mkTERM (value field : String) : ASTNode := .node .TERM value field 0 .null .null

/-- An `AND` node as the parser builds it: `make_shared<ASTNode>(OperatorType::AND)`
with `left` and `right` assigned. -/
def mkAND (left right : ASTNode) : ASTNode := .node .AND "" "" 0 left right

/-- An `OR` node as the parser builds it. -/
def mkOR (left right : ASTNode) : ASTNode := .node .OR "" "" 0 left right

/-- A `NOT` node as the parser builds it: only `left` is assigned. -/
def mkNOT (operand : ASTNode) : ASTNode := .node .NOT "" "" 0 operand .null

/-- A `NEAR` or `ADJ` node as the parser builds it:
`make_shared<ASTNode>(type, "", "", distance)` with `left` and `right` assigned. -/
def mkProximity (type : OperatorType) (distance : Int) (left right : ASTNode) : ASTNode :=
  .node type "" "" distance left right

/-- The pointer is not null and the node is a `TERM`. -/
def ASTNode.isTerm : ASTNode → Bool
  | .node .TERM _ _ _ _ _ => true
  | _ => false

/-- Every `NEAR` and `ADJ` node that the evaluation visits has two `TERM`
children. -/
def ASTNode.wellFormed : ASTNode → Bool
  | .null => true
  | .node .TERM _ _ _ _ _ => true
  | .node .AND _ _ _ left right => left.wellFormed && right.wellFormed
  | .node .OR _ _ _ left right => left.wellFormed && right.wellFormed
  | .node .NOT _ _ _ left _ => left.wellFormed
  | .node .NEAR _ _ _ left right => left.isTerm && right.isTerm
  | .node .ADJ _ _ _ left right => left.isTerm && right.isTerm

/-! ## Query lexer and parser (`class QueryParser`) -/

/-- What stops a query: an exception thrown by `std::stoi`, the dereference of a
null pointer, or the exhaustion of the fuel of the embedding (which the fuel
passed by `QueryParser.parse` excludes). -/
inductive QueryError where
  | invalid_argument
  | out_of_range
  | null_dereference
  | out_of_fuel
  deriving DecidableEq, Repr

/-- Embedding of `str.find(pre) == 0`: the string begins with `pre`. -/
def startsWith : List Char → List Char → Bool
  | [], _ => true
  | _ :: _, [] => false
  | p :: ps, c :: cs => p = c && startsWith ps cs

/-- The characters `( ) ~ /` that the lexer emits as tokens of their own. -/
def isQueryPunct (c : Char) : Bool :=
  c = '(' || c = ')' || c = '~' || c = '/'

/-- The `for (char c : query)` loop of `tokenizeQuery` and the flush after it. -/
def tokenizeQuery.loop : List Char → List Char → Bool → List String → List String
  | [], token, _, tokens =>
    if !token.isEmpty then tokens ++ [String.mk token] else tokens
  | c :: cs, token, in_quotes, tokens =>
    if c = '"' then
      if !token.isEmpty then tokenizeQuery.loop cs [] (!in_quotes) (tokens ++ [String.mk token])
      else tokenizeQuery.loop cs token (!in_quotes) tokens
    else if isspace c && !in_quotes then
      if !token.isEmpty then tokenizeQuery.loop cs [] in_quotes (tokens ++ [String.mk token])
      else tokenizeQuery.loop cs token in_quotes tokens
    else if isQueryPunct c && !in_quotes then
      if !token.isEmpty then
        tokenizeQuery.loop cs [] in_quotes (tokens ++ [String.mk token] ++ [String.mk [c]])
      else tokenizeQuery.loop cs token in_quotes (tokens ++ [String.mk [c]])
    else tokenizeQuery.loop cs (token ++ [c]) in_quotes tokens

/-- The test `!tokens[i + 2].empty() && isdigit(tokens[i + 2][0])`. -/
def beginsWithDigit (tok : String) : Bool :=
  match tok.toList with
  | [] => false
  | c :: _ => isdigit c

/-- The second loop of `tokenizeQuery`, over the tokens from `i` on: `NEAR` or
`ADJ`, `/` and a token beginning with a digit become one token. -/
def combineTokens : List String → List String
  | [] => []
  | [t] => [t]
  | [t, t1] => t :: combineTokens [t1]
  | t :: t1 :: t2 :: rest =>
    if (t = "NEAR" || t = "ADJ") && t1 = "/" && beginsWithDigit t2 then
      (t ++ "/" ++ t2) :: combineTokens rest
    else t :: combineTokens (t1 :: t2 :: rest)

/-- Embedding of `QueryParser::tokenizeQuery`: the member `tokens` after the constructor. -/
def tokenizeQuery (query : String) : List String :=
  combineTokens (tokenizeQuery.loop query.toList [] false [])

/-- The quote stripping of `parseFieldTerm`: `term.substr(1, term.length() - 2)`
when the term has at least two characters, the first and the last a quote. -/
def stripQuotes (term : List Char) : List Char :=
  if 2 ≤ term.length ∧ term.head? = some '"' ∧ term.getLast? = some '"' then
    (term.drop 1).take (term.length - 2)
  else term

/-- Embedding of `QueryParser::parseFieldTerm`. -/
def parseFieldTerm (term_str : String) : ASTNode :=
  let cs := term_str.toList
  let colon_pos := cs.indexOf ':'
  if colon_pos < cs.length ∧ 0 < colon_pos ∧ colon_pos < cs.length - 1 then
    .node .TERM (String.mk (stripQuotes (cs.drop (colon_pos + 1))))
      (String.mk (cs.take colon_pos)) 0 .null .null
  else .node .TERM (String.mk (stripQuotes cs)) "" 0 .null .null

/-- The value of a run of decimal digits. -/
def digitsValue (digits : List Char) : Int :=
  digits.foldl (fun acc c => acc * 10 + ((c.toNat : Int) - 48)) 0

/-- Embedding of `std::stoi`: leading white space, an optional sign, then decimal digits up to
the first other character; `invalid_argument` without a digit, `out_of_range`
when the value is not an `int`. -/
def stoi (str : List Char) : Except QueryError Int :=
  let s1 := str.dropWhile isspace
  let negative := s1.head? = some '-'
  let s2 := if s1.head? = some '-' ∨ s1.head? = some '+' then s1.drop 1 else s1
  let digits := s2.takeWhile isdigit
  if digits.isEmpty then .error .invalid_argument
  else
    let v := if negative then -digitsValue digits else digitsValue digits
    if v < -2147483648 ∨ 2147483647 < v then .error .out_of_range else .ok v

/-- A returned node with the value of `current` after the call. -/
abbrev ParseResult : Type := Except QueryError (ASTNode × Nat)

/-- The test `tok.find("NEAR/") == 0 || tok.find("ADJ/") == 0`. -/
def isProximityToken (tok : String) : Bool :=
  startsWith "NEAR/".toList tok.toList || startsWith "ADJ/".toList tok.toList

/-- Embedding of `QueryParser::parsePrimary`; `parseOr` is the recursive call, taking the
value of `current` at the call. -/
def parsePrimary (parseOr : Nat → ParseResult) (tokens : List String) (current : Nat) :
    ParseResult :=
  if tokens.length ≤ current then .ok (.null, current)
  else if tokens.getD current "" = "(" then
    match parseOr (current + 1) with
    | .error e => .error e
    | .ok (node, cur) =>
      if cur < tokens.length ∧ tokens.getD cur "" = ")" then .ok (node, cur + 1)
      else .ok (node, cur)
  else if current + 2 < tokens.length ∧ isProximityToken (tokens.getD (current + 1) "") then
    let term1 := tokens.getD current ""
    let op_with_dist := (tokens.getD (current + 1) "").toList
    let term2 := tokens.getD (current + 2) ""
    let slash_pos := op_with_dist.indexOf '/'
    let op := op_with_dist.take slash_pos
    match stoi (op_with_dist.drop (slash_pos + 1)) with
    | .error e => .error e
    | .ok distance =>
      .ok (mkProximity (if op = "NEAR".toList then .NEAR else .ADJ) distance
            (parseFieldTerm term1) (parseFieldTerm term2), current + 3)
  else .ok (parseFieldTerm (tokens.getD current ""), current + 1)

/-- Embedding of `QueryParser::parseNot`. -/
def parseNot (parseOr : Nat → ParseResult) (tokens : List String) (current : Nat) :
    ParseResult :=
  if current < tokens.length ∧ tokens.getD current "" = "NOT" then
    match parsePrimary parseOr tokens (current + 1) with
    | .error e => .error e
    | .ok (operand, cur) => .ok (mkNOT operand, cur)
  else parsePrimary parseOr tokens current

/-- The `while` loop of `parseAnd`, bounded by `fuel` iterations. -/
def parseAnd.loop (parseOr : Nat → ParseResult) (tokens : List String) :
    Nat → ASTNode → Nat → ParseResult
  | 0, _, _ => .error .out_of_fuel
  | fuel + 1, left, current =>
    if current < tokens.length then
      if tokens.getD current "" = "OR" ∨ tokens.getD current "" = "NOT" ∨
          tokens.getD current "" = ")" then .ok (left, current)
      else if isProximityToken (tokens.getD current "") then .ok (left, current)
      else
        match parseNot parseOr tokens
            (if tokens.getD current "" = "AND" then current + 1 else current) with
        | .error e => .error e
        | .ok (.null, cur) => .ok (left, cur)
        | .ok (right, cur) => parseAnd.loop parseOr tokens fuel (mkAND left right) cur
    else .ok (left, current)

/-- Embedding of `QueryParser::parseAnd`. -/
def parseAnd (parseOr : Nat → ParseResult) (tokens : List String) (current : Nat) :
    ParseResult :=
  match parseNot parseOr tokens current with
  | .error e => .error e
  | .ok (left, cur) => parseAnd.loop parseOr tokens (tokens.length + 1) left cur

/-- The `while` loop of `parseOr`, bounded by `fuel` iterations. -/
def parseOr.loop (parseOr : Nat → ParseResult) (tokens : List String) :
    Nat → ASTNode → Nat → ParseResult
  | 0, _, _ => .error .out_of_fuel
  | fuel + 1, left, current =>
    if current < tokens.length ∧ tokens.getD current "" = "OR" then
      match parseAnd parseOr tokens (current + 1) with
      | .error e => .error e
      | .ok (right, cur) => parseOr.loop parseOr tokens fuel (mkOR left right) cur
    else .ok (left, current)

/-- Embedding of `QueryParser::parseOr`; `depth` bounds the nesting of the recursion through
`parsePrimary`. -/
def parseOr : Nat → List String → Nat → ParseResult
  | 0, _, _ => .error .out_of_fuel
  | depth + 1, tokens, current =>
    match parseAnd (parseOr depth tokens) tokens current with
    | .error e => .error e
    | .ok (left, cur) => parseOr.loop (parseOr depth tokens) tokens (tokens.length + 1) left cur

/-- Embedding of `QueryParser::parse` on the tokens of the query. -/
def QueryParser.parse (query : String) : Except QueryError ASTNode :=
  let tokens := tokenizeQuery query
  if tokens.isEmpty then .ok .null
  else
    match parseOr (tokens.length + 1) tokens 0 with
    | .error e => .error e
    | .ok (node, _) => .ok node

/-! ## Query evaluation -/

/-- Embedding of `TextIndexer::searchTerm`. -/
def searchTerm (s : TextIndexer) (term : String) (field : String) : List Int :=
  let normalized_term := normalizeTerm term
  if !field.isEmpty then
    match s.field_inverted_index field with
    | some field_index =>
      match field_index normalized_term with
      | some doc_list => doc_list
      | none => []
    | none => []
  else
    match s.inverted_index normalized_term with
    | some doc_list => doc_list
    | none => []

/-- The `while` loop of `executeAND` on the unread suffixes of the two lists;
the value is what the loop still pushes to `result`. -/
def executeAND.loop : Nat → List Int → List Int → List Int
  | 0, _, _ => []
  | _ + 1, [], _ => []
  | _ + 1, _ :: _, [] => []
  | fuel + 1, a :: as, b :: bs =>
    if a = b then a :: executeAND.loop fuel as bs
    else if a < b then executeAND.loop fuel as (b :: bs)
    else executeAND.loop fuel (a :: as) bs

/-- Embedding of `TextIndexer::executeAND`. -/
def executeAND (list1 list2 : List Int) : List Int :=
  if list1.isEmpty || list2.isEmpty then []
  else executeAND.loop (list1.length + list2.length) list1 list2

/-- The three `while` loops of `executeOR` on the unread suffixes: when one list
is exhausted the rest of the other is pushed. -/
def executeOR.loop : Nat → List Int → List Int → List Int
  | 0, _, _ => []
  | _ + 1, [], l2 => l2
  | _ + 1, a :: as, [] => a :: as
  | fuel + 1, a :: as, b :: bs =>
    if a < b then a :: executeOR.loop fuel as (b :: bs)
    else if a > b then b :: executeOR.loop fuel (a :: as) bs
    else a :: executeOR.loop fuel as bs

/-- Embedding of `TextIndexer::executeOR`. -/
def executeOR (list1 list2 : List Int) : List Int :=
  if list1.isEmpty then list2
  else if list2.isEmpty then list1
  else executeOR.loop (list1.length + list2.length) list1 list2

/-- Embedding of `std::lower_bound` on `list[first, first + len)`: the halving loop, bounded
by `fuel` iterations. -/
def lower_bound (list : List Int) (val : Int) : Nat → Nat → Nat → Nat
  | 0, first, _ => first
  | fuel + 1, first, len =>
    if 0 < len then
      let half := len / 2
      let middle := first + half
      if list.getD middle 0 < val then
        lower_bound list val fuel (middle + 1) (len - half - 1)
      else lower_bound list val fuel first half
    else first

/-- Embedding of `std::binary_search(list.begin(), list.end(), val)`: the lower bound is not
the end and `val` is not less than the element there. -/
def binary_search (list : List Int) (val : Int) : Bool :=
  let i := lower_bound list val list.length 0 list.length
  decide (i ≠ list.length) && !decide (val < list.getD i 0)

/-- Embedding of `TextIndexer::executeNOT`: the loop over the set `all_doc_ids`, ascending. -/
def executeNOT (s : TextIndexer) (list : List Int) : List Int :=
  s.all_doc_ids.filter fun doc_id => !binary_search list doc_id

/-- Embedding of `std::abs` on `int`. -/
def intAbs (x : Int) : Int := if x < 0 then -x else x

/-- Embedding of `TextIndexer::hasClosePositions` on the unread suffixes of the two position
lists. -/
def hasClosePositions.loop (max_distance : Int) : Nat → List Int → List Int → Bool
  | 0, _, _ => false
  | _ + 1, [], _ => false
  | _ + 1, _ :: _, [] => false
  | fuel + 1, p1 :: ps1, p2 :: ps2 =>
    let distance := intAbs (p1 - p2)
    if distance ≤ max_distance then true
    else if p1 < p2 then hasClosePositions.loop max_distance fuel ps1 (p2 :: ps2)
    else hasClosePositions.loop max_distance fuel (p1 :: ps1) ps2

/-- Embedding of `TextIndexer::hasClosePositions`. -/
def hasClosePositions (positions1 positions2 : List Int) (max_distance : Int) : Bool :=
  hasClosePositions.loop max_distance (positions1.length + positions2.length)
    positions1 positions2

/-- Embedding of `TextIndexer::hasAdjacentPositions` on the unread suffixes of the two position
lists. -/
def hasAdjacentPositions.loop (max_distance : Int) : Nat → List Int → List Int → Bool
  | 0, _, _ => false
  | _ + 1, [], _ => false
  | _ + 1, _ :: _, [] => false
  | fuel + 1, p1 :: ps1, p2 :: ps2 =>
    let distance := p2 - p1
    if 0 < distance ∧ distance ≤ max_distance then true
    else if p1 < p2 then hasAdjacentPositions.loop max_distance fuel ps1 (p2 :: ps2)
    else hasAdjacentPositions.loop max_distance fuel (p1 :: ps1) ps2

/-- Embedding of `TextIndexer::hasAdjacentPositions`. -/
def hasAdjacentPositions (positions1 positions2 : List Int) (max_distance : Int) : Bool :=
  hasAdjacentPositions.loop max_distance (positions1.length + positions2.length)
    positions1 positions2

/-- The position test of `executeProximityQuery`, chosen by `adjacent_only`. -/
def positionsMatch (adjacent_only : Bool) (positions1 positions2 : List Int)
    (max_distance : Int) : Bool :=
  if adjacent_only then hasAdjacentPositions positions1 positions2 max_distance
  else hasClosePositions positions1 positions2 max_distance

/-- The `while` loop of `executeProximityQuery` on the unread suffixes of the two
coordinate lists. -/
def executeProximityQuery.loop (max_distance : Int) (adjacent_only : Bool) :
    Nat → List TermPositions → List TermPositions → List Int
  | 0, _, _ => []
  | _ + 1, [], _ => []
  | _ + 1, _ :: _, [] => []
  | fuel + 1, e1 :: l1, e2 :: l2 =>
    if e1.doc_id = e2.doc_id then
      if positionsMatch adjacent_only e1.positions e2.positions max_distance then
        e1.doc_id :: executeProximityQuery.loop max_distance adjacent_only fuel l1 l2
      else executeProximityQuery.loop max_distance adjacent_only fuel l1 l2
    else if e1.doc_id < e2.doc_id then
      executeProximityQuery.loop max_distance adjacent_only fuel l1 (e2 :: l2)
    else executeProximityQuery.loop max_distance adjacent_only fuel (e1 :: l1) l2

/-- The lookup of one operand of `executeProximityQuery`: the coordinate list of
the normalised term in the global index when `field` is empty, in the index of
`field` otherwise; `none` is the null `list_ptr`. -/
def coordinateList (s : TextIndexer) (norm_term : String) (field : String) :
    Option (List TermPositions) :=
  if field.isEmpty then s.coordinate_index norm_term
  else
    match s.field_coordinate_index field with
    | some coord_index => coord_index norm_term
    | none => none

/-- Embedding of `TextIndexer::executeProximityQuery`. -/
def executeProximityQuery (s : TextIndexer) (term1 term2 field1 field2 : String)
    (max_distance : Int) (adjacent_only : Bool) : List Int :=
  let norm_term1 := normalizeTerm term1
  let norm_term2 := normalizeTerm term2
  match coordinateList s norm_term1 field1, coordinateList s norm_term2 field2 with
  | some list1, some list2 =>
    executeProximityQuery.loop max_distance adjacent_only (list1.length + list2.length)
      list1 list2
  | _, _ => []

/-- Embedding of `TextIndexer::evaluateAST`. `none` is the dereference of a null child in the
`NEAR` and `ADJ` cases. -/
def evaluateAST (s : TextIndexer) : ASTNode → Option (List Int)
  | .null => some []
  | .node .TERM value field _ _ _ => some (searchTerm s value field)
  | .node .AND _ _ _ left right =>
    match evaluateAST s left, evaluateAST s right with
    | some l, some r => some (executeAND l r)
    | _, _ => none
  | .node .OR _ _ _ left right =>
    match evaluateAST s left, evaluateAST s right with
    | some l, some r => some (executeOR l r)
    | _, _ => none
  | .node .NOT _ _ _ left _ =>
    match evaluateAST s left with
    | some l => some (executeNOT s l)
    | none => none
  | .node .NEAR _ _ distance (.node _ lvalue lfield _ _ _) (.node _ rvalue rfield _ _ _) =>
    some (executeProximityQuery s lvalue rvalue lfield rfield distance false)
  | .node .ADJ _ _ distance (.node _ lvalue lfield _ _ _) (.node _ rvalue rfield _ _ _) =>
    some (executeProximityQuery s lvalue rvalue lfield rfield distance true)
  | .node .NEAR _ _ _ _ _ => none
  | .node .ADJ _ _ _ _ _ => none

/-! ## Scopes -/

/-- The inverted list of `term` in a scope, the global index for `none` and the
index of the field for `some field`; empty when no list is stored. -/
def invListOf (s : TextIndexer) (scope : Option String) (term : String) : List Int :=
  match scope with
  | none => s.inverted_index.at term []
  | some field => (s.field_inverted_index.at field StrMap.empty).at term []

/-- The coordinate list of `term` in a scope; empty when no list is stored. -/
def coordListOf (s : TextIndexer) (scope : Option String) (term : String) :
    List TermPositions :=
  match scope with
  | none => s.coordinate_index.at term []
  | some field => (s.field_coordinate_index.at field StrMap.empty).at term []

/-! ## Invariants -/

/-- What the index keeps at every point of `addDocument`, sorted or not: no doc id
twice in a coordinate list, the same doc ids in the inverted and the coordinate
list of a scope and term, and only assigned doc ids. -/
structure Coherent (s : TextIndexer) : Prop where
  nodup : ∀ scope term, ((coordListOf s scope term).map TermPositions.doc_id).Nodup
  coh : ∀ scope term d,
    d ∈ invListOf s scope term ↔ d ∈ (coordListOf s scope term).map TermPositions.doc_id
  ids : ∀ scope term d, d ∈ invListOf s scope term → d ∈ s.all_doc_ids
  universe_sorted : s.all_doc_ids.Sorted (· < ·)
  fresh : ∀ d, d ∈ s.all_doc_ids → d < s.next_doc_id

/-- What holds after `sortIndexes`: every list is strictly ascending. -/
structure IndexSorted (s : TextIndexer) : Prop where
  inv_sorted : ∀ scope term, (invListOf s scope term).Sorted (· < ·)
  coord_sorted : ∀ scope term,
    ((coordListOf s scope term).map TermPositions.doc_id).Sorted (· < ·)
  positions_sorted : ∀ scope term e, e ∈ coordListOf s scope term →
    e.positions.Sorted (· < ·)

/-- Embedding of `TextIndexer::executeQuery`. -/
def executeQuery (s : TextIndexer) (query : String) : Except QueryError (List Int) :=
  match QueryParser.parse query with
  | .error e => .error e
  | .ok .null => .ok []
  | .ok ast =>
    match evaluateAST s ast with
    | some result => .ok result
    | none => .error .null_dereference

/-- A lexeme that the lexer leaves in one piece: not empty, without white space,
double quotes and the characters `( ) ~ /`. -/
def isPlainLexeme (x : String) : Bool :=
  !x.toList.isEmpty && x.toList.all fun c => !(c = '"') && !isspace c && !isQueryPunct c

/-! ## Sequences of calls -/

/-- A caller that adds the documents in order: the ids returned by the calls of
`addDocument`, and the indexer after the last call. -/
def addDocuments : TextIndexer → List (List (String × String)) → List Int × TextIndexer
  | s, [] => ([], s)
  | s, document_pairs :: rest =>
    ((addDocument s document_pairs).1 :: (addDocuments (addDocument s document_pairs).2 rest).1,
      (addDocuments (addDocument s document_pairs).2 rest).2)

/-- Embedding of `TextIndexer::getDocumentTitle`. -/
def getDocumentTitle (s : TextIndexer) (doc_id : Int) : String :=
  match s.doc_titles doc_id with
  | some title => title
  | none => "Document " ++ toString doc_id

/-- Embedding of `TextIndexer::getDocumentContent`. -/
def getDocumentContent (s : TextIndexer) (doc_id : Int) : String :=
  match s.doc_contents doc_id with
  | some content => content
  | none => ""

/-! ## The fixture of the end-to-end scenarios -/

/-- The three documents of the scenarios, as pairs of a title and a content. -/
def fixtureDocuments : List (List (String × String)) :=
  [[("title", "Cats"), ("content", "the quick brown fox jumps over the lazy dog")],
   [("title", "Dogs"), ("content", "the lazy dog sleeps")],
   [("title", "Mix"), ("content", "quick dog and lazy fox")]]

/-- A fresh indexer after the three documents. -/
def fixtureIndexer : TextIndexer := (addDocuments TextIndexer.init fixtureDocuments).2

/-- The lists of `t` are those of `s`, each with at most one addition at its end:
the id `d` in an inverted list, an entry of `d` in a coordinate list. -/
structure GrowsBy (s t : TextIndexer) (d : Int) : Prop where
  inv : ∀ scope term,
    invListOf t scope term = invListOf s scope term ∨
    invListOf t scope term = invListOf s scope term ++ [d]
  coord : ∀ scope term,
    coordListOf t scope term = coordListOf s scope term ∨
    ∃ positions, coordListOf t scope term = coordListOf s scope term ++ [⟨d, positions⟩]

/-! ## Plain terms and chains -/

/-- A plain term lexeme: a plain lexeme that is none of the keywords `AND`, `OR`,
`NOT` (a plain lexeme is no parenthesis and no proximity operator, having no
`(`, `)` and `/`). -/
def isPlainTerm (x : String) : Bool :=
  isPlainLexeme x && !(x = "AND" || x = "OR" || x = "NOT")

/-- The left-nested chain `AND(...AND(AND(t1, t2), t3)..., tn)` of `TERM` nodes. -/
def andChain : List String → ASTNode
  | [] => .null
  | t :: rest => rest.foldl (fun left t' => mkAND left (parseFieldTerm t')) (parseFieldTerm t)

/-- The tokens of one operand of a chain: the term, after an explicit `AND` when
the flag is set. -/
def itemTokens (item : Bool × String) : List String :=
  if item.1 then ["AND", item.2] else [item.2]

/-- The failures that are exceptions of the program: those thrown by `std::stoi`. -/
def QueryError.isStoiError (e : QueryError) : Bool :=
  e = .invalid_argument || e = .out_of_range

/-- What the parser functions assume of the recursive call `parseOr` from the
position `lo` on: it fails only by an exception of `std::stoi`, and it returns
with `current` moved forward and not beyond the end of the tokens. -/
def RecursionOK (recOr : Nat → ParseResult) (tokens : List String) (lo : Nat) : Prop :=
  ∀ c, lo ≤ c → c ≤ tokens.length →
    (∀ e, recOr c = .error e → e.isStoiError = true) ∧
    (∀ node cur, recOr c = .ok (node, cur) → c ≤ cur ∧ cur ≤ tokens.length)

/-! ## Reference definitions for the content of the coordinate index -/

/-- The positions stored under `term` in the local map `term_positions`, if the
term is a key. -/
def TermPosMap.find : TermPosMap → String → Option (List Int)
  | [], _ => none
  | (t, ps) :: rest, term => if t = term then some ps else TermPosMap.find rest term

/-- The ascending list of the indices `i` of the token sequence with
`normalizeTerm(tokens[i]) = term`, as positions. -/
def termIndices (tokens : List String) (term : String) : List Int :=
  ((List.range tokens.length).filter fun i => normalizeTerm (tokens.getD i "") = term).map
    Int.ofNat

/-- The positions that the entry of document `d` holds in the coordinate list of
a scope and term; empty when the list has no entry of `d`. -/
def positionsOf (s : TextIndexer) (scope : Option String) (term : String) (d : Int) :
    List Int :=
  match (coordListOf s scope term).find? fun e => e.doc_id = d with
  | some e => e.positions
  | none => []

/-- The empty string is no key of an inverted or coordinate index, global or of a
field. -/
structure NoEmptyKey (s : TextIndexer) : Prop where
  inverted : s.inverted_index "" = none
  coordinate : s.coordinate_index "" = none
  field_inverted : ∀ field idx, s.field_inverted_index field = some idx → idx "" = none
  field_coordinate : ∀ field idx, s.field_coordinate_index field = some idx → idx "" = none

/-! ## The position predicates on `int` operands -/

/-- The value of an `int` expression whose exact result is `x`: two's complement
arithmetic keeps the result modulo `2^32` in `[-2^31, 2^31)`. -/
def wrap32 (x : Int) : Int := (x + 2147483648) % 4294967296 - 2147483648

/-- Embedding of `std::abs` on an `int` operand: the negation wraps as well, so
`abs` of `-2^31` is `-2^31`. -/
def abs32 (x : Int) : Int := wrap32 (intAbs x)

/-- Embedding of the loop of `TextIndexer::hasClosePositions` with the `int`
subtraction `positions1[i] - positions2[j]` and `abs` of the source. -/
def hasClosePositions32.loop (max_distance : Int) : Nat → List Int → List Int → Bool
  | 0, _, _ => false
  | _ + 1, [], _ => false
  | _ + 1, _ :: _, [] => false
  | fuel + 1, p1 :: ps1, p2 :: ps2 =>
    let distance := abs32 (wrap32 (p1 - p2))
    if distance ≤ max_distance then true
    else if p1 < p2 then hasClosePositions32.loop max_distance fuel ps1 (p2 :: ps2)
    else hasClosePositions32.loop max_distance fuel (p1 :: ps1) ps2

/-- Embedding of `TextIndexer::hasClosePositions` on `int` operands. -/
def hasClosePositions32 (positions1 positions2 : List Int) (max_distance : Int) : Bool :=
  hasClosePositions32.loop max_distance (positions1.length + positions2.length)
    positions1 positions2

/-- Embedding of the loop of `TextIndexer::hasAdjacentPositions` with the `int`
subtraction `positions2[j] - positions1[i]` of the source. -/
def hasAdjacentPositions32.loop (max_distance : Int) : Nat → List Int → List Int → Bool
  | 0, _, _ => false
  | _ + 1, [], _ => false
  | _ + 1, _ :: _, [] => false
  | fuel + 1, p1 :: ps1, p2 :: ps2 =>
    let distance := wrap32 (p2 - p1)
    if 0 < distance ∧ distance ≤ max_distance then true
    else if p1 < p2 then hasAdjacentPositions32.loop max_distance fuel ps1 (p2 :: ps2)
    else hasAdjacentPositions32.loop max_distance fuel (p1 :: ps1) ps2

/-- Embedding of `TextIndexer::hasAdjacentPositions` on `int` operands. -/
def hasAdjacentPositions32 (positions1 positions2 : List Int) (max_distance : Int) : Bool :=
  hasAdjacentPositions32.loop max_distance (positions1.length + positions2.length)
    positions1 positions2

/-- The differences of a position of the first list and a position of the second
are exact in `int` arithmetic: they lie strictly between `-2^31` and `2^31`. -/
def DifferencesFit (positions1 positions2 : List Int) : Prop :=
  ∀ p1, p1 ∈ positions1 → ∀ p2, p2 ∈ positions2 →
    -2147483648 < p1 - p2 ∧ p1 - p2 < 2147483648

/-- A field name that a query can address as `f:t`: a plain lexeme without a colon. -/
def isFieldName (f : String) : Bool :=
  isPlainLexeme f && !f.toList.contains ':'

/-! # Theorems -/

open List

/-! ## Postings algebra -/

theorem sorted_lt_ext {l1 l2 : List Int} (h1 : l1.Sorted (· < ·)) (h2 : l2.Sorted (· < ·))
    (h : ∀ x, x ∈ l1 ↔ x ∈ l2) : l1 = l2 :=
  List.eq_of_perm_of_sorted ((List.perm_ext_iff_of_nodup h1.nodup h2.nodup).2 h) h1 h2

theorem executeAND.loop_eq_filter (fuel : Nat) (l1 l2 : List Int)
    (hf : l1.length + l2.length ≤ fuel)
    (h1 : l1.Sorted (· < ·)) (h2 : l2.Sorted (· < ·)) :
    executeAND.loop fuel l1 l2 = l1.filter (fun x => decide (x ∈ l2)) := by
  induction fuel generalizing l1 l2 with
  | zero =>
    have : l1 = [] := by
      cases l1 with
      | nil => rfl
      | cons a as => simp at hf
    subst this
    simp [executeAND.loop]
  | succ fuel ih =>
    cases l1 with
    | nil => simp [executeAND.loop]
    | cons a as =>
      cases l2 with
      | nil => simp [executeAND.loop]
      | cons b bs =>
        have ha := List.sorted_cons.1 h1
        have hb := List.sorted_cons.1 h2
        simp only [List.length_cons] at hf
        by_cases hab : a = b
        · subst hab
          have e : as.filter (fun x => decide (x ∈ a :: bs)) = as.filter (fun x => decide (x ∈ bs)) := by
            apply List.filter_congr
            intro x hx
            have := ha.1 x hx
            have hne : x ≠ a := by omega
            simp [hne]
          simp only [executeAND.loop, if_true]
          rw [ih as bs (by omega) ha.2 hb.2, List.filter_cons_of_pos (by simp), e]
        · by_cases hlt : a < b
          · have hnot : a ∉ b :: bs := by
              intro hm
              rcases List.mem_cons.1 hm with h | h
              · exact hab h
              · have := hb.1 a h
                omega
            simp only [executeAND.loop, if_neg hab, if_pos hlt]
            rw [ih as (b :: bs) (by simp; omega) ha.2 h2,
              List.filter_cons_of_neg (by simpa using hnot)]
          · have e : (a :: as).filter (fun x => decide (x ∈ b :: bs))
                = (a :: as).filter (fun x => decide (x ∈ bs)) := by
              apply List.filter_congr
              intro x hx
              have hge : a ≤ x := by
                rcases List.mem_cons.1 hx with h | h
                · omega
                · have := ha.1 x h
                  omega
              have hne : x ≠ b := by omega
              simp [hne]
            simp only [executeAND.loop, if_neg hab, if_neg hlt]
            rw [ih (a :: as) bs (by simp; omega) h1 hb.2, e]

theorem executeAND_eq_filter (L R : List Int)
    (hL : L.Sorted (· < ·)) (hR : R.Sorted (· < ·)) :
    executeAND L R = L.filter (fun x => decide (x ∈ R)) := by
  unfold executeAND
  split
  · rename_i h
    simp only [Bool.or_eq_true, List.isEmpty_iff] at h
    rcases h with h | h
    · subst h; simp
    · subst h; simp
  · exact executeAND.loop_eq_filter _ L R (le_refl _) hL hR

theorem executeAND_filter_spec (L R : List Int)
    (hL : L.Sorted (· < ·)) (hR : R.Sorted (· < ·)) :
    (executeAND L R).Sorted (· < ·) ∧
    (∀ x, x ∈ executeAND L R ↔ x ∈ L ∧ x ∈ R) ∧
    (L = [] ∨ R = [] → executeAND L R = []) := by
  rw [executeAND_eq_filter L R hL hR]
  refine ⟨hL.filter _, ?_, ?_⟩
  · intro x
    simp [List.mem_filter]
  · rintro (h | h)
    · subst h; simp
    · subst h; simp

theorem executeOR.loop_mem (fuel : Nat) (l1 l2 : List Int)
    (hf : l1.length + l2.length ≤ fuel) (x : Int) :
    x ∈ executeOR.loop fuel l1 l2 ↔ x ∈ l1 ∨ x ∈ l2 := by
  induction fuel generalizing l1 l2 with
  | zero =>
    have e1 : l1 = [] := by
      cases l1 with
      | nil => rfl
      | cons a as => simp at hf
    have e2 : l2 = [] := by
      cases l2 with
      | nil => rfl
      | cons a as => simp at hf
    subst e1; subst e2
    simp [executeOR.loop]
  | succ fuel ih =>
    cases l1 with
    | nil => simp [executeOR.loop]
    | cons a as =>
      cases l2 with
      | nil => simp [executeOR.loop]
      | cons b bs =>
        simp only [List.length_cons] at hf
        by_cases hlt : a < b
        · simp only [executeOR.loop, if_pos hlt, List.mem_cons]
          rw [ih as (b :: bs) (by simp; omega)]
          simp only [List.mem_cons]
          tauto
        · by_cases hgt : a > b
          · simp only [executeOR.loop, if_neg hlt, if_pos hgt, List.mem_cons]
            rw [ih (a :: as) bs (by simp; omega)]
            simp only [List.mem_cons]
            tauto
          · have hab : a = b := by omega
            subst hab
            simp only [executeOR.loop, if_neg hlt, if_neg hgt, List.mem_cons]
            rw [ih as bs (by omega)]
            tauto

theorem executeOR.loop_sorted (fuel : Nat) (l1 l2 : List Int)
    (hf : l1.length + l2.length ≤ fuel)
    (h1 : l1.Sorted (· < ·)) (h2 : l2.Sorted (· < ·)) :
    (executeOR.loop fuel l1 l2).Sorted (· < ·) := by
  induction fuel generalizing l1 l2 with
  | zero => simp [executeOR.loop]
  | succ fuel ih =>
    cases l1 with
    | nil => simpa [executeOR.loop] using h2
    | cons a as =>
      cases l2 with
      | nil => simpa [executeOR.loop] using h1
      | cons b bs =>
        have ha := List.sorted_cons.1 h1
        have hb := List.sorted_cons.1 h2
        simp only [List.length_cons] at hf
        by_cases hlt : a < b
        · simp only [executeOR.loop, if_pos hlt]
          refine List.sorted_cons.2 ⟨?_, ih as (b :: bs) (by simp; omega) ha.2 h2⟩
          intro x hx
          rw [executeOR.loop_mem fuel as (b :: bs) (by simp; omega)] at hx
          rcases hx with hx | hx
          · exact ha.1 x hx
          · rcases List.mem_cons.1 hx with h | h
            · omega
            · have := hb.1 x h
              omega
        · by_cases hgt : a > b
          · simp only [executeOR.loop, if_neg hlt, if_pos hgt]
            refine List.sorted_cons.2 ⟨?_, ih (a :: as) bs (by simp; omega) h1 hb.2⟩
            intro x hx
            rw [executeOR.loop_mem fuel (a :: as) bs (by simp; omega)] at hx
            rcases hx with hx | hx
            · rcases List.mem_cons.1 hx with h | h
              · omega
              · have := ha.1 x h
                omega
            · exact hb.1 x hx
          · have hab : a = b := by omega
            subst hab
            simp only [executeOR.loop, if_neg hlt, if_neg hgt]
            refine List.sorted_cons.2 ⟨?_, ih as bs (by omega) ha.2 hb.2⟩
            intro x hx
            rw [executeOR.loop_mem fuel as bs (by omega)] at hx
            rcases hx with hx | hx
            · exact ha.1 x hx
            · exact hb.1 x hx

theorem executeOR_mem (L R : List Int) (x : Int) :
    x ∈ executeOR L R ↔ x ∈ L ∨ x ∈ R := by
  unfold executeOR
  split
  · rename_i h
    rw [List.isEmpty_iff] at h
    subst h; simp
  · split
    · rename_i h
      rw [List.isEmpty_iff] at h
      subst h; simp
    · exact executeOR.loop_mem _ L R (le_refl _) x

theorem executeOR_sorted (L R : List Int)
    (hL : L.Sorted (· < ·)) (hR : R.Sorted (· < ·)) :
    (executeOR L R).Sorted (· < ·) := by
  unfold executeOR
  split
  · exact hR
  · split
    · exact hL
    · exact executeOR.loop_sorted _ L R (le_refl _) hL hR

/-- C3: on strictly ascending lists `executeOR` returns the strictly ascending
list of exactly the ids that occur in one of the operands, an id of both operands
occurring once in it, and the other operand when one operand is empty. -/
theorem executeOR_spec (L R : List Int)
    (hL : L.Sorted (· < ·)) (hR : R.Sorted (· < ·)) :
    (executeOR L R).Sorted (· < ·) ∧
    (∀ x, x ∈ executeOR L R ↔ x ∈ L ∨ x ∈ R) ∧
    (∀ x, x ∈ L → x ∈ R → (executeOR L R).count x = 1) ∧
    (L = [] → executeOR L R = R) ∧ (R = [] → executeOR L R = L) := by
  have hs := executeOR_sorted L R hL hR
  refine ⟨hs, executeOR_mem L R, ?_, ?_, ?_⟩
  · intro x hx _
    exact List.count_eq_one_of_mem hs.nodup ((executeOR_mem L R x).2 (Or.inl hx))
  · intro h
    subst h
    simp [executeOR]
  · intro h
    subst h
    cases L <;> simp [executeOR]

theorem executeOR_spec_witness :
    ([1, 2, 3] : List Int).Sorted (· < ·) ∧ ([2, 3, 5] : List Int).Sorted (· < ·) ∧
    (executeOR [1, 2, 3] [2, 3, 5]).Sorted (· < ·) ∧
    (∀ x, x ∈ executeOR [1, 2, 3] [2, 3, 5] ↔
      x ∈ ([1, 2, 3] : List Int) ∨ x ∈ ([2, 3, 5] : List Int)) ∧
    (∀ x, x ∈ ([1, 2, 3] : List Int) → x ∈ ([2, 3, 5] : List Int) →
      (executeOR [1, 2, 3] [2, 3, 5]).count x = 1) ∧
    (([1, 2, 3] : List Int) = [] → executeOR [1, 2, 3] [2, 3, 5] = [2, 3, 5]) ∧
    (([2, 3, 5] : List Int) = [] → executeOR [1, 2, 3] [2, 3, 5] = [1, 2, 3]) :=
  ⟨by decide, by decide, executeOR_spec [1, 2, 3] [2, 3, 5] (by decide) (by decide)⟩
/-! ## Binary search and complement -/

theorem sorted_le_getD_mono {l : List Int} (h : l.Sorted (· ≤ ·)) {i j : Nat}
    (hij : i ≤ j) (hj : j < l.length) : l.getD i 0 ≤ l.getD j 0 := by
  have hi : i < l.length := lt_of_le_of_lt hij hj
  rw [List.getD_eq_getElem l 0 hi, List.getD_eq_getElem l 0 hj]
  rcases Nat.eq_or_lt_of_le hij with e | e
  · subst e; exact le_refl _
  · exact (List.pairwise_iff_getElem.1 h) i j hi hj e

theorem lower_bound_spec (list : List Int) (val : Int) (h : list.Sorted (· ≤ ·))
    (fuel first len : Nat) (hf : len ≤ fuel) (hn : first + len ≤ list.length)
    (hlo : ∀ i, i < first → list.getD i 0 < val)
    (hhi : ∀ i, first + len ≤ i → i < list.length → val ≤ list.getD i 0) :
    lower_bound list val fuel first len ≤ list.length ∧
    (∀ i, i < lower_bound list val fuel first len → list.getD i 0 < val) ∧
    (∀ i, lower_bound list val fuel first len ≤ i → i < list.length →
      val ≤ list.getD i 0) := by
  induction fuel generalizing first len with
  | zero =>
    have : len = 0 := by omega
    subst this
    simp only [lower_bound]
    exact ⟨by omega, hlo, fun i hi => hhi i (by omega)⟩
  | succ fuel ih =>
    unfold lower_bound
    by_cases hpos : 0 < len
    · simp only [if_pos hpos]
      have hhalf : len / 2 < len := Nat.div_lt_self hpos (by decide)
      by_cases hmid : list.getD (first + len / 2) 0 < val
      · simp only [if_pos hmid]
        apply ih (first + len / 2 + 1) (len - len / 2 - 1) (by omega) (by omega)
        · intro i hi
          have := sorted_le_getD_mono h (show i ≤ first + len / 2 by omega) (by omega)
          omega
        · intro i hi hin
          exact hhi i (by omega) hin
      · simp only [if_neg hmid]
        apply ih first (len / 2) (by omega) (by omega) hlo
        intro i hi hin
        have := sorted_le_getD_mono h hi hin
        omega
    · simp only [if_neg hpos]
      exact ⟨by omega, hlo, fun i hi => hhi i (by omega)⟩

theorem binary_search_iff (list : List Int) (val : Int) (h : list.Sorted (· ≤ ·)) :
    binary_search list val = true ↔ val ∈ list := by
  obtain ⟨hle, hlo, hhi⟩ := lower_bound_spec list val h list.length 0 list.length
    (le_refl _) (by omega) (by intro i hi; omega) (by intro i hi hin; omega)
  unfold binary_search
  simp only [Bool.and_eq_true, decide_eq_true_eq, Bool.not_eq_true', decide_eq_false_iff_not]
  constructor
  · rintro ⟨hne, hnlt⟩
    have hlt : lower_bound list val list.length 0 list.length < list.length := by omega
    have h1 := hhi _ (le_refl _) hlt
    have e : list.getD (lower_bound list val list.length 0 list.length) 0 = val := by omega
    rw [List.getD_eq_getElem list 0 hlt] at e
    exact List.mem_iff_getElem.2 ⟨_, hlt, e⟩
  · intro hmem
    obtain ⟨i, hi, e⟩ := List.mem_iff_getElem.1 hmem
    have e' : list.getD i 0 = val := by rw [List.getD_eq_getElem list 0 hi]; exact e
    have hri : lower_bound list val list.length 0 list.length ≤ i := by
      by_contra hc
      have := hlo i (by omega)
      omega
    refine ⟨by omega, ?_⟩
    have := sorted_le_getD_mono h hri hi
    omega

theorem sorted_lt_to_le {l : List Int} (h : l.Sorted (· < ·)) : l.Sorted (· ≤ ·) :=
  List.Pairwise.imp (fun hab => le_of_lt hab) h

theorem executeNOT_eq_filter (s : TextIndexer) (L : List Int) (hL : L.Sorted (· ≤ ·)) :
    executeNOT s L = s.all_doc_ids.filter (fun d => decide (d ∉ L)) := by
  unfold executeNOT
  apply List.filter_congr
  intro d _
  by_cases hd : d ∈ L
  · simp [hd, (binary_search_iff L d hL).2 hd]
  · have : binary_search L d = false := by
      cases hb : binary_search L d with
      | false => rfl
      | true => exact absurd ((binary_search_iff L d hL).1 hb) hd
    simp [hd, this]
/-! ## Lists after `sortIndexes` -/

theorem mem_unique : ∀ (l : List Int) (x : Int), x ∈ unique l ↔ x ∈ l
  | [], x => by simp [unique]
  | [a], x => by simp [unique]
  | a :: b :: rest, x => by
    have ih := mem_unique (b :: rest) x
    by_cases hab : a = b
    · subst hab
      simp only [unique, if_true, ih, List.mem_cons]
      tauto
    · simp only [unique, if_neg hab, List.mem_cons, ih]

theorem unique_sorted : ∀ (l : List Int), l.Sorted (· ≤ ·) → (unique l).Sorted (· < ·)
  | [], _ => by simp [unique]
  | [a], _ => by simp [unique]
  | a :: b :: rest, h => by
    have h1 := List.sorted_cons.1 h
    have ih := unique_sorted (b :: rest) h1.2
    by_cases hab : a = b
    · subst hab
      simpa only [unique, if_true] using ih
    · simp only [unique, if_neg hab]
      refine List.sorted_cons.2 ⟨?_, ih⟩
      intro x hx
      rw [mem_unique] at hx
      have hb : a ≤ b := h1.1 b (List.mem_cons_self _ _)
      have h2 := List.sorted_cons.1 h1.2
      rcases List.mem_cons.1 hx with e | e
      · omega
      · have := h2.1 x e
        omega

theorem unique_of_sorted_lt : ∀ (l : List Int), l.Sorted (· < ·) → unique l = l
  | [], _ => by simp [unique]
  | [a], _ => by simp [unique]
  | a :: b :: rest, h => by
    have h1 := List.sorted_cons.1 h
    have hab : a ≠ b := ne_of_lt (h1.1 b (List.mem_cons_self _ _))
    simp only [unique, if_neg hab, unique_of_sorted_lt (b :: rest) h1.2]

theorem sort_sorted (l : List Int) : (sort l).Sorted (· ≤ ·) :=
  List.sorted_insertionSort (· ≤ ·) l

theorem mem_sort (l : List Int) (x : Int) : x ∈ sort l ↔ x ∈ l :=
  (List.perm_insertionSort (· ≤ ·) l).mem_iff

theorem sortDocList_sorted (l : List Int) : (sortDocList l).Sorted (· < ·) :=
  unique_sorted _ (sort_sorted l)

theorem mem_sortDocList (l : List Int) (x : Int) : x ∈ sortDocList l ↔ x ∈ l := by
  unfold sortDocList
  rw [mem_unique, mem_sort]

theorem sortDocList_of_sorted (l : List Int) (h : l.Sorted (· < ·)) : sortDocList l = l := by
  unfold sortDocList sort
  rw [List.Sorted.insertionSort_eq (sorted_lt_to_le h), unique_of_sorted_lt l h]

theorem orderedInsert_map_doc_id (e : TermPositions) (l : List TermPositions) :
    (List.orderedInsert (fun a b : TermPositions => a.doc_id ≤ b.doc_id) e l).map
        TermPositions.doc_id
      = List.orderedInsert (· ≤ ·) e.doc_id (l.map TermPositions.doc_id) := by
  induction l with
  | nil => simp
  | cons b bs ih =>
    by_cases h : e.doc_id ≤ b.doc_id
    · simp [List.orderedInsert, h]
    · simp [List.orderedInsert, h, ih]

theorem sortByDocId_map_doc_id (l : List TermPositions) :
    (sortByDocId l).map TermPositions.doc_id = sort (l.map TermPositions.doc_id) := by
  unfold sortByDocId sort
  induction l with
  | nil => simp
  | cons a as ih =>
    simp only [List.insertionSort, List.map_cons]
    rw [orderedInsert_map_doc_id, ih]

theorem sortDocPositions_map_doc_id (l : List TermPositions) :
    (sortDocPositions l).map TermPositions.doc_id = sort (l.map TermPositions.doc_id) := by
  unfold sortDocPositions
  rw [List.map_map, ← sortByDocId_map_doc_id]
  rfl

theorem sorted_le_nodup_lt {l : List Int} (h : l.Sorted (· ≤ ·)) (hn : l.Nodup) :
    l.Sorted (· < ·) := by
  have := List.Pairwise.and h hn
  exact this.imp (fun hab => lt_of_le_of_ne hab.1 hab.2)

theorem sortDocPositions_sorted (l : List TermPositions)
    (hn : (l.map TermPositions.doc_id).Nodup) :
    ((sortDocPositions l).map TermPositions.doc_id).Sorted (· < ·) := by
  rw [sortDocPositions_map_doc_id]
  refine sorted_le_nodup_lt (sort_sorted _) ?_
  exact (List.perm_insertionSort (· ≤ ·) _).nodup_iff.2 hn

theorem sortDocPositions_positions (l : List TermPositions) (e : TermPositions)
    (he : e ∈ sortDocPositions l) : e.positions.Sorted (· < ·) := by
  unfold sortDocPositions at he
  obtain ⟨e0, _, rfl⟩ := List.mem_map.1 he
  exact sortDocList_sorted _
/-! ## Effect of the indexing steps on the lists of a scope -/

theorem StrMap.at_set {V : Type} (m : StrMap V) (k k' : String) (v d : V) :
    (m.set k v).at k' d = if k' = k then v else m.at k' d := by
  unfold StrMap.at StrMap.set
  by_cases h : k' = k <;> simp [h]

theorem StrMap.at_mapValues {V : Type} (f : V → V) (m : StrMap V) (k : String) (d : V)
    (hd : f d = d) : (m.mapValues f).at k d = f (m.at k d) := by
  unfold StrMap.at StrMap.mapValues
  cases m k <;> simp [hd]

theorem StrMap.at_empty {V : Type} (k : String) (d : V) :
    (StrMap.empty : StrMap V).at k d = d := rfl

theorem StrMap.mapValues_empty {V : Type} (f : V → V) :
    StrMap.mapValues f (StrMap.empty : StrMap V) = StrMap.empty := rfl

theorem invListOf_indexField_step (doc_id : Int) (field_name : String) (s : TextIndexer)
    (entry : String × List Int) (scope : Option String) (term : String) :
    invListOf (indexField.step doc_id field_name s entry) scope term =
      if scope = some field_name ∧ term = entry.1 then
        addToInvList (invListOf s scope term) doc_id
      else invListOf s scope term := by
  cases scope with
  | none => simp [invListOf, indexField.step]
  | some f =>
    simp only [invListOf, indexField.step, StrMap.at_set, Option.some.injEq]
    by_cases hf : f = field_name
    · subst hf
      by_cases ht : term = entry.1
      · simp [ht, StrMap.at_set]
      · simp [ht, StrMap.at_set]
    · simp [hf]

theorem coordListOf_indexField_step (doc_id : Int) (field_name : String) (s : TextIndexer)
    (entry : String × List Int) (scope : Option String) (term : String) :
    coordListOf (indexField.step doc_id field_name s entry) scope term =
      if scope = some field_name ∧ term = entry.1 then
        addToCoordList (coordListOf s scope term) doc_id entry.2
      else coordListOf s scope term := by
  cases scope with
  | none => simp [coordListOf, indexField.step]
  | some f =>
    simp only [coordListOf, indexField.step, StrMap.at_set, Option.some.injEq]
    by_cases hf : f = field_name
    · subst hf
      by_cases ht : term = entry.1
      · simp [ht, StrMap.at_set]
      · simp [ht, StrMap.at_set]
    · simp [hf]

theorem invListOf_indexDocumentFields_step (doc_id : Int) (s : TextIndexer)
    (entry : String × List Int) (scope : Option String) (term : String) :
    invListOf (indexDocumentFields.step doc_id s entry) scope term =
      if scope = none ∧ term = entry.1 then
        addToInvList (invListOf s scope term) doc_id
      else invListOf s scope term := by
  cases scope with
  | none =>
    simp only [invListOf, indexDocumentFields.step, StrMap.at_set]
    by_cases ht : term = entry.1 <;> simp [ht]
  | some f => simp [invListOf, indexDocumentFields.step]

theorem coordListOf_indexDocumentFields_step (doc_id : Int) (s : TextIndexer)
    (entry : String × List Int) (scope : Option String) (term : String) :
    coordListOf (indexDocumentFields.step doc_id s entry) scope term =
      if scope = none ∧ term = entry.1 then
        addToCoordList (coordListOf s scope term) doc_id entry.2
      else coordListOf s scope term := by
  cases scope with
  | none =>
    simp only [coordListOf, indexDocumentFields.step, StrMap.at_set]
    by_cases ht : term = entry.1 <;> simp [ht]
  | some f => simp [coordListOf, indexDocumentFields.step]

theorem sortDocList_nil : sortDocList [] = [] := rfl

theorem sortDocPositions_nil : sortDocPositions [] = [] := rfl

theorem invListOf_sortIndexes (s : TextIndexer) (scope : Option String) (term : String) :
    invListOf (sortIndexes s) scope term = sortDocList (invListOf s scope term) := by
  cases scope with
  | none =>
    simp only [invListOf, sortIndexes, buildSkipLists]
    exact StrMap.at_mapValues _ _ _ _ sortDocList_nil
  | some f =>
    simp only [invListOf, sortIndexes, buildSkipLists]
    rw [StrMap.at_mapValues _ _ _ _ (StrMap.mapValues_empty _)]
    exact StrMap.at_mapValues _ _ _ _ sortDocList_nil

theorem coordListOf_sortIndexes (s : TextIndexer) (scope : Option String) (term : String) :
    coordListOf (sortIndexes s) scope term = sortDocPositions (coordListOf s scope term) := by
  cases scope with
  | none =>
    simp only [coordListOf, sortIndexes, buildSkipLists]
    exact StrMap.at_mapValues _ _ _ _ sortDocPositions_nil
  | some f =>
    simp only [coordListOf, sortIndexes, buildSkipLists]
    rw [StrMap.at_mapValues _ _ _ _ (StrMap.mapValues_empty _)]
    exact StrMap.at_mapValues _ _ _ _ sortDocPositions_nil
/-! ## The invariants of reachable states -/

theorem mem_addToInvList (l : List Int) (d x : Int) :
    x ∈ addToInvList l d ↔ x ∈ l ∨ x = d := by
  unfold addToInvList
  split
  · rename_i h
    constructor
    · exact Or.inl
    · rintro (h1 | h1)
      · exact h1
      · subst h1; exact h
  · simp

theorem addToInvList_nodup (l : List Int) (d : Int) (h : l.Nodup) :
    (addToInvList l d).Nodup := by
  unfold addToInvList
  split
  · exact h
  · rename_i hd
    rw [List.nodup_append]
    refine ⟨h, List.nodup_singleton d, ?_⟩
    intro a ha hb
    rw [List.mem_singleton] at hb
    subst hb
    exact hd ha

theorem addToCoordList_map_doc_id (l : List TermPositions) (d : Int) (ps : List Int) :
    (addToCoordList l d ps).map TermPositions.doc_id
      = addToInvList (l.map TermPositions.doc_id) d := by
  induction l with
  | nil => simp [addToCoordList, addToInvList]
  | cons e rest ih =>
    by_cases h : e.doc_id = d
    · simp [addToCoordList, addToInvList, h]
    · have hne : ¬ d = e.doc_id := fun hh => h hh.symm
      simp only [addToCoordList, if_neg h, List.map_cons, ih]
      unfold addToInvList
      by_cases hm : d ∈ rest.map TermPositions.doc_id
      · simp [hm]
      · simp [hm, hne]

theorem Coherent.indexField_step {s : TextIndexer} (h : Coherent s) (doc_id : Int)
    (field_name : String) (entry : String × List Int) (hd : doc_id ∈ s.all_doc_ids) :
    Coherent (indexField.step doc_id field_name s entry) := by
  refine ⟨?_, ?_, ?_, h.universe_sorted, h.fresh⟩
  · intro scope term
    rw [coordListOf_indexField_step]
    split
    · rw [addToCoordList_map_doc_id]
      exact addToInvList_nodup _ _ (h.nodup scope term)
    · exact h.nodup scope term
  · intro scope term d
    rw [coordListOf_indexField_step, invListOf_indexField_step]
    split
    · rw [addToCoordList_map_doc_id, mem_addToInvList, mem_addToInvList, h.coh scope term d]
    · exact h.coh scope term d
  · intro scope term d
    rw [invListOf_indexField_step]
    split
    · rw [mem_addToInvList]
      rintro (h1 | h1)
      · exact h.ids scope term d h1
      · subst h1; exact hd
    · exact h.ids scope term d

theorem Coherent.indexDocumentFields_step {s : TextIndexer} (h : Coherent s) (doc_id : Int)
    (entry : String × List Int) (hd : doc_id ∈ s.all_doc_ids) :
    Coherent (indexDocumentFields.step doc_id s entry) := by
  refine ⟨?_, ?_, ?_, h.universe_sorted, h.fresh⟩
  · intro scope term
    rw [coordListOf_indexDocumentFields_step]
    split
    · rw [addToCoordList_map_doc_id]
      exact addToInvList_nodup _ _ (h.nodup scope term)
    · exact h.nodup scope term
  · intro scope term d
    rw [coordListOf_indexDocumentFields_step, invListOf_indexDocumentFields_step]
    split
    · rw [addToCoordList_map_doc_id, mem_addToInvList, mem_addToInvList, h.coh scope term d]
    · exact h.coh scope term d
  · intro scope term d
    rw [invListOf_indexDocumentFields_step]
    split
    · rw [mem_addToInvList]
      rintro (h1 | h1)
      · exact h.ids scope term d h1
      · subst h1; exact hd
    · exact h.ids scope term d

theorem indexField_frame (s : TextIndexer) (doc_id : Int) (field_name text : String) :
    (indexField s doc_id field_name text).all_doc_ids = s.all_doc_ids ∧
    (indexField s doc_id field_name text).next_doc_id = s.next_doc_id ∧
    (indexField s doc_id field_name text).inverted_index = s.inverted_index ∧
    (indexField s doc_id field_name text).coordinate_index = s.coordinate_index ∧
    (indexField s doc_id field_name text).doc_titles = s.doc_titles ∧
    (indexField s doc_id field_name text).doc_contents = s.doc_contents := by
  unfold indexField
  generalize collectTermPositions (tokenize text) 0 [] = entries
  induction entries generalizing s with
  | nil => simp
  | cons e es ih =>
    simp only [List.foldl_cons]
    obtain ⟨h1, h2, h3, h4, h5, h6⟩ := ih (indexField.step doc_id field_name s e)
    exact ⟨h1, h2, h3, h4, h5, h6⟩

theorem Coherent.indexField {s : TextIndexer} (h : Coherent s) (doc_id : Int)
    (field_name text : String) (hd : doc_id ∈ s.all_doc_ids) :
    Coherent (indexField s doc_id field_name text) := by
  unfold InfSearch.indexField
  generalize collectTermPositions (tokenize text) 0 [] = entries
  induction entries generalizing s with
  | nil => simpa using h
  | cons e es ih =>
    simp only [List.foldl_cons]
    exact ih (h.indexField_step doc_id field_name e hd) hd

theorem indexDocumentFields_frame (s : TextIndexer) (doc_id : Int) (text : String) :
    (indexDocumentFields s doc_id text).all_doc_ids = s.all_doc_ids ∧
    (indexDocumentFields s doc_id text).next_doc_id = s.next_doc_id ∧
    (indexDocumentFields s doc_id text).field_inverted_index = s.field_inverted_index ∧
    (indexDocumentFields s doc_id text).field_coordinate_index = s.field_coordinate_index ∧
    (indexDocumentFields s doc_id text).doc_titles = s.doc_titles ∧
    (indexDocumentFields s doc_id text).doc_contents = s.doc_contents := by
  unfold indexDocumentFields
  generalize collectTermPositions (tokenize text) 0 [] = entries
  induction entries generalizing s with
  | nil => simp
  | cons e es ih =>
    simp only [List.foldl_cons]
    obtain ⟨h1, h2, h3, h4, h5, h6⟩ := ih (indexDocumentFields.step doc_id s e)
    exact ⟨h1, h2, h3, h4, h5, h6⟩

theorem Coherent.indexDocumentFields {s : TextIndexer} (h : Coherent s) (doc_id : Int)
    (text : String) (hd : doc_id ∈ s.all_doc_ids) :
    Coherent (indexDocumentFields s doc_id text) := by
  unfold InfSearch.indexDocumentFields
  generalize collectTermPositions (tokenize text) 0 [] = entries
  induction entries generalizing s with
  | nil => simpa using h
  | cons e es ih =>
    simp only [List.foldl_cons]
    exact ih (h.indexDocumentFields_step doc_id e hd) hd
theorem mem_setInsert (l : List Int) (a x : Int) : x ∈ setInsert l a ↔ x ∈ l ∨ x = a := by
  induction l with
  | nil => simp [setInsert]
  | cons b rest ih =>
    unfold setInsert
    by_cases h1 : a < b
    · simp only [if_pos h1, List.mem_cons]
      tauto
    · by_cases h2 : a = b
      · subst h2
        simp only [if_neg h1, if_true, List.mem_cons]
        tauto
      · simp only [if_neg h1, if_neg h2, List.mem_cons, ih]
        tauto

theorem setInsert_sorted (l : List Int) (a : Int) (h : l.Sorted (· < ·)) :
    (setInsert l a).Sorted (· < ·) := by
  induction l with
  | nil => simp [setInsert]
  | cons b rest ih =>
    have hb := List.sorted_cons.1 h
    unfold setInsert
    by_cases h1 : a < b
    · simp only [if_pos h1]
      refine List.sorted_cons.2 ⟨?_, h⟩
      intro x hx
      rcases List.mem_cons.1 hx with e | e
      · omega
      · have := hb.1 x e
        omega
    · by_cases h2 : a = b
      · simpa only [if_neg h1, if_pos h2] using h
      · simp only [if_neg h1, if_neg h2]
        refine List.sorted_cons.2 ⟨?_, ih hb.2⟩
        intro x hx
        rcases (mem_setInsert rest a x).1 hx with e | e
        · exact hb.1 x e
        · omega

theorem Coherent.of_same_lists {s s' : TextIndexer} (h : Coherent s)
    (h1 : s'.inverted_index = s.inverted_index)
    (h2 : s'.coordinate_index = s.coordinate_index)
    (h3 : s'.field_inverted_index = s.field_inverted_index)
    (h4 : s'.field_coordinate_index = s.field_coordinate_index)
    (h5 : s'.all_doc_ids = s.all_doc_ids) (h6 : s'.next_doc_id = s.next_doc_id) :
    Coherent s' := by
  have ei : ∀ scope term, invListOf s' scope term = invListOf s scope term := by
    intro scope term
    cases scope <;> simp [invListOf, h1, h3]
  have ec : ∀ scope term, coordListOf s' scope term = coordListOf s scope term := by
    intro scope term
    cases scope <;> simp [coordListOf, h2, h4]
  refine ⟨?_, ?_, ?_, ?_, ?_⟩
  · intro scope term
    rw [ec]; exact h.nodup scope term
  · intro scope term d
    rw [ec, ei]; exact h.coh scope term d
  · intro scope term d
    rw [ei, h5]; exact h.ids scope term d
  · rw [h5]; exact h.universe_sorted
  · rw [h5, h6]; exact h.fresh

theorem addDocument_step_all_doc_ids (doc_id : Int) (acc : TextIndexer × String)
    (pair : String × String) :
    (addDocument.step doc_id acc pair).1.all_doc_ids = acc.1.all_doc_ids ∧
    (addDocument.step doc_id acc pair).1.next_doc_id = acc.1.next_doc_id := by
  unfold addDocument.step
  simp only
  refine ⟨?_, ?_⟩
  · rw [(indexField_frame _ _ _ _).1]
    split <;> split <;> rfl
  · rw [(indexField_frame _ _ _ _).2.1]
    split <;> split <;> rfl

theorem Coherent.addDocument_step {acc : TextIndexer × String} (h : Coherent acc.1)
    (doc_id : Int) (pair : String × String) (hd : doc_id ∈ acc.1.all_doc_ids) :
    Coherent (addDocument.step doc_id acc pair).1 := by
  unfold InfSearch.addDocument.step
  simp only
  apply Coherent.indexField
  · apply h.of_same_lists <;> (split <;> split <;> rfl)
  · have : ∀ x : TextIndexer, x.all_doc_ids = acc.1.all_doc_ids → doc_id ∈ x.all_doc_ids :=
      fun x hx => hx ▸ hd
    apply this
    split <;> split <;> rfl

theorem Coherent.addDocument_fold (doc_id : Int) (pairs : List (String × String))
    (acc : TextIndexer × String) (h : Coherent acc.1) (hd : doc_id ∈ acc.1.all_doc_ids) :
    Coherent (pairs.foldl (addDocument.step doc_id) acc).1 ∧
    (pairs.foldl (addDocument.step doc_id) acc).1.all_doc_ids = acc.1.all_doc_ids ∧
    (pairs.foldl (addDocument.step doc_id) acc).1.next_doc_id = acc.1.next_doc_id := by
  induction pairs generalizing acc with
  | nil => exact ⟨h, rfl, rfl⟩
  | cons p ps ih =>
    simp only [List.foldl_cons]
    have e := addDocument_step_all_doc_ids doc_id acc p
    obtain ⟨h1, h2, h3⟩ := ih (addDocument.step doc_id acc p)
      (h.addDocument_step doc_id p hd) (by rw [e.1]; exact hd)
    exact ⟨h1, by rw [h2, e.1], by rw [h3, e.2]⟩

theorem sortIndexes_frame (s : TextIndexer) :
    (sortIndexes s).all_doc_ids = s.all_doc_ids ∧
    (sortIndexes s).next_doc_id = s.next_doc_id ∧
    (sortIndexes s).doc_titles = s.doc_titles ∧
    (sortIndexes s).doc_contents = s.doc_contents :=
  ⟨rfl, rfl, rfl, rfl⟩

theorem coherent_sortIndexes {s : TextIndexer} (h : Coherent s) :
    Coherent (sortIndexes s) := by
  refine ⟨?_, ?_, ?_, h.universe_sorted, h.fresh⟩
  · intro scope term
    rw [coordListOf_sortIndexes, sortDocPositions_map_doc_id]
    exact (List.perm_insertionSort (· ≤ ·) _).nodup_iff.2 (h.nodup scope term)
  · intro scope term d
    rw [coordListOf_sortIndexes, invListOf_sortIndexes, sortDocPositions_map_doc_id,
      mem_sortDocList, mem_sort]
    exact h.coh scope term d
  · intro scope term d
    rw [invListOf_sortIndexes, mem_sortDocList]
    exact h.ids scope term d

theorem indexSorted_sortIndexes {s : TextIndexer} (h : Coherent s) :
    IndexSorted (sortIndexes s) := by
  refine ⟨?_, ?_, ?_⟩
  · intro scope term
    rw [invListOf_sortIndexes]
    exact sortDocList_sorted _
  · intro scope term
    rw [coordListOf_sortIndexes]
    exact sortDocPositions_sorted _ (h.nodup scope term)
  · intro scope term e he
    rw [coordListOf_sortIndexes] at he
    exact sortDocPositions_positions _ e he

theorem coherent_init : Coherent TextIndexer.init := by
  refine ⟨?_, ?_, ?_, ?_, ?_⟩
  · intro scope term
    cases scope <;> simp [coordListOf, TextIndexer.init, StrMap.at, StrMap.empty]
  · intro scope term d
    cases scope <;> simp [coordListOf, invListOf, TextIndexer.init, StrMap.at, StrMap.empty]
  · intro scope term d
    cases scope <;> simp [invListOf, TextIndexer.init, StrMap.at, StrMap.empty]
  · simp [TextIndexer.init]
  · simp [TextIndexer.init]

theorem indexSorted_init : IndexSorted TextIndexer.init := by
  refine ⟨?_, ?_, ?_⟩
  · intro scope term
    cases scope <;> simp [invListOf, TextIndexer.init, StrMap.at, StrMap.empty]
  · intro scope term
    cases scope <;> simp [coordListOf, TextIndexer.init, StrMap.at, StrMap.empty]
  · intro scope term e
    cases scope <;> simp [coordListOf, TextIndexer.init, StrMap.at, StrMap.empty]

theorem Coherent.allocate {s : TextIndexer} (h : Coherent s) :
    Coherent (addDocument.allocate s) ∧ s.next_doc_id ∈ (addDocument.allocate s).all_doc_ids := by
  refine ⟨⟨h.nodup, h.coh, ?_, ?_, ?_⟩, (mem_setInsert _ _ _).2 (Or.inr rfl)⟩
  · intro scope term d hd
    exact (mem_setInsert _ _ _).2 (Or.inl (h.ids scope term d hd))
  · exact setInsert_sorted _ _ h.universe_sorted
  · intro d hd
    show d < s.next_doc_id + 1
    rcases (mem_setInsert _ _ _).1 hd with e | e
    · have := h.fresh d e
      omega
    · omega

theorem Coherent.addDocument {s : TextIndexer} (h : Coherent s)
    (document_pairs : List (String × String)) :
    Coherent (addDocument s document_pairs).2 ∧ IndexSorted (addDocument s document_pairs).2 := by
  obtain ⟨h0, hmem⟩ := h.allocate
  obtain ⟨h1, h2, _⟩ := Coherent.addDocument_fold s.next_doc_id document_pairs
    (addDocument.allocate s, "") h0 hmem
  have h3 := h1.indexDocumentFields s.next_doc_id
    (document_pairs.foldl (addDocument.step s.next_doc_id) (addDocument.allocate s, "")).2
    (by rw [h2]; exact hmem)
  exact ⟨coherent_sortIndexes h3, indexSorted_sortIndexes h3⟩

theorem Reachable.coherent {s : TextIndexer} (h : Reachable s) : Coherent s := by
  induction h with
  | init => exact coherent_init
  | add s pairs _ ih => exact (ih.addDocument pairs).1

theorem Reachable.indexSorted {s : TextIndexer} (h : Reachable s) : IndexSorted s := by
  cases h with
  | init => exact indexSorted_init
  | add s pairs hs => exact (hs.coherent.addDocument pairs).2
theorem invListOf_global {s : TextIndexer} {term : String} {l : List Int}
    (h : s.inverted_index term = some l) : invListOf s none term = l := by
  simp [invListOf, StrMap.at, h]

theorem invListOf_field {s : TextIndexer} {field term : String} {idx : InvertedIndex}
    {l : List Int} (hf : s.field_inverted_index field = some idx) (h : idx term = some l) :
    invListOf s (some field) term = l := by
  simp [invListOf, StrMap.at, hf, h]

theorem coordListOf_global {s : TextIndexer} {term : String} {l : List TermPositions}
    (h : s.coordinate_index term = some l) : coordListOf s none term = l := by
  simp [coordListOf, StrMap.at, h]

theorem coordListOf_field {s : TextIndexer} {field term : String} {idx : CoordinateIndex}
    {l : List TermPositions} (hf : s.field_coordinate_index field = some idx)
    (h : idx term = some l) : coordListOf s (some field) term = l := by
  simp [coordListOf, StrMap.at, hf, h]

/-- C9 (P1/P2): in every reachable state every stored inverted list, global or of
a field, is strictly ascending, and every stored coordinate list, global or of a
field, has strictly ascending doc ids and strictly ascending positions in each of
its entries. -/
theorem sortedness_invariant (s : TextIndexer) (h : Reachable s) :
    (∀ term l, s.inverted_index term = some l → l.Sorted (· < ·)) ∧
    (∀ field idx term l, s.field_inverted_index field = some idx → idx term = some l →
      l.Sorted (· < ·)) ∧
    (∀ term l, s.coordinate_index term = some l →
      (l.map TermPositions.doc_id).Sorted (· < ·) ∧
      ∀ e, e ∈ l → e.positions.Sorted (· < ·)) ∧
    (∀ field idx term l, s.field_coordinate_index field = some idx → idx term = some l →
      (l.map TermPositions.doc_id).Sorted (· < ·) ∧
      ∀ e, e ∈ l → e.positions.Sorted (· < ·)) := by
  have hs := h.indexSorted
  refine ⟨?_, ?_, ?_, ?_⟩
  · intro term l hl
    have := hs.inv_sorted none term
    rwa [invListOf_global hl] at this
  · intro field idx term l hf hl
    have := hs.inv_sorted (some field) term
    rwa [invListOf_field hf hl] at this
  · intro term l hl
    have h1 := hs.coord_sorted none term
    have h2 := hs.positions_sorted none term
    rw [coordListOf_global hl] at h1 h2
    exact ⟨h1, h2⟩
  · intro field idx term l hf hl
    have h1 := hs.coord_sorted (some field) term
    have h2 := hs.positions_sorted (some field) term
    rw [coordListOf_field hf hl] at h1 h2
    exact ⟨h1, h2⟩

theorem sortedness_invariant_witness :
    Reachable (addDocument TextIndexer.init [("title", "b a"), ("title", "a")]).2 ∧
    (∀ term l,
      (addDocument TextIndexer.init [("title", "b a"), ("title", "a")]).2.coordinate_index term
        = some l →
      (l.map TermPositions.doc_id).Sorted (· < ·) ∧
      ∀ e, e ∈ l → e.positions.Sorted (· < ·)) :=
  ⟨Reachable.add _ _ Reachable.init,
    (sortedness_invariant _ (Reachable.add _ _ Reachable.init)).2.2.1⟩

theorem StrMap.mem_at_iff {V : Type} (m : StrMap (List V)) (k : String) (x : V) :
    x ∈ m.at k [] ↔ ∃ l, m k = some l ∧ x ∈ l := by
  unfold StrMap.at
  cases m k <;> simp

theorem mem_invListOf_global (s : TextIndexer) (term : String) (d : Int) :
    d ∈ invListOf s none term ↔ ∃ l, s.inverted_index term = some l ∧ d ∈ l :=
  StrMap.mem_at_iff _ _ _

theorem mem_coordListOf_global (s : TextIndexer) (term : String) (e : TermPositions) :
    e ∈ coordListOf s none term ↔ ∃ l, s.coordinate_index term = some l ∧ e ∈ l :=
  StrMap.mem_at_iff _ _ _

theorem mem_invListOf_field (s : TextIndexer) (field term : String) (d : Int) :
    d ∈ invListOf s (some field) term ↔
      ∃ idx l, s.field_inverted_index field = some idx ∧ idx term = some l ∧ d ∈ l := by
  simp only [invListOf, StrMap.mem_at_iff]
  unfold StrMap.at
  cases s.field_inverted_index field <;> simp [StrMap.empty]

theorem mem_coordListOf_field (s : TextIndexer) (field term : String) (e : TermPositions) :
    e ∈ coordListOf s (some field) term ↔
      ∃ idx l, s.field_coordinate_index field = some idx ∧ idx term = some l ∧ e ∈ l := by
  simp only [coordListOf, StrMap.mem_at_iff]
  unfold StrMap.at
  cases s.field_coordinate_index field <;> simp [StrMap.empty]

/-- C10 (P3): in every reachable state, for every scope (global, or a field
name), term and doc id, the id is in the inverted list of the scope and term
exactly when the coordinate list of the scope and term has an entry of that id.
The second and third parts say the same on the stored maps, for the global scope
and for a field. -/
theorem index_coherence (s : TextIndexer) (h : Reachable s) :
    (∀ (scope : Option String) (term : String) (d : Int),
      d ∈ invListOf s scope term ↔ ∃ e, e ∈ coordListOf s scope term ∧ e.doc_id = d) ∧
    (∀ (term : String) (d : Int),
      (∃ l, s.inverted_index term = some l ∧ d ∈ l) ↔
        ∃ l e, s.coordinate_index term = some l ∧ e ∈ l ∧ e.doc_id = d) ∧
    (∀ (field term : String) (d : Int),
      (∃ idx l, s.field_inverted_index field = some idx ∧ idx term = some l ∧ d ∈ l) ↔
        ∃ idx l e, s.field_coordinate_index field = some idx ∧ idx term = some l ∧
          e ∈ l ∧ e.doc_id = d) := by
  have key : ∀ (scope : Option String) (term : String) (d : Int),
      d ∈ invListOf s scope term ↔ ∃ e, e ∈ coordListOf s scope term ∧ e.doc_id = d := by
    intro scope term d
    rw [h.coherent.coh scope term d, List.mem_map]
  refine ⟨key, ?_, ?_⟩
  · intro term d
    rw [← mem_invListOf_global, key]
    constructor
    · rintro ⟨e, he, hd⟩
      obtain ⟨l, hl, hel⟩ := (mem_coordListOf_global s term e).1 he
      exact ⟨l, e, hl, hel, hd⟩
    · rintro ⟨l, e, hl, hel, hd⟩
      exact ⟨e, (mem_coordListOf_global s term e).2 ⟨l, hl, hel⟩, hd⟩
  · intro field term d
    rw [← mem_invListOf_field, key]
    constructor
    · rintro ⟨e, he, hd⟩
      obtain ⟨idx, l, hi, hl, hel⟩ := (mem_coordListOf_field s field term e).1 he
      exact ⟨idx, l, e, hi, hl, hel, hd⟩
    · rintro ⟨idx, l, e, hi, hl, hel, hd⟩
      exact ⟨e, (mem_coordListOf_field s field term e).2 ⟨idx, l, hi, hl, hel⟩, hd⟩

theorem index_coherence_witness :
    Reachable (addDocument TextIndexer.init [("title", "b a"), ("title", "a")]).2 ∧
    ((1 : Int) ∈ invListOf (addDocument TextIndexer.init [("title", "b a"), ("title", "a")]).2
        (some "title") "a" ↔
      ∃ e, e ∈ coordListOf (addDocument TextIndexer.init [("title", "b a"), ("title", "a")]).2
        (some "title") "a" ∧ e.doc_id = 1) :=
  ⟨Reachable.add _ _ Reachable.init,
    (index_coherence _ (Reachable.add _ _ Reachable.init)).1 (some "title") "a" 1⟩

theorem executeNOT_filter_spec (s : TextIndexer) (h : Reachable s) (L : List Int)
    (hL : L.Sorted (· ≤ ·)) :
    (executeNOT s L).Sorted (· < ·) ∧
    (∀ d, d ∈ executeNOT s L ↔ d ∈ s.all_doc_ids ∧ d ∉ L) := by
  rw [executeNOT_eq_filter s L hL]
  refine ⟨h.coherent.universe_sorted.filter _, ?_⟩
  intro d
  simp [List.mem_filter]
/-! ## Proximity -/

theorem intAbs_sub_comm (a b : Int) : intAbs (a - b) = intAbs (b - a) := by
  unfold intAbs
  split <;> split <;> omega

theorem intAbs_nonneg (x : Int) : 0 ≤ intAbs x := by
  unfold intAbs
  split <;> omega

theorem hasClosePositions.loop_neg (k : Int) (hk : k < 0) (fuel : Nat) (p1 p2 : List Int) :
    hasClosePositions.loop k fuel p1 p2 = false := by
  induction fuel generalizing p1 p2 with
  | zero => simp [hasClosePositions.loop]
  | succ fuel ih =>
    cases p1 with
    | nil => simp [hasClosePositions.loop]
    | cons a as =>
      cases p2 with
      | nil => simp [hasClosePositions.loop]
      | cons b bs =>
        have h0 := intAbs_nonneg (a - b)
        have hn : ¬ intAbs (a - b) ≤ k := by omega
        simp only [hasClosePositions.loop, if_neg hn]
        split
        · exact ih _ _
        · exact ih _ _

theorem hasClosePositions.loop_comm (k : Int) (fuel : Nat) (p1 p2 : List Int) :
    hasClosePositions.loop k fuel p1 p2 = hasClosePositions.loop k fuel p2 p1 := by
  by_cases hk : k < 0
  · rw [hasClosePositions.loop_neg k hk, hasClosePositions.loop_neg k hk]
  induction fuel generalizing p1 p2 with
  | zero => simp [hasClosePositions.loop]
  | succ fuel ih =>
    cases p1 with
    | nil => cases p2 <;> simp [hasClosePositions.loop]
    | cons a as =>
      cases p2 with
      | nil => simp [hasClosePositions.loop]
      | cons b bs =>
        simp only [hasClosePositions.loop]
        rw [intAbs_sub_comm b a]
        by_cases hd : intAbs (a - b) ≤ k
        · simp [hd]
        · simp only [if_neg hd]
          have hne : a ≠ b := by
            intro e
            subst e
            apply hd
            simp only [sub_self]
            unfold intAbs
            simp only [lt_self_iff_false, if_false]
            omega
          by_cases hlt : a < b
          · have hnlt : ¬ b < a := by omega
            simp only [if_pos hlt, if_neg hnlt]
            exact ih _ _
          · have hgt : b < a := by omega
            simp only [if_neg hlt, if_pos hgt]
            exact ih _ _

theorem hasClosePositions_comm (p1 p2 : List Int) (k : Int) :
    hasClosePositions p1 p2 k = hasClosePositions p2 p1 k := by
  unfold hasClosePositions
  rw [Nat.add_comm p2.length p1.length]
  exact hasClosePositions.loop_comm k _ p1 p2

theorem executeProximityQuery.loop_near_comm (k : Int) (fuel : Nat)
    (l1 l2 : List TermPositions) :
    executeProximityQuery.loop k false fuel l1 l2
      = executeProximityQuery.loop k false fuel l2 l1 := by
  induction fuel generalizing l1 l2 with
  | zero => simp [executeProximityQuery.loop]
  | succ fuel ih =>
    cases l1 with
    | nil => cases l2 <;> simp [executeProximityQuery.loop]
    | cons e1 r1 =>
      cases l2 with
      | nil => simp [executeProximityQuery.loop]
      | cons e2 r2 =>
        simp only [executeProximityQuery.loop, positionsMatch, Bool.false_eq_true, if_false]
        rw [hasClosePositions_comm e2.positions e1.positions k]
        by_cases he : e1.doc_id = e2.doc_id
        · rw [if_pos he, if_pos he.symm, ih r1 r2, he]
        · have he' : ¬ e2.doc_id = e1.doc_id := fun h => he h.symm
          simp only [if_neg he, if_neg he']
          by_cases hlt : e1.doc_id < e2.doc_id
          · have hnlt : ¬ e2.doc_id < e1.doc_id := by omega
            simp only [if_pos hlt, if_neg hnlt]
            exact ih _ _
          · have hgt : e2.doc_id < e1.doc_id := by omega
            simp only [if_neg hlt, if_pos hgt]
            exact ih _ _

theorem executeProximityQuery_near_comm (s : TextIndexer) (A B fieldA fieldB : String)
    (k : Int) :
    executeProximityQuery s A B fieldA fieldB k false
      = executeProximityQuery s B A fieldB fieldA k false := by
  unfold executeProximityQuery
  simp only
  cases coordinateList s (normalizeTerm A) fieldA with
  | none => cases coordinateList s (normalizeTerm B) fieldB <;> rfl
  | some l1 =>
    cases coordinateList s (normalizeTerm B) fieldB with
    | none => rfl
    | some l2 =>
      simp only
      rw [Nat.add_comm l2.length l1.length]
      exact executeProximityQuery.loop_near_comm k _ l1 l2

/-- C5 (L4): `NEAR` is symmetric in every state, reachable ones included: swapping
the two terms with their field scopes leaves the result unchanged. `ADJ` is not:
after one document with the content `a b`, `a ADJ/1 b` returns `[1]` and
`b ADJ/1 a` returns nothing. -/
theorem proximity_symmetry :
    (∀ (s : TextIndexer) (A B fieldA fieldB : String) (k : Int),
      executeProximityQuery s A B fieldA fieldB k false
        = executeProximityQuery s B A fieldB fieldA k false) ∧
    (∃ s, Reachable s ∧ ∃ (A B : String) (k : Int),
      executeProximityQuery s A B "" "" k true ≠ executeProximityQuery s B A "" "" k true) := by
  refine ⟨executeProximityQuery_near_comm, ?_⟩
  refine ⟨(addDocument TextIndexer.init [("content", "a b")]).2,
    Reachable.add _ _ Reachable.init, "a", "b", 1, ?_⟩
  decide

theorem hasAdjacentPositions.loop_imp_close (k : Int) (fuel : Nat) (p1 p2 : List Int)
    (h : hasAdjacentPositions.loop k fuel p1 p2 = true) :
    hasClosePositions.loop k fuel p1 p2 = true := by
  induction fuel generalizing p1 p2 with
  | zero => simp [hasAdjacentPositions.loop] at h
  | succ fuel ih =>
    cases p1 with
    | nil => simp [hasAdjacentPositions.loop] at h
    | cons a as =>
      cases p2 with
      | nil => simp [hasAdjacentPositions.loop] at h
      | cons b bs =>
        simp only [hasAdjacentPositions.loop] at h
        simp only [hasClosePositions.loop]
        by_cases hd : intAbs (a - b) ≤ k
        · simp [hd]
        · have hadj : ¬ (0 < b - a ∧ b - a ≤ k) := by
            rintro ⟨h1, h2⟩
            apply hd
            unfold intAbs
            split <;> omega
          simp only [if_neg hd]
          simp only [if_neg hadj] at h
          by_cases hlt : a < b
          · simp only [if_pos hlt] at h ⊢
            exact ih _ _ h
          · simp only [if_neg hlt] at h ⊢
            exact ih _ _ h

theorem positionsMatch_adj_imp_near (p1 p2 : List Int) (k : Int)
    (h : positionsMatch true p1 p2 k = true) : positionsMatch false p1 p2 k = true := by
  simp only [positionsMatch, if_true, Bool.false_eq_true, if_false] at h ⊢
  exact hasAdjacentPositions.loop_imp_close k _ p1 p2 h

theorem executeProximityQuery.loop_adj_sublist_near (k : Int) (fuel : Nat)
    (l1 l2 : List TermPositions) :
    (executeProximityQuery.loop k true fuel l1 l2).Sublist
      (executeProximityQuery.loop k false fuel l1 l2) := by
  induction fuel generalizing l1 l2 with
  | zero => simp [executeProximityQuery.loop]
  | succ fuel ih =>
    cases l1 with
    | nil => simp [executeProximityQuery.loop]
    | cons e1 r1 =>
      cases l2 with
      | nil => simp [executeProximityQuery.loop]
      | cons e2 r2 =>
        simp only [executeProximityQuery.loop]
        by_cases he : e1.doc_id = e2.doc_id
        · simp only [if_pos he]
          by_cases hadj : positionsMatch true e1.positions e2.positions k = true
          · simp only [if_pos hadj, if_pos (positionsMatch_adj_imp_near _ _ _ hadj)]
            exact (ih r1 r2).cons₂ _
          · simp only [if_neg hadj]
            split
            · exact (ih r1 r2).cons _
            · exact ih r1 r2
        · simp only [if_neg he]
          split
          · exact ih _ _
          · exact ih _ _

/-- C6 (L5): in every state, reachable ones included, the result of `A ADJ/k B` is
a sublist of the result of `A NEAR/k B`, so every doc id returned by
`executeProximityQuery` with `adjacent_only = true` is returned with
`adjacent_only = false`. -/
theorem adj_subset_near (s : TextIndexer) (A B fieldA fieldB : String) (k : Int) :
    (executeProximityQuery s A B fieldA fieldB k true).Sublist
      (executeProximityQuery s A B fieldA fieldB k false) ∧
    executeProximityQuery s A B fieldA fieldB k true
      ⊆ executeProximityQuery s A B fieldA fieldB k false := by
  have hsub : (executeProximityQuery s A B fieldA fieldB k true).Sublist
      (executeProximityQuery s A B fieldA fieldB k false) := by
    unfold executeProximityQuery
    simp only
    cases coordinateList s (normalizeTerm A) fieldA with
    | none => simp
    | some l1 =>
      cases coordinateList s (normalizeTerm B) fieldB with
      | none => simp
      | some l2 => exact executeProximityQuery.loop_adj_sublist_near k _ l1 l2
  exact ⟨hsub, hsub.subset⟩
/-! ## Evaluation of query trees -/

theorem searchTerm_eq_invListOf (s : TextIndexer) (term field : String) :
    searchTerm s term field
      = invListOf s (if field.isEmpty then none else some field) (normalizeTerm term) := by
  unfold searchTerm
  by_cases hf : field.isEmpty = true
  · simp only [hf, Bool.not_true, Bool.false_eq_true, if_false, if_true, invListOf, StrMap.at]
    cases s.inverted_index (normalizeTerm term) <;> rfl
  · simp only [hf, Bool.not_false, if_true, Bool.false_eq_true, if_false, invListOf, StrMap.at]
    cases s.field_inverted_index field with
    | none => rfl
    | some idx => cases hh : idx (normalizeTerm term) <;> simp [hh]

theorem coordinateList_eq_coordListOf {s : TextIndexer} {norm_term field : String}
    {l : List TermPositions} (h : coordinateList s norm_term field = some l) :
    coordListOf s (if field.isEmpty then none else some field) norm_term = l := by
  unfold coordinateList at h
  by_cases hf : field.isEmpty = true
  · simp only [hf, if_true] at h ⊢
    exact coordListOf_global h
  · simp only [hf, Bool.false_eq_true, if_false] at h ⊢
    cases hidx : s.field_coordinate_index field with
    | none => simp [hidx] at h
    | some idx =>
      simp only [hidx] at h
      exact coordListOf_field hidx h

theorem executeProximityQuery.loop_sublist (k : Int) (adj : Bool) (fuel : Nat)
    (l1 l2 : List TermPositions) :
    (executeProximityQuery.loop k adj fuel l1 l2).Sublist (l1.map TermPositions.doc_id) := by
  induction fuel generalizing l1 l2 with
  | zero => simp [executeProximityQuery.loop]
  | succ fuel ih =>
    cases l1 with
    | nil => simp [executeProximityQuery.loop]
    | cons e1 r1 =>
      cases l2 with
      | nil => simp [executeProximityQuery.loop]
      | cons e2 r2 =>
        simp only [executeProximityQuery.loop, List.map_cons]
        split
        · split
          · exact (ih r1 r2).cons₂ _
          · exact (ih r1 r2).cons _
        · split
          · exact (ih r1 (e2 :: r2)).cons _
          · exact ih (e1 :: r1) r2

/-- What every evaluation result satisfies: strictly ascending, assigned ids only. -/
theorem searchTerm_sorted {s : TextIndexer} (h : Reachable s) (term field : String) :
    (searchTerm s term field).Sorted (· < ·) ∧
    ∀ d, d ∈ searchTerm s term field → d ∈ s.all_doc_ids := by
  rw [searchTerm_eq_invListOf]
  exact ⟨h.indexSorted.inv_sorted _ _, h.coherent.ids _ _⟩

theorem executeProximityQuery_sorted {s : TextIndexer} (h : Reachable s)
    (term1 term2 field1 field2 : String) (k : Int) (adj : Bool) :
    (executeProximityQuery s term1 term2 field1 field2 k adj).Sorted (· < ·) ∧
    ∀ d, d ∈ executeProximityQuery s term1 term2 field1 field2 k adj → d ∈ s.all_doc_ids := by
  unfold executeProximityQuery
  simp only
  cases h1 : coordinateList s (normalizeTerm term1) field1 with
  | none => simp
  | some l1 =>
    cases h2 : coordinateList s (normalizeTerm term2) field2 with
    | none => simp
    | some l2 =>
      simp only
      have hsub := executeProximityQuery.loop_sublist k adj (l1.length + l2.length) l1 l2
      have e := coordinateList_eq_coordListOf h1
      have hs := h.indexSorted.coord_sorted
        (if field1.isEmpty then none else some field1) (normalizeTerm term1)
      rw [e] at hs
      refine ⟨hs.sublist hsub, ?_⟩
      intro d hd
      have hm := hsub.subset hd
      rw [← e, ← h.coherent.coh] at hm
      exact h.coherent.ids _ _ d hm

theorem evaluateAST_sorted {s : TextIndexer} (h : Reachable s) (ast : ASTNode)
    (hwf : ast.wellFormed = true) :
    ∃ r, evaluateAST s ast = some r ∧ r.Sorted (· < ·) ∧ ∀ d, d ∈ r → d ∈ s.all_doc_ids := by
  induction ast with
  | null => exact ⟨[], rfl, by simp, by simp⟩
  | node type value field distance left right ihl ihr =>
    cases type with
    | TERM =>
      exact ⟨_, rfl, (searchTerm_sorted h value field).1, (searchTerm_sorted h value field).2⟩
    | AND =>
      simp only [ASTNode.wellFormed, Bool.and_eq_true] at hwf
      obtain ⟨l, el, sl, ml⟩ := ihl hwf.1
      obtain ⟨r, er, sr, _⟩ := ihr hwf.2
      refine ⟨executeAND l r, by simp [evaluateAST, el, er], (executeAND_filter_spec l r sl sr).1, ?_⟩
      intro d hd
      exact ml d (((executeAND_filter_spec l r sl sr).2.1 d).1 hd).1
    | OR =>
      simp only [ASTNode.wellFormed, Bool.and_eq_true] at hwf
      obtain ⟨l, el, sl, ml⟩ := ihl hwf.1
      obtain ⟨r, er, sr, mr⟩ := ihr hwf.2
      refine ⟨executeOR l r, by simp [evaluateAST, el, er], executeOR_sorted l r sl sr, ?_⟩
      intro d hd
      rcases (executeOR_mem l r d).1 hd with e | e
      · exact ml d e
      · exact mr d e
    | NOT =>
      simp only [ASTNode.wellFormed] at hwf
      obtain ⟨l, el, sl, _⟩ := ihl hwf
      have hn := executeNOT_filter_spec s h l (sorted_lt_to_le sl)
      refine ⟨executeNOT s l, by simp [evaluateAST, el], hn.1, ?_⟩
      intro d hd
      exact ((hn.2 d).1 hd).1
    | NEAR =>
      simp only [ASTNode.wellFormed, Bool.and_eq_true] at hwf
      cases left with
      | null => simp [ASTNode.isTerm] at hwf
      | node lt lv lf ld ll lr =>
        cases right with
        | null => simp [ASTNode.isTerm] at hwf
        | node rt rv rf rd rl rr =>
          exact ⟨_, rfl, (executeProximityQuery_sorted h lv rv lf rf distance false).1,
            (executeProximityQuery_sorted h lv rv lf rf distance false).2⟩
    | ADJ =>
      simp only [ASTNode.wellFormed, Bool.and_eq_true] at hwf
      cases left with
      | null => simp [ASTNode.isTerm] at hwf
      | node lt lv lf ld ll lr =>
        cases right with
        | null => simp [ASTNode.isTerm] at hwf
        | node rt rv rf rd rl rr =>
          exact ⟨_, rfl, (executeProximityQuery_sorted h lv rv lf rf distance true).1,
            (executeProximityQuery_sorted h lv rv lf rf distance true).2⟩
/-! ## Algebraic laws -/

theorem executeAND_mem {l r : List Int} (hl : l.Sorted (· < ·)) (hr : r.Sorted (· < ·))
    (x : Int) : x ∈ executeAND l r ↔ x ∈ l ∧ x ∈ r :=
  (executeAND_filter_spec l r hl hr).2.1 x

theorem executeAND_sorted {l r : List Int} (hl : l.Sorted (· < ·)) (hr : r.Sorted (· < ·)) :
    (executeAND l r).Sorted (· < ·) :=
  (executeAND_filter_spec l r hl hr).1

theorem executeAND_comm {l r : List Int} (hl : l.Sorted (· < ·)) (hr : r.Sorted (· < ·)) :
    executeAND l r = executeAND r l := by
  apply sorted_lt_ext (executeAND_sorted hl hr) (executeAND_sorted hr hl)
  intro x
  rw [executeAND_mem hl hr, executeAND_mem hr hl]
  tauto

theorem executeAND_assoc {a b c : List Int} (ha : a.Sorted (· < ·)) (hb : b.Sorted (· < ·))
    (hc : c.Sorted (· < ·)) :
    executeAND (executeAND a b) c = executeAND a (executeAND b c) := by
  have hab := executeAND_sorted ha hb
  have hbc := executeAND_sorted hb hc
  apply sorted_lt_ext (executeAND_sorted hab hc) (executeAND_sorted ha hbc)
  intro x
  rw [executeAND_mem hab hc, executeAND_mem ha hbc, executeAND_mem ha hb, executeAND_mem hb hc]
  tauto

theorem executeAND_self {a : List Int} (ha : a.Sorted (· < ·)) : executeAND a a = a := by
  apply sorted_lt_ext (executeAND_sorted ha ha) ha
  intro x
  rw [executeAND_mem ha ha]
  tauto

theorem executeOR_comm {l r : List Int} (hl : l.Sorted (· < ·)) (hr : r.Sorted (· < ·)) :
    executeOR l r = executeOR r l := by
  apply sorted_lt_ext (executeOR_sorted l r hl hr) (executeOR_sorted r l hr hl)
  intro x
  rw [executeOR_mem, executeOR_mem]
  tauto

theorem executeOR_assoc {a b c : List Int} (ha : a.Sorted (· < ·)) (hb : b.Sorted (· < ·))
    (hc : c.Sorted (· < ·)) :
    executeOR (executeOR a b) c = executeOR a (executeOR b c) := by
  have hab := executeOR_sorted a b ha hb
  have hbc := executeOR_sorted b c hb hc
  apply sorted_lt_ext (executeOR_sorted _ c hab hc) (executeOR_sorted a _ ha hbc)
  intro x
  rw [executeOR_mem, executeOR_mem, executeOR_mem, executeOR_mem]
  tauto

theorem executeOR_self {a : List Int} (ha : a.Sorted (· < ·)) : executeOR a a = a := by
  apply sorted_lt_ext (executeOR_sorted a a ha ha) ha
  intro x
  rw [executeOR_mem]
  tauto

theorem evaluateAST_mkAND (s : TextIndexer) (A B : ASTNode) :
    evaluateAST s (mkAND A B) =
      match evaluateAST s A, evaluateAST s B with
      | some l, some r => some (executeAND l r)
      | _, _ => none := by
  simp [mkAND, evaluateAST]

theorem evaluateAST_mkOR (s : TextIndexer) (A B : ASTNode) :
    evaluateAST s (mkOR A B) =
      match evaluateAST s A, evaluateAST s B with
      | some l, some r => some (executeOR l r)
      | _, _ => none := by
  simp [mkOR, evaluateAST]

theorem evaluateAST_mkNOT (s : TextIndexer) (A : ASTNode) :
    evaluateAST s (mkNOT A) =
      match evaluateAST s A with
      | some l => some (executeNOT s l)
      | none => none := by
  simp [mkNOT, evaluateAST]

/-- C7 (L1/L2): on a reachable state and well-formed trees the evaluation of
`AND` is commutative, associative and idempotent, and so is that of `OR`. -/
theorem and_or_laws (s : TextIndexer) (h : Reachable s) (A B C : ASTNode)
    (hA : A.wellFormed = true) (hB : B.wellFormed = true) (hC : C.wellFormed = true) :
    evaluateAST s (mkAND A B) = evaluateAST s (mkAND B A) ∧
    evaluateAST s (mkAND (mkAND A B) C) = evaluateAST s (mkAND A (mkAND B C)) ∧
    evaluateAST s (mkAND A A) = evaluateAST s A ∧
    evaluateAST s (mkOR A B) = evaluateAST s (mkOR B A) ∧
    evaluateAST s (mkOR (mkOR A B) C) = evaluateAST s (mkOR A (mkOR B C)) ∧
    evaluateAST s (mkOR A A) = evaluateAST s A := by
  obtain ⟨a, ea, sa, _⟩ := evaluateAST_sorted h A hA
  obtain ⟨b, eb, sb, _⟩ := evaluateAST_sorted h B hB
  obtain ⟨c, ec, sc, _⟩ := evaluateAST_sorted h C hC
  simp only [evaluateAST_mkAND, evaluateAST_mkOR, ea, eb, ec, Option.some.injEq]
  exact ⟨executeAND_comm sa sb, executeAND_assoc sa sb sc, executeAND_self sa,
    executeOR_comm sa sb, executeOR_assoc sa sb sc, executeOR_self sa⟩

theorem and_or_laws_witness :
    Reachable (addDocument TextIndexer.init [("content", "a b")]).2 ∧
    (mkTERM "a" "").wellFormed = true ∧ (mkTERM "b" "").wellFormed = true ∧
    (mkNOT (mkTERM "a" "")).wellFormed = true ∧
    evaluateAST (addDocument TextIndexer.init [("content", "a b")]).2
        (mkAND (mkAND (mkTERM "a" "") (mkTERM "b" "")) (mkNOT (mkTERM "a" "")))
      = evaluateAST (addDocument TextIndexer.init [("content", "a b")]).2
        (mkAND (mkTERM "a" "") (mkAND (mkTERM "b" "") (mkNOT (mkTERM "a" "")))) :=
  ⟨Reachable.add _ _ Reachable.init, rfl, rfl, rfl,
    (and_or_laws _ (Reachable.add _ _ Reachable.init) (mkTERM "a" "") (mkTERM "b" "")
      (mkNOT (mkTERM "a" "")) rfl rfl rfl).2.1⟩

theorem executeNOT_executeNOT (s : TextIndexer) (h : Reachable s) (L : List Int)
    (hL : L.Sorted (· < ·)) (hU : ∀ d, d ∈ L → d ∈ s.all_doc_ids) :
    executeNOT s (executeNOT s L) = L := by
  have h1 := executeNOT_filter_spec s h L (sorted_lt_to_le hL)
  have h2 := executeNOT_filter_spec s h (executeNOT s L) (sorted_lt_to_le h1.1)
  apply sorted_lt_ext h2.1 hL
  intro d
  rw [h2.2 d, h1.2 d]
  constructor
  · rintro ⟨hd, hn⟩
    by_contra hc
    exact hn ⟨hd, hc⟩
  · intro hd
    exact ⟨hU d hd, fun hc => hc.2 hd⟩

/-- C8 (L3): on a reachable state `executeNOT` applied twice to a strictly
ascending list of assigned ids gives the list back, and the evaluation of
`NOT (NOT A)` equals that of `A` for every well-formed tree `A`. -/
theorem double_negation (s : TextIndexer) (h : Reachable s) (L : List Int)
    (hL : L.Sorted (· < ·)) (hU : ∀ d, d ∈ L → d ∈ s.all_doc_ids)
    (A : ASTNode) (hA : A.wellFormed = true) :
    executeNOT s (executeNOT s L) = L ∧
    evaluateAST s (mkNOT (mkNOT A)) = evaluateAST s A := by
  refine ⟨executeNOT_executeNOT s h L hL hU, ?_⟩
  obtain ⟨a, ea, sa, ma⟩ := evaluateAST_sorted h A hA
  simp only [evaluateAST_mkNOT, ea, Option.some.injEq]
  exact executeNOT_executeNOT s h a sa ma

theorem double_negation_witness :
    Reachable (addDocument TextIndexer.init [("content", "a b")]).2 ∧
    ([1] : List Int).Sorted (· < ·) ∧
    (∀ d, d ∈ ([1] : List Int) →
      d ∈ (addDocument TextIndexer.init [("content", "a b")]).2.all_doc_ids) ∧
    (mkTERM "a" "").wellFormed = true ∧
    executeNOT (addDocument TextIndexer.init [("content", "a b")]).2
        (executeNOT (addDocument TextIndexer.init [("content", "a b")]).2 [1]) = [1] ∧
    evaluateAST (addDocument TextIndexer.init [("content", "a b")]).2
        (mkNOT (mkNOT (mkTERM "a" "")))
      = evaluateAST (addDocument TextIndexer.init [("content", "a b")]).2 (mkTERM "a" "") :=
  ⟨Reachable.add _ _ Reachable.init, by decide, by decide, rfl,
    double_negation _ (Reachable.add _ _ Reachable.init) [1] (by decide) (by decide)
      (mkTERM "a" "") rfl⟩
/-! ## Trees built by the parser -/

theorem parseFieldTerm_isTerm (term_str : String) : (parseFieldTerm term_str).isTerm = true := by
  unfold parseFieldTerm
  simp only
  split <;> rfl

theorem parseFieldTerm_wellFormed (term_str : String) :
    (parseFieldTerm term_str).wellFormed = true := by
  unfold parseFieldTerm
  simp only
  split <;> rfl

theorem parsePrimary_wellFormed (parseOr : Nat → ParseResult)
    (hrec : ∀ c node cur, parseOr c = .ok (node, cur) → node.wellFormed = true)
    (tokens : List String) (current : Nat) (node : ASTNode) (cur : Nat)
    (h : parsePrimary parseOr tokens current = .ok (node, cur)) : node.wellFormed = true := by
  unfold parsePrimary at h
  split at h
  · cases h; rfl
  · split at h
    · split at h
      · cases h
      · rename_i n c hr
        split at h
        · cases h; exact hrec _ _ _ hr
        · cases h; exact hrec _ _ _ hr
    · split at h
      · simp only at h
        split at h
        · cases h
        · cases h
          simp only [mkProximity]
          split <;> simp [ASTNode.wellFormed, parseFieldTerm_isTerm]
      · cases h; exact parseFieldTerm_wellFormed _

theorem parseNot_wellFormed (parseOr : Nat → ParseResult)
    (hrec : ∀ c node cur, parseOr c = .ok (node, cur) → node.wellFormed = true)
    (tokens : List String) (current : Nat) (node : ASTNode) (cur : Nat)
    (h : parseNot parseOr tokens current = .ok (node, cur)) : node.wellFormed = true := by
  unfold parseNot at h
  split at h
  · split at h
    · cases h
    · rename_i operand c hr
      cases h
      simp only [mkNOT, ASTNode.wellFormed]
      exact parsePrimary_wellFormed parseOr hrec _ _ _ _ hr
  · exact parsePrimary_wellFormed parseOr hrec _ _ _ _ h

theorem parseAnd_loop_wellFormed (parseOr : Nat → ParseResult)
    (hrec : ∀ c node cur, parseOr c = .ok (node, cur) → node.wellFormed = true)
    (tokens : List String) (fuel : Nat) (left : ASTNode) (current : Nat)
    (hl : left.wellFormed = true) (node : ASTNode) (cur : Nat)
    (h : parseAnd.loop parseOr tokens fuel left current = .ok (node, cur)) :
    node.wellFormed = true := by
  induction fuel generalizing left current with
  | zero => simp [parseAnd.loop] at h
  | succ fuel ih =>
    unfold parseAnd.loop at h
    split at h
    · split at h
      · cases h; exact hl
      · split at h
        · cases h; exact hl
        · split at h
          · cases h
          · cases h; exact hl
          · rename_i right c hn hr
            refine ih (mkAND left right) c ?_ h
            simp only [mkAND, ASTNode.wellFormed, Bool.and_eq_true]
            exact ⟨hl, parseNot_wellFormed parseOr hrec _ _ _ _ hr⟩
    · cases h; exact hl

theorem parseAnd_wellFormed (parseOr : Nat → ParseResult)
    (hrec : ∀ c node cur, parseOr c = .ok (node, cur) → node.wellFormed = true)
    (tokens : List String) (current : Nat) (node : ASTNode) (cur : Nat)
    (h : parseAnd parseOr tokens current = .ok (node, cur)) : node.wellFormed = true := by
  unfold parseAnd at h
  split at h
  · cases h
  · rename_i left c hr
    exact parseAnd_loop_wellFormed parseOr hrec tokens _ left c
      (parseNot_wellFormed parseOr hrec _ _ _ _ hr) node cur h

theorem parseOr_loop_wellFormed (recOr : Nat → ParseResult)
    (hrec : ∀ c node cur, recOr c = .ok (node, cur) → node.wellFormed = true)
    (tokens : List String) (fuel : Nat) (left : ASTNode) (current : Nat)
    (hl : left.wellFormed = true) (node : ASTNode) (cur : Nat)
    (h : InfSearch.parseOr.loop recOr tokens fuel left current = .ok (node, cur)) :
    node.wellFormed = true := by
  induction fuel generalizing left current with
  | zero => simp [InfSearch.parseOr.loop] at h
  | succ fuel ih =>
    unfold InfSearch.parseOr.loop at h
    split at h
    · split at h
      · cases h
      · rename_i right c hr
        refine ih (mkOR left right) c ?_ h
        simp only [mkOR, ASTNode.wellFormed, Bool.and_eq_true]
        exact ⟨hl, parseAnd_wellFormed recOr hrec _ _ _ _ hr⟩
    · cases h; exact hl

theorem parseOr_wellFormed (depth : Nat) (tokens : List String) (current : Nat)
    (node : ASTNode) (cur : Nat) (h : parseOr depth tokens current = .ok (node, cur)) :
    node.wellFormed = true := by
  induction depth generalizing current node cur with
  | zero => simp [parseOr] at h
  | succ depth ih =>
    unfold parseOr at h
    split at h
    · cases h
    · rename_i left c hr
      exact parseOr_loop_wellFormed (parseOr depth tokens) ih tokens _ left c
        (parseAnd_wellFormed (parseOr depth tokens) ih _ _ _ _ hr) node cur h

theorem parse_wellFormed (query : String) (ast : ASTNode)
    (h : QueryParser.parse query = .ok ast) : ast.wellFormed = true := by
  unfold QueryParser.parse at h
  simp only at h
  split at h
  · cases h; rfl
  · split at h
    · cases h
    · rename_i node c hr
      cases h
      exact parseOr_wellFormed _ _ _ _ _ hr
/-! ## Queries of one negated lexeme -/

theorem tokenizeQuery.loop_plain (cs rest token : List Char) (tokens : List String)
    (h : cs.all (fun c => !(c = '"') && !isspace c && !isQueryPunct c) = true) :
    tokenizeQuery.loop (cs ++ rest) token false tokens
      = tokenizeQuery.loop rest (token ++ cs) false tokens := by
  induction cs generalizing token with
  | nil => simp
  | cons c cs ih =>
    simp only [List.all_cons, Bool.and_eq_true, Bool.not_eq_true', decide_eq_false_iff_not] at h
    obtain ⟨⟨⟨h1, h2⟩, h3⟩, h4⟩ := h
    show tokenizeQuery.loop (c :: (cs ++ rest)) token false tokens = _
    simp only [tokenizeQuery.loop, if_neg h1, h2, h3, Bool.false_and,
      Bool.false_eq_true, if_false]
    rw [ih _ h4]
    simp

theorem isPlainLexeme_ne_paren {x : String} (hx : isPlainLexeme x = true) : x ≠ "(" := by
  intro e
  subst e
  revert hx
  decide

theorem tokenizeQuery_not_plain (x : String) (hx : isPlainLexeme x = true) :
    tokenizeQuery ("NOT " ++ x) = ["NOT", x] := by
  unfold isPlainLexeme at hx
  simp only [Bool.and_eq_true, Bool.not_eq_true'] at hx
  obtain ⟨hne, hall⟩ := hx
  have e1 : ("NOT " ++ x).toList = 'N' :: 'O' :: 'T' :: ' ' :: (x.toList ++ []) := by
    simp [String.toList]
  unfold tokenizeQuery
  rw [e1]
  have e2 : tokenizeQuery.loop ('N' :: 'O' :: 'T' :: ' ' :: (x.toList ++ [])) [] false []
      = tokenizeQuery.loop (x.toList ++ []) [] false ["NOT"] := by
    simp [tokenizeQuery.loop, isspace, isQueryPunct]
  rw [e2, tokenizeQuery.loop_plain _ _ _ _ hall]
  simp only [tokenizeQuery.loop, List.nil_append, hne, Bool.not_false, if_true]
  show combineTokens ["NOT", String.mk x.toList] = ["NOT", x]
  simp [combineTokens, String.toList]

theorem parse_not_plain (x : String) (hx : isPlainLexeme x = true) :
    QueryParser.parse ("NOT " ++ x) = .ok (mkNOT (parseFieldTerm x)) := by
  have hne := isPlainLexeme_ne_paren hx
  unfold QueryParser.parse
  rw [tokenizeQuery_not_plain x hx]
  simp [parseOr, InfSearch.parseOr.loop, parseAnd, parseAnd.loop, parseNot, parsePrimary, hne]
/-! ## The contracts of the evaluator -/

/-- C2: on strictly ascending lists `executeAND` returns the strictly ascending
list of exactly the ids that occur in both operands, and the empty list when an
operand is empty. -/
theorem executeAND_intersection (L R : List Int)
    (hL : L.Sorted (· < ·)) (hR : R.Sorted (· < ·)) :
    (executeAND L R).Sorted (· < ·) ∧
    (∀ x, x ∈ executeAND L R ↔ x ∈ L ∧ x ∈ R) ∧
    (L = [] ∨ R = [] → executeAND L R = []) :=
  executeAND_filter_spec L R hL hR

theorem executeAND_intersection_witness :
    ([1, 2, 3] : List Int).Sorted (· < ·) ∧ ([2, 3, 5] : List Int).Sorted (· < ·) ∧
    (executeAND [1, 2, 3] [2, 3, 5]).Sorted (· < ·) ∧
    (∀ x, x ∈ executeAND [1, 2, 3] [2, 3, 5] ↔
      x ∈ ([1, 2, 3] : List Int) ∧ x ∈ ([2, 3, 5] : List Int)) ∧
    (([1, 2, 3] : List Int) = [] ∨ ([2, 3, 5] : List Int) = [] →
      executeAND [1, 2, 3] [2, 3, 5] = []) :=
  ⟨by decide, by decide, executeAND_intersection [1, 2, 3] [2, 3, 5] (by decide) (by decide)⟩

theorem evaluateAST_parseFieldTerm (s : TextIndexer) (x : String) :
    ∃ value field, parseFieldTerm x = mkTERM value field ∧
      evaluateAST s (parseFieldTerm x) = some (searchTerm s value field) := by
  unfold parseFieldTerm
  simp only
  split
  · exact ⟨_, _, rfl, rfl⟩
  · exact ⟨_, _, rfl, rfl⟩

theorem executeQuery_not_plain (s : TextIndexer) (x value field : String)
    (hx : isPlainLexeme x = true) (hv : parseFieldTerm x = mkTERM value field) :
    executeQuery s ("NOT " ++ x) = .ok (executeNOT s (searchTerm s value field)) := by
  unfold executeQuery
  rw [parse_not_plain x hx, hv]
  simp [mkNOT, mkTERM, evaluateAST]

/-- C4: in a reachable state `executeNOT` of an ascending list is the ascending
list of exactly the assigned ids that are not in the list; and the query `NOT x`,
for a lexeme `x` that the lexer leaves in one piece, returns `executeNOT` of the
postings of `x`, the assigned ids that are not in these postings. -/
theorem executeNOT_complement (s : TextIndexer) (h : Reachable s) (L : List Int)
    (hL : L.Sorted (· ≤ ·)) (x : String) (hx : isPlainLexeme x = true) :
    (executeNOT s L).Sorted (· < ·) ∧
    (∀ d, d ∈ executeNOT s L ↔ d ∈ s.all_doc_ids ∧ d ∉ L) ∧
    ∃ value field, parseFieldTerm x = mkTERM value field ∧
      executeQuery s ("NOT " ++ x) = .ok (executeNOT s (searchTerm s value field)) ∧
      ∀ d, d ∈ executeNOT s (searchTerm s value field) ↔
        d ∈ s.all_doc_ids ∧ d ∉ searchTerm s value field := by
  obtain ⟨value, field, hv, _⟩ := evaluateAST_parseFieldTerm s x
  have hp := executeNOT_filter_spec s h L hL
  refine ⟨hp.1, hp.2, value, field, hv, executeQuery_not_plain s x value field hx hv, ?_⟩
  exact (executeNOT_filter_spec s h _
    (sorted_lt_to_le (searchTerm_sorted h value field).1)).2

theorem executeNOT_complement_witness :
    Reachable (addDocument TextIndexer.init [("content", "a b")]).2 ∧
    ([1, 1, 4] : List Int).Sorted (· ≤ ·) ∧ isPlainLexeme "a" = true ∧
    (executeNOT (addDocument TextIndexer.init [("content", "a b")]).2 [1, 1, 4]).Sorted
      (· < ·) :=
  ⟨Reachable.add _ _ Reachable.init, by decide, by decide,
    (executeNOT_complement _ (Reachable.add _ _ Reachable.init) [1, 1, 4] (by decide) "a"
      (by decide)).1⟩

/-- C1: on a reachable state the evaluation of a tree whose `NEAR` and `ADJ`
nodes have two `TERM` children returns a strictly ascending list of assigned doc
ids; every tree that the parser returns is such a tree; so every answer of
`executeQuery` is a strictly ascending list of assigned doc ids, and a query that
parses is answered. -/
theorem evaluation_ascending (s : TextIndexer) (h : Reachable s) :
    (∀ ast : ASTNode, ast.wellFormed = true →
      ∃ r, evaluateAST s ast = some r ∧ r.Sorted (· < ·) ∧ r.Nodup ∧
        ∀ d, d ∈ r → d ∈ s.all_doc_ids) ∧
    (∀ query ast, QueryParser.parse query = .ok ast → ast.wellFormed = true) ∧
    (∀ query ast, QueryParser.parse query = .ok ast → ∃ r, executeQuery s query = .ok r) ∧
    (∀ query r, executeQuery s query = .ok r →
      r.Sorted (· < ·) ∧ ∀ d, d ∈ r → d ∈ s.all_doc_ids) := by
  refine ⟨?_, parse_wellFormed, ?_, ?_⟩
  · intro ast hwf
    obtain ⟨r, er, sr, mr⟩ := evaluateAST_sorted h ast hwf
    exact ⟨r, er, sr, sr.nodup, mr⟩
  · intro query ast hp
    obtain ⟨r, er, _, _⟩ := evaluateAST_sorted h ast (parse_wellFormed query ast hp)
    unfold executeQuery
    rw [hp]
    cases ast with
    | null => exact ⟨[], rfl⟩
    | node t v f d l r' => exact ⟨r, by simp only [er]⟩
  · intro query r hq
    unfold executeQuery at hq
    split at hq
    · cases hq
    · cases hq
      simp
    · rename_i ast hne hp
      obtain ⟨r', er, sr, mr⟩ := evaluateAST_sorted h ast (parse_wellFormed query ast hp)
      rw [er] at hq
      cases hq
      exact ⟨sr, mr⟩

theorem evaluation_ascending_witness :
    Reachable (addDocument TextIndexer.init [("content", "a b")]).2 ∧
    ∃ r, executeQuery (addDocument TextIndexer.init [("content", "a b")]).2 "a OR b" = .ok r ∧
      r.Sorted (· < ·) :=
  ⟨Reachable.add _ _ Reachable.init, [1], rfl,
    ((evaluation_ascending (addDocument TextIndexer.init [("content", "a b")]).2
      (Reachable.add _ _ Reachable.init)).2.2.2 "a OR b" [1] rfl).1⟩
/-! ## Document ids -/

theorem setInsert_append (l : List Int) (x : Int) (h : ∀ a, a ∈ l → a < x) :
    setInsert l x = l ++ [x] := by
  induction l with
  | nil => rfl
  | cons b rest ih =>
    have hb : b < x := h b (List.mem_cons_self _ _)
    have h1 : ¬ x < b := by omega
    have h2 : ¬ x = b := by omega
    simp only [setInsert, if_neg h1, if_neg h2, List.cons_append]
    rw [ih (fun a ha => h a (List.mem_cons_of_mem _ ha))]

theorem addDocument_fold_frame (doc_id : Int) (pairs : List (String × String))
    (acc : TextIndexer × String) :
    (pairs.foldl (addDocument.step doc_id) acc).1.all_doc_ids = acc.1.all_doc_ids ∧
    (pairs.foldl (addDocument.step doc_id) acc).1.next_doc_id = acc.1.next_doc_id := by
  induction pairs generalizing acc with
  | nil => exact ⟨rfl, rfl⟩
  | cons p ps ih =>
    simp only [List.foldl_cons]
    have e := addDocument_step_all_doc_ids doc_id acc p
    obtain ⟨h1, h2⟩ := ih (addDocument.step doc_id acc p)
    exact ⟨by rw [h1, e.1], by rw [h2, e.2]⟩

theorem addDocument_fst (s : TextIndexer) (document_pairs : List (String × String)) :
    (addDocument s document_pairs).1 = s.next_doc_id := rfl

theorem addDocument_next_doc_id (s : TextIndexer) (document_pairs : List (String × String)) :
    (addDocument s document_pairs).2.next_doc_id = s.next_doc_id + 1 := by
  unfold addDocument
  simp only
  rw [(sortIndexes_frame _).2.1, (indexDocumentFields_frame _ _ _).2.1]
  have h := addDocument_fold_frame s.next_doc_id document_pairs (addDocument.allocate s, "")
  rw [h.2]
  rfl

theorem addDocument_all_doc_ids (s : TextIndexer) (document_pairs : List (String × String)) :
    (addDocument s document_pairs).2.all_doc_ids = setInsert s.all_doc_ids s.next_doc_id := by
  unfold addDocument
  simp only
  rw [(sortIndexes_frame _).1, (indexDocumentFields_frame _ _ _).1]
  have h := addDocument_fold_frame s.next_doc_id document_pairs (addDocument.allocate s, "")
  rw [h.1]
  rfl

theorem addDocuments_ids (docs : List (List (String × String))) (s : TextIndexer)
    (hfresh : ∀ a, a ∈ s.all_doc_ids → a < s.next_doc_id) :
    (addDocuments s docs).1 = (List.range docs.length).map (fun (i : Nat) => s.next_doc_id + (i : Int)) ∧
    (addDocuments s docs).2.all_doc_ids
      = s.all_doc_ids ++ (List.range docs.length).map (fun (i : Nat) => s.next_doc_id + (i : Int)) ∧
    (addDocuments s docs).2.next_doc_id = s.next_doc_id + (docs.length : Int) := by
  induction docs generalizing s with
  | nil => simp [addDocuments]
  | cons doc rest ih =>
    have hn := addDocument_next_doc_id s doc
    have hu := addDocument_all_doc_ids s doc
    rw [setInsert_append _ _ hfresh] at hu
    have hfresh' : ∀ a, a ∈ (addDocument s doc).2.all_doc_ids →
        a < (addDocument s doc).2.next_doc_id := by
      intro a ha
      rw [hu] at ha
      rw [hn]
      rcases List.mem_append.1 ha with h | h
      · have := hfresh a h
        omega
      · rw [List.mem_singleton] at h
        omega
    obtain ⟨h1, h2, h3⟩ := ih (addDocument s doc).2 hfresh'
    simp only [addDocuments, List.length_cons, List.range_succ_eq_map, List.map_cons,
      List.map_map]
    refine ⟨?_, ?_, ?_⟩
    · rw [h1, hn, addDocument_fst]
      simp only [Nat.cast_zero, add_zero, List.cons.injEq, true_and]
      apply List.map_congr_left
      intro i _
      simp only [Function.comp, Nat.cast_succ]
      omega
    · rw [h2, hu, hn]
      simp only [Nat.cast_zero, add_zero, List.append_assoc, List.singleton_append,
        List.append_cancel_left_eq, List.cons.injEq, true_and]
      apply List.map_congr_left
      intro i _
      simp only [Function.comp, Nat.cast_succ]
      omega
    · rw [h3, hn]
      push_cast
      omega

/-- C11 (P4/I5): starting from a fresh indexer, whatever documents are added (an
empty field list included), the calls of `addDocument` return `1, 2, ..., n` in
this order, the call number `n` returns `n`, and after `n` calls the universe set
holds exactly `1, ..., n`. -/
theorem doc_ids_sequential (docs : List (List (String × String))) :
    (addDocuments TextIndexer.init docs).1
      = (List.range docs.length).map (fun (i : Nat) => (1 : Int) + (i : Int)) ∧
    (∀ n : Nat, 1 ≤ n → n ≤ docs.length →
      (addDocuments TextIndexer.init docs).1.get? (n - 1) = some (n : Int)) ∧
    (addDocuments TextIndexer.init docs).2.all_doc_ids
      = (List.range docs.length).map (fun (i : Nat) => (1 : Int) + (i : Int)) ∧
    (∀ d : Int, d ∈ (addDocuments TextIndexer.init docs).2.all_doc_ids ↔
      1 ≤ d ∧ d ≤ (docs.length : Int)) := by
  obtain ⟨h1, h2, _⟩ := addDocuments_ids docs TextIndexer.init (by simp [TextIndexer.init])
  have h1' : (addDocuments TextIndexer.init docs).1
      = (List.range docs.length).map (fun (i : Nat) => (1 : Int) + (i : Int)) := h1
  have h2' : (addDocuments TextIndexer.init docs).2.all_doc_ids
      = (List.range docs.length).map (fun (i : Nat) => (1 : Int) + (i : Int)) := by
    rw [h2]; rfl
  refine ⟨h1', ?_, h2', ?_⟩
  · intro n hn1 hn2
    rw [h1', List.get?_eq_getElem?, List.getElem?_map, List.getElem?_range (by omega)]
    simp only [Option.map_some', Option.some.injEq]
    omega
  · intro d
    rw [h2', List.mem_map]
    constructor
    · rintro ⟨i, hi, rfl⟩
      rw [List.mem_range] at hi
      omega
    · rintro ⟨hd1, hd2⟩
      refine ⟨(d - 1).toNat, ?_, ?_⟩
      · rw [List.mem_range]
        omega
      · omega
/-! ## End-to-end scenarios -/

/-- C18: after the three fixture documents, added in order to a fresh indexer and
given the ids 1, 2, 3, `executeQuery` answers the nine queries of the scenarios
with the listed doc ids. -/
theorem fixture_queries :
    (addDocuments TextIndexer.init fixtureDocuments).1 = [1, 2, 3] ∧
    executeQuery fixtureIndexer "quick" = .ok [1, 3] ∧
    executeQuery fixtureIndexer "dog AND lazy" = .ok [1, 2, 3] ∧
    executeQuery fixtureIndexer "fox NEAR/3 dog" = .ok [3] ∧
    executeQuery fixtureIndexer "fox NEAR/5 dog" = .ok [1, 3] ∧
    executeQuery fixtureIndexer "quick ADJ/3 dog" = .ok [3] ∧
    executeQuery fixtureIndexer "title:dogs" = .ok [2] ∧
    executeQuery fixtureIndexer "lazy AND NOT fox" = .ok [2] ∧
    executeQuery fixtureIndexer "zzz OR dog" = .ok [1, 2, 3] ∧
    executeQuery fixtureIndexer "(quick OR sleeps) AND dog" = .ok [1, 2, 3] := by
  refine ⟨rfl, ?_, ?_, ?_, ?_, ?_, ?_, ?_, ?_, ?_⟩ <;> rfl
/-! ## Growth of the index by one document -/

theorem addToCoordList_append_new (l : List TermPositions) (d : Int) (ps : List Int)
    (h : d ∉ l.map TermPositions.doc_id) :
    addToCoordList l d ps = l ++ [⟨d, ps⟩] := by
  induction l with
  | nil => rfl
  | cons e rest ih =>
    simp only [List.map_cons, List.mem_cons, not_or] at h
    have hne : ¬ e.doc_id = d := fun hh => h.1 hh.symm
    simp only [addToCoordList, if_neg hne, List.cons_append, ih h.2]

theorem addToCoordList_append_old (l : List TermPositions) (d : Int) (ps0 ps : List Int)
    (h : d ∉ l.map TermPositions.doc_id) :
    addToCoordList (l ++ [⟨d, ps0⟩]) d ps = l ++ [⟨d, ps0 ++ ps⟩] := by
  induction l with
  | nil => simp [addToCoordList]
  | cons e rest ih =>
    simp only [List.map_cons, List.mem_cons, not_or] at h
    have hne : ¬ e.doc_id = d := fun hh => h.1 hh.symm
    show addToCoordList (e :: (rest ++ [⟨d, ps0⟩])) d ps = e :: (rest ++ [⟨d, ps0 ++ ps⟩])
    simp only [addToCoordList, if_neg hne, ih h.2]

theorem addToInvList_grows (old l : List Int) (d : Int) (hnew : d ∉ old)
    (h : l = old ∨ l = old ++ [d]) :
    addToInvList l d = old ++ [d] := by
  unfold addToInvList
  rcases h with h | h
  · subst h; simp [hnew]
  · subst h; simp

theorem addToCoordList_grows (old l : List TermPositions) (d : Int) (ps : List Int)
    (hnew : d ∉ old.map TermPositions.doc_id)
    (h : l = old ∨ ∃ ps0, l = old ++ [⟨d, ps0⟩]) :
    ∃ ps1, addToCoordList l d ps = old ++ [⟨d, ps1⟩] := by
  rcases h with h | ⟨ps0, h⟩
  · subst h
    exact ⟨ps, addToCoordList_append_new _ _ _ hnew⟩
  · subst h
    exact ⟨ps0 ++ ps, addToCoordList_append_old _ _ _ _ hnew⟩

theorem growsBy_refl (s : TextIndexer) (d : Int) : GrowsBy s s d :=
  ⟨fun _ _ => Or.inl rfl, fun _ _ => Or.inl rfl⟩

theorem growsBy_indexField_step {s t : TextIndexer} {d : Int} (h : GrowsBy s t d)
    (hinv : ∀ scope term, d ∉ invListOf s scope term)
    (hcoord : ∀ scope term, d ∉ (coordListOf s scope term).map TermPositions.doc_id)
    (field_name : String) (entry : String × List Int) :
    GrowsBy s (indexField.step d field_name t entry) d := by
  refine ⟨?_, ?_⟩
  · intro scope term
    rw [invListOf_indexField_step]
    split
    · exact Or.inr (addToInvList_grows _ _ d (hinv scope term) (h.inv scope term))
    · exact h.inv scope term
  · intro scope term
    rw [coordListOf_indexField_step]
    split
    · exact Or.inr (addToCoordList_grows _ _ d _ (hcoord scope term) (h.coord scope term))
    · exact h.coord scope term

theorem growsBy_indexDocumentFields_step {s t : TextIndexer} {d : Int} (h : GrowsBy s t d)
    (hinv : ∀ scope term, d ∉ invListOf s scope term)
    (hcoord : ∀ scope term, d ∉ (coordListOf s scope term).map TermPositions.doc_id)
    (entry : String × List Int) :
    GrowsBy s (indexDocumentFields.step d t entry) d := by
  refine ⟨?_, ?_⟩
  · intro scope term
    rw [invListOf_indexDocumentFields_step]
    split
    · exact Or.inr (addToInvList_grows _ _ d (hinv scope term) (h.inv scope term))
    · exact h.inv scope term
  · intro scope term
    rw [coordListOf_indexDocumentFields_step]
    split
    · exact Or.inr (addToCoordList_grows _ _ d _ (hcoord scope term) (h.coord scope term))
    · exact h.coord scope term

theorem growsBy_indexField {s t : TextIndexer} {d : Int} (h : GrowsBy s t d)
    (hinv : ∀ scope term, d ∉ invListOf s scope term)
    (hcoord : ∀ scope term, d ∉ (coordListOf s scope term).map TermPositions.doc_id)
    (field_name text : String) :
    GrowsBy s (indexField t d field_name text) d := by
  unfold InfSearch.indexField
  generalize collectTermPositions (tokenize text) 0 [] = entries
  induction entries generalizing t with
  | nil => simpa using h
  | cons e es ih =>
    simp only [List.foldl_cons]
    exact ih (growsBy_indexField_step h hinv hcoord field_name e)

theorem growsBy_indexDocumentFields {s t : TextIndexer} {d : Int} (h : GrowsBy s t d)
    (hinv : ∀ scope term, d ∉ invListOf s scope term)
    (hcoord : ∀ scope term, d ∉ (coordListOf s scope term).map TermPositions.doc_id)
    (text : String) :
    GrowsBy s (indexDocumentFields t d text) d := by
  unfold InfSearch.indexDocumentFields
  generalize collectTermPositions (tokenize text) 0 [] = entries
  induction entries generalizing t with
  | nil => simpa using h
  | cons e es ih =>
    simp only [List.foldl_cons]
    exact ih (growsBy_indexDocumentFields_step h hinv hcoord e)

theorem growsBy_of_same_lists {s t t' : TextIndexer} {d : Int} (h : GrowsBy s t d)
    (h1 : t'.inverted_index = t.inverted_index)
    (h2 : t'.coordinate_index = t.coordinate_index)
    (h3 : t'.field_inverted_index = t.field_inverted_index)
    (h4 : t'.field_coordinate_index = t.field_coordinate_index) :
    GrowsBy s t' d := by
  have ei : ∀ scope term, invListOf t' scope term = invListOf t scope term := by
    intro scope term
    cases scope <;> simp [invListOf, h1, h3]
  have ec : ∀ scope term, coordListOf t' scope term = coordListOf t scope term := by
    intro scope term
    cases scope <;> simp [coordListOf, h2, h4]
  refine ⟨?_, ?_⟩
  · intro scope term
    rw [ei]; exact h.inv scope term
  · intro scope term
    rw [ec]; exact h.coord scope term

theorem growsBy_addDocument_step {s : TextIndexer} {acc : TextIndexer × String} {d : Int}
    (h : GrowsBy s acc.1 d)
    (hinv : ∀ scope term, d ∉ invListOf s scope term)
    (hcoord : ∀ scope term, d ∉ (coordListOf s scope term).map TermPositions.doc_id)
    (pair : String × String) :
    GrowsBy s (addDocument.step d acc pair).1 d := by
  unfold InfSearch.addDocument.step
  simp only
  apply growsBy_indexField _ hinv hcoord
  apply growsBy_of_same_lists h <;> (split <;> split <;> rfl)

theorem growsBy_addDocument_fold {s : TextIndexer} {d : Int}
    (hinv : ∀ scope term, d ∉ invListOf s scope term)
    (hcoord : ∀ scope term, d ∉ (coordListOf s scope term).map TermPositions.doc_id)
    (pairs : List (String × String)) (acc : TextIndexer × String)
    (h : GrowsBy s acc.1 d) :
    GrowsBy s (pairs.foldl (addDocument.step d) acc).1 d := by
  induction pairs generalizing acc with
  | nil => exact h
  | cons p ps ih =>
    simp only [List.foldl_cons]
    exact ih _ (growsBy_addDocument_step h hinv hcoord p)
theorem sortByDocId_of_sorted (l : List TermPositions)
    (h : (l.map TermPositions.doc_id).Sorted (· < ·)) : sortByDocId l = l := by
  unfold sortByDocId
  apply List.Sorted.insertionSort_eq
  have h1 : l.Pairwise (fun a b => a.doc_id < b.doc_id) := List.pairwise_map.1 h
  exact h1.imp (fun hab => le_of_lt hab)

theorem sortDocPositions_of_sorted (l : List TermPositions)
    (h : (l.map TermPositions.doc_id).Sorted (· < ·))
    (hp : ∀ e, e ∈ l → e.positions.Sorted (· < ·)) : sortDocPositions l = l := by
  unfold sortDocPositions
  rw [sortByDocId_of_sorted l h]
  conv_rhs => rw [← List.map_id l]
  apply List.map_congr_left
  intro e he
  have := sortDocList_of_sorted e.positions (hp e he)
  unfold sortDocList at this
  simp only [this, id]

theorem sortDocPositions_append_new (l : List TermPositions) (d : Int) (ps : List Int)
    (h : (l.map TermPositions.doc_id).Sorted (· < ·))
    (hp : ∀ e, e ∈ l → e.positions.Sorted (· < ·))
    (hd : ∀ x, x ∈ l.map TermPositions.doc_id → x < d) :
    sortDocPositions (l ++ [⟨d, ps⟩]) = l ++ [⟨d, sortDocList ps⟩] := by
  have hs : ((l ++ [(⟨d, ps⟩ : TermPositions)]).map TermPositions.doc_id).Sorted (· < ·) := by
    rw [List.map_append]
    refine List.pairwise_append.2 ⟨h, by simp, ?_⟩
    intro a ha b hb
    simp only [List.map_cons, List.map_nil, List.mem_singleton] at hb
    subst hb
    exact hd a ha
  unfold sortDocPositions
  rw [sortByDocId_of_sorted _ hs, List.map_append]
  have e1 : l.map (fun term_pos : TermPositions =>
      (⟨term_pos.doc_id, unique (sort term_pos.positions)⟩ : TermPositions)) = l := by
    have := sortDocPositions_of_sorted l h hp
    unfold sortDocPositions at this
    rwa [sortByDocId_of_sorted l h] at this
  rw [e1]
  rfl

theorem append_singleton_sorted {l : List Int} {d : Int} (h : l.Sorted (· < ·))
    (hd : ∀ x, x ∈ l → x < d) : (l ++ [d]).Sorted (· < ·) := by
  refine List.pairwise_append.2 ⟨h, by simp, ?_⟩
  intro a ha b hb
  rw [List.mem_singleton] at hb
  subst hb
  exact hd a ha

theorem addDocument_step_titles (doc_id : Int) (acc : TextIndexer × String)
    (pair : String × String) (d' : Int) (h : d' ≠ doc_id) :
    (addDocument.step doc_id acc pair).1.doc_titles d' = acc.1.doc_titles d' ∧
    (addDocument.step doc_id acc pair).1.doc_contents d' = acc.1.doc_contents d' := by
  unfold addDocument.step
  simp only
  rw [(indexField_frame _ _ _ _).2.2.2.2.1, (indexField_frame _ _ _ _).2.2.2.2.2]
  refine ⟨?_, ?_⟩
  · split <;> split <;> simp [h]
  · split <;> split <;> simp [h]

theorem addDocument_fold_titles (doc_id : Int) (pairs : List (String × String))
    (acc : TextIndexer × String) (d' : Int) (h : d' ≠ doc_id) :
    (pairs.foldl (addDocument.step doc_id) acc).1.doc_titles d' = acc.1.doc_titles d' ∧
    (pairs.foldl (addDocument.step doc_id) acc).1.doc_contents d' = acc.1.doc_contents d' := by
  induction pairs generalizing acc with
  | nil => exact ⟨rfl, rfl⟩
  | cons p ps ih =>
    simp only [List.foldl_cons]
    obtain ⟨h1, h2⟩ := ih (addDocument.step doc_id acc p)
    obtain ⟨e1, e2⟩ := addDocument_step_titles doc_id acc p d' h
    exact ⟨by rw [h1, e1], by rw [h2, e2]⟩

theorem addDocument_titles (s : TextIndexer) (document_pairs : List (String × String))
    (d' : Int) (h : d' ≠ s.next_doc_id) :
    (addDocument s document_pairs).2.doc_titles d' = s.doc_titles d' ∧
    (addDocument s document_pairs).2.doc_contents d' = s.doc_contents d' := by
  unfold addDocument
  simp only
  rw [(sortIndexes_frame _).2.2.1, (sortIndexes_frame _).2.2.2,
    (indexDocumentFields_frame _ _ _).2.2.2.2.1, (indexDocumentFields_frame _ _ _).2.2.2.2.2]
  exact addDocument_fold_titles s.next_doc_id document_pairs (addDocument.allocate s, "") d' h

theorem addDocument_growsBy (s : TextIndexer) (h : Reachable s)
    (document_pairs : List (String × String)) :
    GrowsBy s (addDocument s document_pairs).2 s.next_doc_id ∧
    ∀ scope term,
      coordListOf (addDocument s document_pairs).2 scope term = coordListOf s scope term ∨
      ∃ positions, positions.Sorted (· < ·) ∧
        coordListOf (addDocument s document_pairs).2 scope term
          = coordListOf s scope term ++ [⟨s.next_doc_id, positions⟩] := by
  have hc := h.coherent
  have hs := h.indexSorted
  have hlt : ∀ scope term x, x ∈ invListOf s scope term → x < s.next_doc_id :=
    fun scope term x hx => hc.fresh x (hc.ids scope term x hx)
  have hltc : ∀ scope term x, x ∈ (coordListOf s scope term).map TermPositions.doc_id →
      x < s.next_doc_id :=
    fun scope term x hx => hlt scope term x ((hc.coh scope term x).2 hx)
  have hinv : ∀ scope term, s.next_doc_id ∉ invListOf s scope term := by
    intro scope term hm
    have := hlt scope term _ hm
    omega
  have hcoord : ∀ scope term,
      s.next_doc_id ∉ (coordListOf s scope term).map TermPositions.doc_id := by
    intro scope term hm
    have := hltc scope term _ hm
    omega
  have h0 : GrowsBy s (addDocument.allocate s, "").1 s.next_doc_id :=
    growsBy_of_same_lists (growsBy_refl s s.next_doc_id) rfl rfl rfl rfl
  have h1 := growsBy_addDocument_fold hinv hcoord document_pairs _ h0
  have h2 := growsBy_indexDocumentFields h1 hinv hcoord
    (document_pairs.foldl (addDocument.step s.next_doc_id) (addDocument.allocate s, "")).2
  have key : ∀ scope term,
      coordListOf (addDocument s document_pairs).2 scope term = coordListOf s scope term ∨
      ∃ positions, positions.Sorted (· < ·) ∧
        coordListOf (addDocument s document_pairs).2 scope term
          = coordListOf s scope term ++ [⟨s.next_doc_id, positions⟩] := by
    intro scope term
    have es : coordListOf (addDocument s document_pairs).2 scope term
        = sortDocPositions (coordListOf (indexDocumentFields
            (document_pairs.foldl (addDocument.step s.next_doc_id)
              (addDocument.allocate s, "")).1 s.next_doc_id
            (document_pairs.foldl (addDocument.step s.next_doc_id)
              (addDocument.allocate s, "")).2) scope term) :=
      coordListOf_sortIndexes _ _ _
    rcases h2.coord scope term with e | ⟨ps, e⟩
    · left
      rw [es, e]
      exact sortDocPositions_of_sorted _ (hs.coord_sorted scope term)
        (hs.positions_sorted scope term)
    · right
      refine ⟨sortDocList ps, sortDocList_sorted ps, ?_⟩
      rw [es, e]
      exact sortDocPositions_append_new _ _ _ (hs.coord_sorted scope term)
        (hs.positions_sorted scope term) (hltc scope term)
  refine ⟨⟨?_, ?_⟩, key⟩
  · intro scope term
    have es : invListOf (addDocument s document_pairs).2 scope term
        = sortDocList (invListOf (indexDocumentFields
            (document_pairs.foldl (addDocument.step s.next_doc_id)
              (addDocument.allocate s, "")).1 s.next_doc_id
            (document_pairs.foldl (addDocument.step s.next_doc_id)
              (addDocument.allocate s, "")).2) scope term) :=
      invListOf_sortIndexes _ _ _
    rcases h2.inv scope term with e | e
    · left
      rw [es, e]
      exact sortDocList_of_sorted _ (hs.inv_sorted scope term)
    · right
      rw [es, e]
      exact sortDocList_of_sorted _
        (append_singleton_sorted (hs.inv_sorted scope term) (hlt scope term))
  · intro scope term
    rcases key scope term with e | ⟨ps, _, e⟩
    · exact Or.inl e
    · exact Or.inr ⟨ps, e⟩

/-- C20: in a reachable state a call of `addDocument` that returns `d` leaves
every inverted list (global or of a field) as it was or appends `d` at its end,
leaves every coordinate list as it was or appends one entry of `d` at its end (the
earlier entries keep their doc id, their positions and their order), and leaves the
stored title and content of every other document, the earlier ones included,
unchanged. -/
theorem addDocument_frame (s : TextIndexer) (h : Reachable s)
    (document_pairs : List (String × String)) :
    (∀ scope term,
      invListOf (addDocument s document_pairs).2 scope term = invListOf s scope term ∨
      invListOf (addDocument s document_pairs).2 scope term
        = invListOf s scope term ++ [(addDocument s document_pairs).1]) ∧
    (∀ scope term,
      coordListOf (addDocument s document_pairs).2 scope term = coordListOf s scope term ∨
      ∃ positions, positions.Sorted (· < ·) ∧
        coordListOf (addDocument s document_pairs).2 scope term
          = coordListOf s scope term ++ [⟨(addDocument s document_pairs).1, positions⟩]) ∧
    (∀ d', d' ≠ (addDocument s document_pairs).1 →
      (addDocument s document_pairs).2.doc_titles d' = s.doc_titles d' ∧
      (addDocument s document_pairs).2.doc_contents d' = s.doc_contents d') ∧
    (∀ d', d' ∈ s.all_doc_ids →
      getDocumentTitle (addDocument s document_pairs).2 d' = getDocumentTitle s d' ∧
      getDocumentContent (addDocument s document_pairs).2 d' = getDocumentContent s d') := by
  obtain ⟨hg, hk⟩ := addDocument_growsBy s h document_pairs
  refine ⟨hg.inv, hk, fun d' hd => addDocument_titles s document_pairs d' hd, ?_⟩
  intro d' hd
  have hne : d' ≠ s.next_doc_id := by
    have := h.coherent.fresh d' hd
    omega
  obtain ⟨e1, e2⟩ := addDocument_titles s document_pairs d' hne
  simp only [getDocumentTitle, getDocumentContent, e1, e2, and_self]

theorem addDocument_frame_witness :
    Reachable (addDocument TextIndexer.init [("title", "a b")]).2 ∧
    (invListOf (addDocument (addDocument TextIndexer.init [("title", "a b")]).2
        [("title", "b"), ("title", "b c")]).2 none "b"
      = invListOf (addDocument TextIndexer.init [("title", "a b")]).2 none "b" ∨
    invListOf (addDocument (addDocument TextIndexer.init [("title", "a b")]).2
        [("title", "b"), ("title", "b c")]).2 none "b"
      = invListOf (addDocument TextIndexer.init [("title", "a b")]).2 none "b" ++
        [(addDocument (addDocument TextIndexer.init [("title", "a b")]).2
          [("title", "b"), ("title", "b c")]).1]) :=
  ⟨Reachable.add _ _ Reachable.init,
    (addDocument_frame _ (Reachable.add _ _ Reachable.init)
      [("title", "b"), ("title", "b c")]).1 none "b"⟩
/-! ## Skip lists -/

theorem skipTarget_none (n hops : Nat) : skipTarget n hops none = none := by
  cases hops <;> rfl

theorem skipTarget_some (n hops i : Nat) (hi : i < n) :
    skipTarget n hops (some i) = if i + hops < n then some (i + hops) else none := by
  induction hops generalizing i with
  | zero => simp [skipTarget, hi]
  | succ hops ih =>
    simp only [skipTarget, skipNext]
    by_cases h1 : i + 1 < n
    · rw [if_pos h1, ih (i + 1) h1]
      have e : i + 1 + hops = i + (hops + 1) := by omega
      rw [e]
    · rw [if_neg h1, skipTarget_none]
      have h2 : ¬ i + (hops + 1) < n := by omega
      rw [if_neg h2]

theorem addSkipPointers.loop_map_doc_id (n skip_step : Nat) (nodes : List SkipListNode)
    (count : Nat) :
    (addSkipPointers.loop n skip_step nodes count).map SkipListNode.doc_id
      = nodes.map SkipListNode.doc_id := by
  induction nodes generalizing count with
  | nil => rfl
  | cons node rest ih =>
    simp only [addSkipPointers.loop, List.map_cons, ih]
    split <;> rfl

theorem addSkipPointers.loop_get (n skip_step : Nat) (docs : List Int) (count i : Nat)
    (hi : i < docs.length) (hn : count + docs.length ≤ n) :
    ((addSkipPointers.loop n skip_step (docs.map fun d => ⟨d, none⟩) count).get? i).map
        SkipListNode.skip
      = some (if (count + i) % skip_step = 0 ∧ count + i + skip_step < n
          then some (count + i + skip_step) else none) := by
  induction docs generalizing count i with
  | nil => simp at hi
  | cons d rest ih =>
    simp only [List.length_cons] at hi hn
    cases i with
    | zero =>
      simp only [List.map_cons, addSkipPointers.loop, List.get?_cons_zero, Option.map_some',
        add_zero, Option.some.injEq]
      by_cases hc : count % skip_step = 0
      · simp only [if_pos hc, hc, true_and]
        exact skipTarget_some n skip_step count (by omega)
      · simp only [if_neg hc, hc, false_and, if_false]
    | succ j =>
      simp only [List.map_cons, addSkipPointers.loop, List.get?_cons_succ]
      have := ih (count + 1) j (by omega) (by omega)
      have e : count + 1 + j = count + (j + 1) := by omega
      rw [e] at this
      exact this

theorem addSkipPointers_map_doc_id (docs : List Int) :
    (addSkipPointers (docs.map fun d => ⟨d, none⟩) docs.length).map SkipListNode.doc_id
      = docs := by
  have e : (docs.map fun d => (⟨d, none⟩ : SkipListNode)).map SkipListNode.doc_id = docs := by
    rw [List.map_map]
    exact List.map_id docs
  unfold addSkipPointers
  split
  · exact e
  · rw [addSkipPointers.loop_map_doc_id]
    exact e

theorem addSkipPointers_get (docs : List Int) (i : Nat) (hi : i < docs.length) :
    ((addSkipPointers (docs.map fun d => ⟨d, none⟩) docs.length).get? i).map SkipListNode.skip
      = some (if 3 ≤ docs.length ∧ i % Nat.sqrt docs.length = 0 ∧
            i + Nat.sqrt docs.length < docs.length
          then some (i + Nat.sqrt docs.length) else none) := by
  unfold addSkipPointers
  by_cases h3 : docs.length < 3
  · have hn : ¬ 3 ≤ docs.length := by omega
    simp only [h3, decide_True, Bool.or_true, if_true, hn, false_and, if_false]
    rw [List.get?_eq_getElem?, List.getElem?_map, List.getElem?_eq_getElem hi]
    rfl
  · have hne : (docs.map fun d => (⟨d, none⟩ : SkipListNode)).isEmpty = false := by
      cases docs with
      | nil => simp at hi
      | cons a as => rfl
    have hn : 3 ≤ docs.length := by omega
    simp only [hne, h3, decide_False, Bool.or_false, Bool.false_eq_true, if_false, hn, true_and]
    have := addSkipPointers.loop_get docs.length (Nat.sqrt docs.length) docs 0 i hi (by omega)
    simpa using this
theorem Reachable.skip_lists_built {s : TextIndexer} (h : Reachable s) :
    s.skip_lists = (buildSkipLists s).skip_lists := by
  cases h with
  | init => rfl
  | add s pairs hs => rfl

theorem addToInvList_ne_nil (l : List Int) (d : Int) : addToInvList l d ≠ [] := by
  intro h
  have : d ∈ addToInvList l d := (mem_addToInvList l d d).2 (Or.inr rfl)
  rw [h] at this
  simp at this

theorem sortDocList_ne_nil (l : List Int) (h : l ≠ []) : sortDocList l ≠ [] := by
  cases l with
  | nil => exact absurd rfl h
  | cons a as =>
    intro hn
    have : a ∈ sortDocList (a :: as) := (mem_sortDocList _ a).2 (List.mem_cons_self _ _)
    rw [hn] at this
    simp at this

theorem indexDocumentFields_nonempty (s : TextIndexer) (doc_id : Int) (text : String)
    (h : ∀ term l, s.inverted_index term = some l → l ≠ []) :
    ∀ term l, (indexDocumentFields s doc_id text).inverted_index term = some l → l ≠ [] := by
  unfold indexDocumentFields
  generalize collectTermPositions (tokenize text) 0 [] = entries
  induction entries generalizing s with
  | nil => simpa using h
  | cons e es ih =>
    simp only [List.foldl_cons]
    apply ih
    intro term l hl
    simp only [indexDocumentFields.step, StrMap.set] at hl
    split at hl
    · cases hl
      exact addToInvList_ne_nil _ _
    · exact h term l hl

theorem addDocument_fold_inverted_index (doc_id : Int) (pairs : List (String × String))
    (acc : TextIndexer × String) :
    (pairs.foldl (addDocument.step doc_id) acc).1.inverted_index = acc.1.inverted_index := by
  induction pairs generalizing acc with
  | nil => rfl
  | cons p ps ih =>
    simp only [List.foldl_cons]
    rw [ih]
    unfold addDocument.step
    simp only
    rw [(indexField_frame _ _ _ _).2.2.1]
    split <;> split <;> rfl

theorem Reachable.inverted_nonempty {s : TextIndexer} (h : Reachable s) :
    ∀ term l, s.inverted_index term = some l → l ≠ [] := by
  induction h with
  | init =>
    intro term l hl
    simp [TextIndexer.init, StrMap.empty] at hl
  | add s pairs _ ih =>
    intro term l hl
    have hl' : ((indexDocumentFields
        (pairs.foldl (addDocument.step s.next_doc_id) (addDocument.allocate s, "")).1
        s.next_doc_id
        (pairs.foldl (addDocument.step s.next_doc_id) (addDocument.allocate s, "")).2).inverted_index
        term).map sortDocList = some l := hl
    cases hx : (indexDocumentFields
        (pairs.foldl (addDocument.step s.next_doc_id) (addDocument.allocate s, "")).1
        s.next_doc_id
        (pairs.foldl (addDocument.step s.next_doc_id) (addDocument.allocate s, "")).2).inverted_index
        term with
    | none => simp [hx] at hl'
    | some l0 =>
      rw [hx] at hl'
      simp only [Option.map_some', Option.some.injEq] at hl'
      subst hl'
      apply sortDocList_ne_nil
      refine indexDocumentFields_nonempty _ _ _ ?_ term l0 hx
      rw [addDocument_fold_inverted_index]
      exact ih

/-- C19 (P5): in every reachable state, so after every `addDocument`, every list of
the global inverted index is not empty and has a skip list whose chain of nodes
holds the ids of the list in order. With `n` the length of the list and
`s = Nat.sqrt n`, the integer square root of `n`, the node at index `i` has the
skip pointer to the node at index `i + s` when `3 ≤ n`, `i mod s = 0` and
`i + s < n`, and a null skip pointer otherwise. -/
theorem skip_list_shape (s : TextIndexer) (h : Reachable s) (term : String) (l : List Int)
    (hl : s.inverted_index term = some l) :
    l ≠ [] ∧
    Nat.sqrt l.length * Nat.sqrt l.length ≤ l.length ∧
    l.length < (Nat.sqrt l.length + 1) * (Nat.sqrt l.length + 1) ∧
    ∃ chain, s.skip_lists term = some chain ∧
      chain.map SkipListNode.doc_id = l ∧
      ∀ i, i < l.length →
        (chain.get? i).map SkipListNode.skip
          = some (if 3 ≤ l.length ∧ i % Nat.sqrt l.length = 0 ∧
                i + Nat.sqrt l.length < l.length
              then some (i + Nat.sqrt l.length) else none) := by
  have hne := h.inverted_nonempty term l hl
  refine ⟨hne, Nat.sqrt_le l.length, Nat.lt_succ_sqrt l.length, ?_⟩
  refine ⟨addSkipPointers (l.map fun d => ⟨d, none⟩) l.length, ?_,
    addSkipPointers_map_doc_id l, fun i hi => addSkipPointers_get l i hi⟩
  rw [h.skip_lists_built]
  have he : l.isEmpty = false := by
    cases l with
    | nil => exact absurd rfl hne
    | cons a as => rfl
  simp only [buildSkipLists, hl, he, Bool.false_eq_true, if_false]

theorem skip_list_shape_witness :
    Reachable fixtureIndexer ∧ fixtureIndexer.inverted_index "dog" = some [1, 2, 3] ∧
    ∃ chain, fixtureIndexer.skip_lists "dog" = some chain ∧
      chain.map SkipListNode.doc_id = [1, 2, 3] :=
  ⟨Reachable.add _ _ (Reachable.add _ _ (Reachable.add _ _ Reachable.init)), rfl,
    (skip_list_shape fixtureIndexer
      (Reachable.add _ _ (Reachable.add _ _ (Reachable.add _ _ Reachable.init)))
      "dog" [1, 2, 3] rfl).2.2.2.imp fun _ hc => ⟨hc.1, hc.2.1⟩⟩
/-! ## Lexing of plain lexemes separated by blanks -/

theorem isPlainLexeme_iff (x : String) :
    isPlainLexeme x = true ↔
      x.toList ≠ [] ∧
      x.toList.all (fun c => !(c = '"') && !isspace c && !isQueryPunct c) = true := by
  unfold isPlainLexeme
  simp only [Bool.and_eq_true, Bool.not_eq_true', List.isEmpty_eq_false, ne_eq]

theorem tokenizeQuery.loop_word_end (x : String) (tokens : List String)
    (hx : isPlainLexeme x = true) :
    tokenizeQuery.loop x.toList [] false tokens = tokens ++ [x] := by
  obtain ⟨hne, hall⟩ := (isPlainLexeme_iff x).1 hx
  have h := tokenizeQuery.loop_plain x.toList [] [] tokens hall
  rw [List.append_nil, List.nil_append] at h
  rw [h]
  have he : x.toList.isEmpty = false := by
    cases hc : x.toList with
    | nil => exact absurd hc hne
    | cons a as => rfl
  simp only [tokenizeQuery.loop, he, Bool.not_false, if_true]
  rfl

theorem tokenizeQuery.loop_word_blank (x : String) (rest : List Char) (tokens : List String)
    (hx : isPlainLexeme x = true) :
    tokenizeQuery.loop (x.toList ++ ' ' :: rest) [] false tokens
      = tokenizeQuery.loop rest [] false (tokens ++ [x]) := by
  obtain ⟨hne, hall⟩ := (isPlainLexeme_iff x).1 hx
  rw [tokenizeQuery.loop_plain x.toList (' ' :: rest) [] tokens hall, List.nil_append]
  have he : x.toList.isEmpty = false := by
    cases hc : x.toList with
    | nil => exact absurd hc hne
    | cons a as => rfl
  have hq : ¬ (' ' = '"') := by decide
  have hs : isspace ' ' = true := by decide
  simp only [tokenizeQuery.loop, if_neg hq, hs, Bool.not_false, Bool.and_self, if_true, he]
  rfl

theorem isPlainLexeme_ne_slash {x : String} (hx : isPlainLexeme x = true) : x ≠ "/" := by
  intro e
  subst e
  revert hx
  decide

theorem combineTokens_id : ∀ (ws : List String), (∀ w, w ∈ ws → w ≠ "/") →
    combineTokens ws = ws
  | [], _ => rfl
  | [_], _ => rfl
  | [t, t1], _ => rfl
  | t :: t1 :: t2 :: rest, h => by
    have h1 : t1 ≠ "/" := h t1 (by simp)
    have ih := combineTokens_id (t1 :: t2 :: rest)
      (fun w hw => h w (List.mem_cons_of_mem _ hw))
    simp only [combineTokens, h1, decide_False, Bool.and_false, Bool.false_and,
      Bool.false_eq_true, if_false, ih]
theorem tokenizeQuery.loop_words (ws : List String) (w : String) (tokens : List String)
    (hw : isPlainLexeme w = true) (hws : ∀ x, x ∈ ws → isPlainLexeme x = true) :
    tokenizeQuery.loop (w.toList ++ ws.flatMap (fun w' => ' ' :: w'.toList)) [] false tokens
      = tokens ++ w :: ws := by
  induction ws generalizing w tokens with
  | nil =>
    simp only [List.flatMap_nil, List.append_nil]
    exact tokenizeQuery.loop_word_end w tokens hw
  | cons w' rest ih =>
    simp only [List.flatMap_cons, List.cons_append]
    rw [tokenizeQuery.loop_word_blank w _ tokens hw,
      ih w' (tokens ++ [w]) (hws w' (List.mem_cons_self _ _))
        (fun x hx => hws x (List.mem_cons_of_mem _ hx))]
    simp

theorem tokenizeQuery_words (q w : String) (ws : List String)
    (hq : q.toList = w.toList ++ ws.flatMap (fun w' => ' ' :: w'.toList))
    (hw : ∀ x, x ∈ w :: ws → isPlainLexeme x = true) :
    tokenizeQuery q = w :: ws := by
  unfold tokenizeQuery
  rw [hq, tokenizeQuery.loop_words ws w [] (hw w (List.mem_cons_self _ _))
    (fun x hx => hw x (List.mem_cons_of_mem _ hx)), List.nil_append]
  exact combineTokens_id _ (fun x hx => isPlainLexeme_ne_slash (hw x hx))

theorem startsWith_mem : ∀ (p cs : List Char), startsWith p cs = true → ∀ c, c ∈ p → c ∈ cs
  | [], _, _, c, hc => by simp at hc
  | _ :: _, [], h, _, _ => by simp [startsWith] at h
  | p :: ps, c' :: cs, h, c, hc => by
    simp only [startsWith, Bool.and_eq_true, decide_eq_true_eq] at h
    rcases List.mem_cons.1 hc with e | e
    · subst e
      rw [h.1]
      exact List.mem_cons_self _ _
    · exact List.mem_cons_of_mem _ (startsWith_mem ps cs h.2 c e)

theorem isPlainLexeme_not_proximity {x : String} (hx : isPlainLexeme x = true) :
    isProximityToken x = false := by
  obtain ⟨_, hall⟩ := (isPlainLexeme_iff x).1 hx
  have hslash : '/' ∉ x.toList := by
    intro hm
    have := List.all_eq_true.1 hall '/' hm
    revert this
    decide
  unfold isProximityToken
  rw [Bool.or_eq_false_iff]
  constructor
  · cases h : startsWith "NEAR/".toList x.toList with
    | false => rfl
    | true => exact absurd (startsWith_mem _ _ h '/' (by decide)) hslash
  · cases h : startsWith "ADJ/".toList x.toList with
    | false => rfl
    | true => exact absurd (startsWith_mem _ _ h '/' (by decide)) hslash

theorem isPlainLexeme_ne_close {x : String} (hx : isPlainLexeme x = true) : x ≠ ")" := by
  intro e
  subst e
  revert hx
  decide

theorem isPlainTerm_facts {x : String} (hx : isPlainTerm x = true) :
    isPlainLexeme x = true ∧ x ≠ "AND" ∧ x ≠ "OR" ∧ x ≠ "NOT" ∧ x ≠ "(" ∧ x ≠ ")" ∧
    isProximityToken x = false := by
  unfold isPlainTerm at hx
  simp only [Bool.and_eq_true, Bool.not_eq_true', Bool.or_eq_false_iff,
    decide_eq_false_iff_not] at hx
  obtain ⟨hp, ⟨h1, h2⟩, h3⟩ := hx
  exact ⟨hp, h1, h2, h3, isPlainLexeme_ne_paren hp, isPlainLexeme_ne_close hp,
    isPlainLexeme_not_proximity hp⟩

theorem parseFieldTerm_eq_mkTERM (x : String) :
    ∃ value field, parseFieldTerm x = mkTERM value field := by
  unfold parseFieldTerm
  simp only
  split
  · exact ⟨_, _, rfl⟩
  · exact ⟨_, _, rfl⟩
/-! ## Steps of the parser on plain terms -/

theorem parsePrimary_term (recOr : Nat → ParseResult) (tokens : List String) (current : Nat)
    (t : String) (ht : tokens.getD current "" = t) (hc : current < tokens.length)
    (h1 : t ≠ "(") (h2 : isProximityToken (tokens.getD (current + 1) "") = false) :
    parsePrimary recOr tokens current = .ok (parseFieldTerm t, current + 1) := by
  unfold parsePrimary
  have hc' : ¬ tokens.length ≤ current := by omega
  rw [if_neg hc', ht, if_neg h1, h2]
  simp

theorem parseNot_term (recOr : Nat → ParseResult) (tokens : List String) (current : Nat)
    (t : String) (ht : tokens.getD current "" = t) (hc : current < tokens.length)
    (h1 : t ≠ "(") (h2 : isProximityToken (tokens.getD (current + 1) "") = false)
    (h3 : t ≠ "NOT") :
    parseNot recOr tokens current = .ok (parseFieldTerm t, current + 1) := by
  unfold parseNot
  have hn : ¬ (current < tokens.length ∧ tokens.getD current "" = "NOT") := by
    rw [ht]
    exact fun h => h3 h.2
  rw [if_neg hn]
  exact parsePrimary_term recOr tokens current t ht hc h1 h2

theorem parseNot_not (recOr : Nat → ParseResult) (tokens : List String) (current : Nat)
    (operand : ASTNode) (cur : Nat) (ht : tokens.getD current "" = "NOT")
    (hc : current < tokens.length)
    (hp : parsePrimary recOr tokens (current + 1) = .ok (operand, cur)) :
    parseNot recOr tokens current = .ok (mkNOT operand, cur) := by
  unfold parseNot
  rw [if_pos ⟨hc, ht⟩, hp]

theorem parsePrimary_end (recOr : Nat → ParseResult) (tokens : List String) (current : Nat)
    (hc : tokens.length ≤ current) :
    parsePrimary recOr tokens current = .ok (.null, current) := by
  unfold parsePrimary
  rw [if_pos hc]

theorem parseAnd.loop_end (recOr : Nat → ParseResult) (tokens : List String) (fuel : Nat)
    (left : ASTNode) (current : Nat) (hc : tokens.length ≤ current) :
    parseAnd.loop recOr tokens (fuel + 1) left current = .ok (left, current) := by
  unfold parseAnd.loop
  have hc' : ¬ current < tokens.length := by omega
  rw [if_neg hc']

theorem parseAnd.loop_break (recOr : Nat → ParseResult) (tokens : List String) (fuel : Nat)
    (left : ASTNode) (current : Nat)
    (ht : tokens.getD current "" = "OR" ∨ tokens.getD current "" = "NOT" ∨
      tokens.getD current "" = ")") :
    parseAnd.loop recOr tokens (fuel + 1) left current = .ok (left, current) := by
  unfold parseAnd.loop
  by_cases hc : current < tokens.length
  · rw [if_pos hc, if_pos ht]
  · rw [if_neg hc]

theorem parseAnd.loop_step (recOr : Nat → ParseResult) (tokens : List String) (fuel : Nat)
    (left : ASTNode) (current : Nat) (value field : String) (cur : Nat)
    (hc : current < tokens.length)
    (h1 : tokens.getD current "" ≠ "OR") (h2 : tokens.getD current "" ≠ "NOT")
    (h3 : tokens.getD current "" ≠ ")")
    (h4 : isProximityToken (tokens.getD current "") = false)
    (h5 : tokens.getD current "" ≠ "AND")
    (hp : parseNot recOr tokens current = .ok (mkTERM value field, cur)) :
    parseAnd.loop recOr tokens (fuel + 1) left current
      = parseAnd.loop recOr tokens fuel (mkAND left (mkTERM value field)) cur := by
  conv_lhs => unfold parseAnd.loop
  have hb : ¬ (tokens.getD current "" = "OR" ∨ tokens.getD current "" = "NOT" ∨
      tokens.getD current "" = ")") := by
    rintro (h | h | h)
    · exact h1 h
    · exact h2 h
    · exact h3 h
  rw [if_pos hc, if_neg hb, h4, if_neg h5, hp]
  simp [mkTERM]

theorem parseAnd.loop_step_and (recOr : Nat → ParseResult) (tokens : List String) (fuel : Nat)
    (left right : ASTNode) (current : Nat) (cur : Nat)
    (hc : current < tokens.length) (ht : tokens.getD current "" = "AND")
    (hr : right ≠ .null)
    (hp : parseNot recOr tokens (current + 1) = .ok (right, cur)) :
    parseAnd.loop recOr tokens (fuel + 1) left current
      = parseAnd.loop recOr tokens fuel (mkAND left right) cur := by
  conv_lhs => unfold parseAnd.loop
  have hb : ¬ (tokens.getD current "" = "OR" ∨ tokens.getD current "" = "NOT" ∨
      tokens.getD current "" = ")") := by
    rw [ht]
    decide
  have hx : isProximityToken (tokens.getD current "") = false := by
    rw [ht]
    decide
  rw [if_pos hc, if_neg hb, hx, if_pos ht, hp]
  cases right with
  | null => exact absurd rfl hr
  | node t v f d l r => simp

theorem parseOr_loop_stop (recOr : Nat → ParseResult) (tokens : List String) (fuel : Nat)
    (left : ASTNode) (current : Nat)
    (h : ¬ (current < tokens.length ∧ tokens.getD current "" = "OR")) :
    InfSearch.parseOr.loop recOr tokens (fuel + 1) left current = .ok (left, current) := by
  unfold InfSearch.parseOr.loop
  rw [if_neg h]

theorem parseOr_loop_step (recOr : Nat → ParseResult) (tokens : List String) (fuel : Nat)
    (left right : ASTNode) (current cur : Nat)
    (hc : current < tokens.length) (ht : tokens.getD current "" = "OR")
    (hp : parseAnd recOr tokens (current + 1) = .ok (right, cur)) :
    InfSearch.parseOr.loop recOr tokens (fuel + 1) left current
      = InfSearch.parseOr.loop recOr tokens fuel (mkOR left right) cur := by
  conv_lhs => unfold InfSearch.parseOr.loop
  rw [if_pos ⟨hc, ht⟩, hp]

theorem parseAnd_of_parseNot (recOr : Nat → ParseResult) (tokens : List String)
    (current : Nat) (left : ASTNode) (cur : Nat)
    (hp : parseNot recOr tokens current = .ok (left, cur)) :
    parseAnd recOr tokens current
      = parseAnd.loop recOr tokens (tokens.length + 1) left cur := by
  unfold parseAnd
  rw [hp]

theorem parseOr_of_parseAnd (depth : Nat) (tokens : List String) (current : Nat)
    (left : ASTNode) (cur : Nat)
    (hp : parseAnd (parseOr depth tokens) tokens current = .ok (left, cur)) :
    parseOr (depth + 1) tokens current
      = InfSearch.parseOr.loop (parseOr depth tokens) tokens (tokens.length + 1) left cur := by
  conv_lhs => unfold parseOr
  rw [hp]

theorem parse_of_parseOr (query : String) (tokens : List String) (node : ASTNode) (cur : Nat)
    (ht : tokenizeQuery query = tokens) (hne : tokens ≠ [])
    (hp : parseOr (tokens.length + 1) tokens 0 = .ok (node, cur)) :
    QueryParser.parse query = .ok node := by
  unfold QueryParser.parse
  simp only [ht]
  have he : tokens.isEmpty = false := by
    cases tokens with
    | nil => exact absurd rfl hne
    | cons a as => rfl
  rw [he, hp]
  simp
/-! ## The loop of `parseAnd` on a chain of plain terms -/

theorem getD_append_add {α : Type} (pre l : List α) (k : Nat) (d : α) :
    (pre ++ l).getD (pre.length + k) d = l.getD k d := by
  rw [List.getD_append_right _ _ _ _ (by omega)]
  congr 1
  omega

theorem getD_append_length {α : Type} (pre l : List α) (d : α) :
    (pre ++ l).getD pre.length d = l.getD 0 d := by
  have := getD_append_add pre l 0 d
  simpa using this

theorem length_le_flatMap_itemTokens (items : List (Bool × String)) :
    items.length ≤ (items.flatMap itemTokens).length := by
  induction items with
  | nil => simp
  | cons it rest ih =>
    simp only [List.flatMap_cons, List.length_append, List.length_cons]
    have : 1 ≤ (itemTokens it).length := by
      unfold itemTokens
      split <;> simp
    omega

theorem segment_head_not_proximity (items : List (Bool × String)) (post : List String)
    (hitems : ∀ it, it ∈ items → isPlainTerm it.2 = true)
    (hpost : post = [] ∨ post.head? = some "OR" ∨ post.head? = some "NOT" ∨
      post.head? = some ")") :
    isProximityToken ((items.flatMap itemTokens ++ post).getD 0 "") = false := by
  cases items with
  | nil =>
    simp only [List.flatMap_nil, List.nil_append]
    cases post with
    | nil => rfl
    | cons p rest =>
      simp at hpost
      simp only [List.getD_cons_zero]
      rcases hpost with h | h | h <;> subst h <;> rfl
  | cons it rest =>
    have ht := (isPlainTerm_facts (hitems it (List.mem_cons_self _ _))).2.2.2.2.2.2
    simp only [List.flatMap_cons, itemTokens]
    split
    · rfl
    · simpa using ht

theorem parseAnd.loop_segment (recOr : Nat → ParseResult) (items : List (Bool × String))
    (pre post : List String) (left : ASTNode) (fuel : Nat)
    (hitems : ∀ it, it ∈ items → isPlainTerm it.2 = true)
    (hpost : post = [] ∨ post.head? = some "OR" ∨ post.head? = some "NOT" ∨
      post.head? = some ")")
    (hf : items.length + 1 ≤ fuel) :
    parseAnd.loop recOr (pre ++ (items.flatMap itemTokens ++ post)) fuel left pre.length
      = .ok (items.foldl (fun l it => mkAND l (parseFieldTerm it.2)) left,
          pre.length + (items.flatMap itemTokens).length) := by
  induction items generalizing pre left fuel with
  | nil =>
    obtain ⟨f, rfl⟩ : ∃ f, fuel = f + 1 := ⟨fuel - 1, by omega⟩
    simp only [List.flatMap_nil, List.nil_append, List.foldl_nil, List.length_nil, add_zero]
    cases post with
    | nil =>
      exact parseAnd.loop_end recOr _ f left _ (by simp)
    | cons p rest =>
      simp at hpost
      apply parseAnd.loop_break
      rw [getD_append_length, List.getD_cons_zero]
      exact hpost
  | cons it rest ih =>
    obtain ⟨f, rfl⟩ : ∃ f, fuel = f + 1 := ⟨fuel - 1, by omega⟩
    simp only [List.length_cons] at hf
    obtain ⟨_, t1, t2, t3, t4, t5, t6⟩ := isPlainTerm_facts (hitems it (List.mem_cons_self _ _))
    have hrest : ∀ it', it' ∈ rest → isPlainTerm it'.2 = true :=
      fun it' h => hitems it' (List.mem_cons_of_mem _ h)
    have hhead := segment_head_not_proximity rest post hrest hpost
    obtain ⟨v, fld, ev⟩ := parseFieldTerm_eq_mkTERM it.2
    obtain ⟨b, t⟩ := it
    simp only at t1 t2 t3 t4 t5 t6 ev
    cases b with
    | false =>
      have etok : pre ++ ((((false, t) :: rest).flatMap itemTokens) ++ post)
          = pre ++ (t :: (rest.flatMap itemTokens ++ post)) := by
        simp [List.flatMap_cons, itemTokens]
      have etok' : pre ++ (t :: (rest.flatMap itemTokens ++ post))
          = (pre ++ [t]) ++ (rest.flatMap itemTokens ++ post) := by simp
      have hget : (pre ++ (t :: (rest.flatMap itemTokens ++ post))).getD pre.length "" = t := by
        rw [getD_append_length, List.getD_cons_zero]
      have hlook : isProximityToken
          ((pre ++ (t :: (rest.flatMap itemTokens ++ post))).getD (pre.length + 1) "") = false := by
        rw [getD_append_add, List.getD_cons_succ]
        exact hhead
      have hc : pre.length < (pre ++ (t :: (rest.flatMap itemTokens ++ post))).length := by
        simp
      have hp := parseNot_term recOr _ pre.length t hget hc t4 hlook t3
      rw [ev] at hp
      rw [etok, parseAnd.loop_step recOr _ f left pre.length v fld (pre.length + 1) hc
        (by rw [hget]; exact t2) (by rw [hget]; exact t3) (by rw [hget]; exact t5)
        (by rw [hget]; exact t6) (by rw [hget]; exact t1) hp, etok']
      have := ih (pre ++ [t]) (mkAND left (mkTERM v fld)) f hrest (by omega)
      simp only [List.length_append, List.length_singleton] at this
      rw [this]
      simp only [List.foldl_cons, ev, List.flatMap_cons, itemTokens, List.length_append,
        Bool.false_eq_true, if_false, List.length_singleton, Except.ok.injEq, Prod.mk.injEq,
        true_and]
      omega
    | true =>
      have etok : pre ++ ((((true, t) :: rest).flatMap itemTokens) ++ post)
          = pre ++ ("AND" :: t :: (rest.flatMap itemTokens ++ post)) := by
        simp [List.flatMap_cons, itemTokens]
      have etok' : pre ++ ("AND" :: t :: (rest.flatMap itemTokens ++ post))
          = (pre ++ ["AND", t]) ++ (rest.flatMap itemTokens ++ post) := by simp
      have hget0 : (pre ++ ("AND" :: t :: (rest.flatMap itemTokens ++ post))).getD
          pre.length "" = "AND" := by
        rw [getD_append_length, List.getD_cons_zero]
      have hget : (pre ++ ("AND" :: t :: (rest.flatMap itemTokens ++ post))).getD
          (pre.length + 1) "" = t := by
        rw [getD_append_add, List.getD_cons_succ, List.getD_cons_zero]
      have hlook : isProximityToken
          ((pre ++ ("AND" :: t :: (rest.flatMap itemTokens ++ post))).getD
            (pre.length + 1 + 1) "") = false := by
        rw [Nat.add_assoc, getD_append_add, List.getD_cons_succ, List.getD_cons_succ]
        exact hhead
      have hc : pre.length < (pre ++ ("AND" :: t :: (rest.flatMap itemTokens ++ post))).length := by
        simp
      have hc1 : pre.length + 1
          < (pre ++ ("AND" :: t :: (rest.flatMap itemTokens ++ post))).length := by
        simp
      have hp := parseNot_term recOr _ (pre.length + 1) t hget hc1 t4 hlook t3
      rw [etok, parseAnd.loop_step_and recOr _ f left (parseFieldTerm t) pre.length
        (pre.length + 1 + 1) hc hget0 (by rw [ev]; simp [mkTERM]) hp, etok']
      have := ih (pre ++ ["AND", t]) (mkAND left (parseFieldTerm t)) f hrest (by omega)
      simp only [List.length_append, List.length_cons, List.length_singleton,
        List.length_nil] at this
      rw [this]
      simp only [List.foldl_cons, List.flatMap_cons, itemTokens, List.length_append,
        if_true, List.length_cons, List.length_singleton, List.length_nil, Except.ok.injEq,
        Prod.mk.injEq, true_and]
      omega

theorem parseAnd_segment (recOr : Nat → ParseResult) (t : String)
    (items : List (Bool × String)) (pre post : List String)
    (ht : isPlainTerm t = true)
    (hitems : ∀ it, it ∈ items → isPlainTerm it.2 = true)
    (hpost : post = [] ∨ post.head? = some "OR" ∨ post.head? = some "NOT" ∨
      post.head? = some ")") :
    parseAnd recOr (pre ++ (t :: (items.flatMap itemTokens ++ post))) pre.length
      = .ok (items.foldl (fun l it => mkAND l (parseFieldTerm it.2)) (parseFieldTerm t),
          pre.length + 1 + (items.flatMap itemTokens).length) := by
  obtain ⟨_, t1, t2, t3, t4, t5, t6⟩ := isPlainTerm_facts ht
  have hhead := segment_head_not_proximity items post hitems hpost
  have hget : (pre ++ (t :: (items.flatMap itemTokens ++ post))).getD pre.length "" = t := by
    rw [getD_append_length, List.getD_cons_zero]
  have hlook : isProximityToken
      ((pre ++ (t :: (items.flatMap itemTokens ++ post))).getD (pre.length + 1) "") = false := by
    rw [getD_append_add, List.getD_cons_succ]
    exact hhead
  have hc : pre.length < (pre ++ (t :: (items.flatMap itemTokens ++ post))).length := by
    simp
  have hp := parseNot_term recOr _ pre.length t hget hc t4 hlook t3
  rw [parseAnd_of_parseNot recOr _ _ _ _ hp]
  have etok' : pre ++ (t :: (items.flatMap itemTokens ++ post))
      = (pre ++ [t]) ++ (items.flatMap itemTokens ++ post) := by simp
  have hl := length_le_flatMap_itemTokens items
  have hle : items.length + 1
      ≤ (pre ++ (t :: (items.flatMap itemTokens ++ post))).length + 1 := by
    simp only [List.length_append, List.length_cons]
    omega
  generalize (pre ++ (t :: (items.flatMap itemTokens ++ post))).length + 1 = F at hle ⊢
  have := parseAnd.loop_segment recOr items (pre ++ [t]) post (parseFieldTerm t) F
    hitems hpost hle
  rw [← etok'] at this
  simp only [List.length_append, List.length_singleton] at this
  exact this
/-! ## Implicit and explicit `AND` -/

theorem flatMap_itemTokens_juxtaposed (rest : List String) :
    (rest.map fun t => (false, t)).flatMap itemTokens = rest := by
  induction rest with
  | nil => rfl
  | cons t rest ih => simp [List.flatMap_cons, itemTokens, ih]

theorem flatMap_itemTokens_explicit (rest : List String) :
    (rest.map fun t => (true, t)).flatMap itemTokens = rest.flatMap fun t => ["AND", t] := by
  induction rest with
  | nil => rfl
  | cons t rest ih => simp [List.flatMap_cons, itemTokens, ih]

theorem intersperse_and (t : String) (rest : List String) :
    (t :: rest).intersperse "AND" = t :: rest.flatMap fun t' => ["AND", t'] := by
  induction rest generalizing t with
  | nil => rfl
  | cons t' rest ih =>
    rw [List.intersperse_cons₂, ih t']
    simp [List.flatMap_cons]

theorem intercalate_go_data (sep acc : String) (ws : List String) :
    (String.intercalate.go acc sep ws).data
      = acc.data ++ ws.flatMap fun w => sep.data ++ w.data := by
  induction ws generalizing acc with
  | nil => simp [String.intercalate.go]
  | cons w rest ih =>
    simp only [String.intercalate.go, ih, String.data_append, List.flatMap_cons,
      List.append_assoc]

theorem parseOr_chain (t : String) (items : List (Bool × String))
    (ht : isPlainTerm t = true) (hitems : ∀ it, it ∈ items → isPlainTerm it.2 = true) :
    parseOr ((t :: items.flatMap itemTokens).length + 1) (t :: items.flatMap itemTokens) 0
      = .ok (items.foldl (fun l it => mkAND l (parseFieldTerm it.2)) (parseFieldTerm t),
          (t :: items.flatMap itemTokens).length) := by
  have h := parseAnd_segment
    (parseOr (t :: items.flatMap itemTokens).length (t :: items.flatMap itemTokens))
    t items [] [] ht hitems (Or.inl rfl)
  simp only [List.nil_append, List.append_nil, List.length_nil, zero_add] at h
  have e : 1 + (items.flatMap itemTokens).length = (t :: items.flatMap itemTokens).length := by
    simp only [List.length_cons]
    omega
  rw [e] at h
  rw [parseOr_of_parseAnd _ _ _ _ _ h]
  apply parseOr_loop_stop
  intro hc
  exact absurd hc.1 (lt_irrefl _)

/-- C17: for plain term lexemes `t1, ..., tn`, `n ≥ 1`, the token sequence
`t1 t2 ... tn` and the token sequence `t1 AND t2 AND ... AND tn` both parse to the
left-nested chain `AND(...AND(AND(t1, t2), t3)..., tn)` of `TERM` nodes with every
token consumed; the queries with the lexemes separated by a blank, and by
` AND `, lex to these token sequences and parse to this chain. -/
theorem implicit_and_chain (ts : List String) (hne : ts ≠ [])
    (hts : ∀ t, t ∈ ts → isPlainTerm t = true) :
    parseOr (ts.length + 1) ts 0 = .ok (andChain ts, ts.length) ∧
    parseOr ((ts.intersperse "AND").length + 1) (ts.intersperse "AND") 0
      = .ok (andChain ts, (ts.intersperse "AND").length) ∧
    tokenizeQuery (String.intercalate " " ts) = ts ∧
    tokenizeQuery (String.intercalate " AND " ts) = ts.intersperse "AND" ∧
    QueryParser.parse (String.intercalate " " ts) = .ok (andChain ts) ∧
    QueryParser.parse (String.intercalate " AND " ts) = .ok (andChain ts) := by
  cases ts with
  | nil => exact absurd rfl hne
  | cons t rest =>
    have ht := hts t (List.mem_cons_self _ _)
    have hrest : ∀ t', t' ∈ rest → isPlainTerm t' = true :=
      fun t' h => hts t' (List.mem_cons_of_mem _ h)
    have hlex : ∀ t', isPlainTerm t' = true → isPlainLexeme t' = true :=
      fun t' h => (isPlainTerm_facts h).1
    have h1 : parseOr ((t :: rest).length + 1) (t :: rest) 0
        = .ok (andChain (t :: rest), (t :: rest).length) := by
      have := parseOr_chain t (rest.map fun t' => (false, t')) ht (by
        intro it hit
        obtain ⟨t', ht', rfl⟩ := List.mem_map.1 hit
        exact hrest t' ht')
      rw [flatMap_itemTokens_juxtaposed, List.foldl_map] at this
      exact this
    have h2 : parseOr (((t :: rest).intersperse "AND").length + 1)
        ((t :: rest).intersperse "AND") 0
        = .ok (andChain (t :: rest), ((t :: rest).intersperse "AND").length) := by
      have := parseOr_chain t (rest.map fun t' => (true, t')) ht (by
        intro it hit
        obtain ⟨t', ht', rfl⟩ := List.mem_map.1 hit
        exact hrest t' ht')
      rw [flatMap_itemTokens_explicit, List.foldl_map] at this
      rw [intersperse_and]
      exact this
    have h3 : tokenizeQuery (String.intercalate " " (t :: rest)) = t :: rest := by
      apply tokenizeQuery_words
      · show (String.intercalate.go t " " rest).data = _
        rw [intercalate_go_data]
        rfl
      · intro x hx
        exact hlex x (hts x hx)
    have h4 : tokenizeQuery (String.intercalate " AND " (t :: rest))
        = (t :: rest).intersperse "AND" := by
      rw [intersperse_and]
      apply tokenizeQuery_words
      · show (String.intercalate.go t " AND " rest).data = _
        rw [intercalate_go_data, List.flatMap_assoc]
        have ef : (fun w : String => " AND ".data ++ w.data)
            = (fun x => ["AND", x].flatMap fun w' => ' ' :: w'.toList) := by
          funext w
          simp [List.flatMap_cons, String.toList]
        rw [ef]
        rfl
      · intro x hx
        rcases List.mem_cons.1 hx with e | e
        · subst e; exact hlex _ ht
        · obtain ⟨t', ht', hx'⟩ := List.mem_flatMap.1 e
          simp only [List.mem_cons, List.mem_singleton, List.not_mem_nil, or_false] at hx'
          rcases hx' with e' | e'
          · subst e'; decide
          · subst e'; exact hlex _ (hrest _ ht')
    refine ⟨h1, h2, h3, h4, ?_, ?_⟩
    · exact parse_of_parseOr _ _ _ _ h3 (by simp) h1
    · exact parse_of_parseOr _ _ _ _ h4 (by rw [intersperse_and]; simp) h2

theorem implicit_and_chain_witness :
    (["quick", "title:dog", "lazy"] : List String) ≠ [] ∧
    (∀ t, t ∈ (["quick", "title:dog", "lazy"] : List String) → isPlainTerm t = true) ∧
    QueryParser.parse (String.intercalate " " ["quick", "title:dog", "lazy"])
      = .ok (andChain ["quick", "title:dog", "lazy"]) ∧
    QueryParser.parse (String.intercalate " AND " ["quick", "title:dog", "lazy"])
      = .ok (andChain ["quick", "title:dog", "lazy"]) :=
  ⟨by decide, by decide,
    (implicit_and_chain ["quick", "title:dog", "lazy"] (by decide) (by decide)).2.2.2.2⟩
/-! ## Precedence and associativity -/

theorem parseOr_loop_stop_pos (recOr : Nat → ParseResult) (tokens : List String) (fuel : Nat)
    (left : ASTNode) (current : Nat) (hf : 0 < fuel)
    (h : ¬ (current < tokens.length ∧ tokens.getD current "" = "OR")) :
    InfSearch.parseOr.loop recOr tokens fuel left current = .ok (left, current) := by
  obtain ⟨f, rfl⟩ : ∃ f, fuel = f + 1 := ⟨fuel - 1, by omega⟩
  exact parseOr_loop_stop recOr tokens f left current h

theorem parseOr_loop_step_pos (recOr : Nat → ParseResult) (tokens : List String) (fuel : Nat)
    (left right : ASTNode) (current cur : Nat) (hf : 0 < fuel)
    (hc : current < tokens.length) (ht : tokens.getD current "" = "OR")
    (hp : parseAnd recOr tokens (current + 1) = .ok (right, cur)) :
    InfSearch.parseOr.loop recOr tokens fuel left current
      = InfSearch.parseOr.loop recOr tokens (fuel - 1) (mkOR left right) cur := by
  obtain ⟨f, rfl⟩ : ∃ f, fuel = f + 1 := ⟨fuel - 1, by omega⟩
  exact parseOr_loop_step recOr tokens f left right current cur hc ht hp

theorem parseOr_of_parseAnd_pos (depth : Nat) (tokens : List String) (current : Nat)
    (left : ASTNode) (cur : Nat) (hd : 0 < depth)
    (hp : parseAnd (parseOr (depth - 1) tokens) tokens current = .ok (left, cur)) :
    parseOr depth tokens current
      = InfSearch.parseOr.loop (parseOr (depth - 1) tokens) tokens (tokens.length + 1) left
          cur := by
  obtain ⟨f, rfl⟩ : ∃ f, depth = f + 1 := ⟨depth - 1, by omega⟩
  exact parseOr_of_parseAnd f tokens current left cur hp

theorem parsePrimary_paren (recOr : Nat → ParseResult) (tokens : List String)
    (current : Nat) (node : ASTNode) (cur : Nat)
    (hc : current < tokens.length) (ht : tokens.getD current "" = "(")
    (hp : recOr (current + 1) = .ok (node, cur))
    (hclose : cur < tokens.length ∧ tokens.getD cur "" = ")") :
    parsePrimary recOr tokens current = .ok (node, cur + 1) := by
  unfold parsePrimary
  have hc' : ¬ tokens.length ≤ current := by omega
  rw [if_neg hc', if_pos ht, hp]
  simp only
  rw [if_pos hclose]

theorem tokens_plain3 {a b c : String} (ha : isPlainTerm a = true) (hb : isPlainTerm b = true)
    (hc : isPlainTerm c = true) (k1 k2 : String) (h1 : isPlainLexeme k1 = true)
    (h2 : isPlainLexeme k2 = true) :
    ∀ x, x ∈ [a, k1, b, k2, c] → isPlainLexeme x = true := by
  intro x hx
  simp only [List.mem_cons, List.mem_singleton, List.not_mem_nil, or_false] at hx
  rcases hx with h | h | h | h | h <;> subst h
  · exact (isPlainTerm_facts ha).1
  · exact h1
  · exact (isPlainTerm_facts hb).1
  · exact h2
  · exact (isPlainTerm_facts hc).1

theorem parse_or_and (a b c : String) (ha : isPlainTerm a = true) (hb : isPlainTerm b = true)
    (hc : isPlainTerm c = true) :
    QueryParser.parse (a ++ " OR " ++ b ++ " AND " ++ c)
      = .ok (mkOR (parseFieldTerm a) (mkAND (parseFieldTerm b) (parseFieldTerm c))) := by
  have ht : tokenizeQuery (a ++ " OR " ++ b ++ " AND " ++ c) = [a, "OR", b, "AND", c] := by
    apply tokenizeQuery_words
    · simp [String.toList, String.data_append]
    · exact tokens_plain3 ha hb hc "OR" "AND" (by decide) (by decide)
  apply parse_of_parseOr _ _ _ 5 ht (by simp)
  have s1 : parseAnd (parseOr 5 [a, "OR", b, "AND", c]) [a, "OR", b, "AND", c] 0 = .ok (parseFieldTerm a, 1) :=
    parseAnd_segment _ a [] [] ["OR", b, "AND", c] ha (by simp) (Or.inr (Or.inl rfl))
  have s2 : parseAnd (parseOr 5 [a, "OR", b, "AND", c]) [a, "OR", b, "AND", c] 2
      = .ok (mkAND (parseFieldTerm b) (parseFieldTerm c), 5) :=
    parseAnd_segment _ b [(true, c)] [a, "OR"] [] hb (by simpa using hc) (Or.inl rfl)
  have e1 : parseOr 6 [a, "OR", b, "AND", c] 0
      = InfSearch.parseOr.loop (parseOr 5 [a, "OR", b, "AND", c]) [a, "OR", b, "AND", c] 6 (parseFieldTerm a) 1 :=
    parseOr_of_parseAnd 5 _ 0 _ _ s1
  have e2 : InfSearch.parseOr.loop (parseOr 5 [a, "OR", b, "AND", c]) [a, "OR", b, "AND", c] 6 (parseFieldTerm a) 1
      = InfSearch.parseOr.loop (parseOr 5 [a, "OR", b, "AND", c]) [a, "OR", b, "AND", c] 5
          (mkOR (parseFieldTerm a) (mkAND (parseFieldTerm b) (parseFieldTerm c))) 5 :=
    parseOr_loop_step _ _ 5 _ _ 1 5 (by simp) rfl s2
  exact e1.trans (e2.trans (parseOr_loop_stop _ _ 4 _ 5 (by simp)))

theorem parse_and_or (a b c : String) (ha : isPlainTerm a = true) (hb : isPlainTerm b = true)
    (hc : isPlainTerm c = true) :
    QueryParser.parse (a ++ " AND " ++ b ++ " OR " ++ c)
      = .ok (mkOR (mkAND (parseFieldTerm a) (parseFieldTerm b)) (parseFieldTerm c)) := by
  have ht : tokenizeQuery (a ++ " AND " ++ b ++ " OR " ++ c) = [a, "AND", b, "OR", c] := by
    apply tokenizeQuery_words
    · simp [String.toList, String.data_append]
    · exact tokens_plain3 ha hb hc "AND" "OR" (by decide) (by decide)
  apply parse_of_parseOr _ _ _ 5 ht (by simp)
  have s1 : parseAnd (parseOr 5 [a, "AND", b, "OR", c]) [a, "AND", b, "OR", c] 0
      = .ok (mkAND (parseFieldTerm a) (parseFieldTerm b), 3) :=
    parseAnd_segment _ a [(true, b)] [] ["OR", c] ha (by simpa using hb) (Or.inr (Or.inl rfl))
  have s2 : parseAnd (parseOr 5 [a, "AND", b, "OR", c]) [a, "AND", b, "OR", c] 4 = .ok (parseFieldTerm c, 5) :=
    parseAnd_segment _ c [] [a, "AND", b, "OR"] [] hc (by simp) (Or.inl rfl)
  have e1 : parseOr 6 [a, "AND", b, "OR", c] 0
      = InfSearch.parseOr.loop (parseOr 5 [a, "AND", b, "OR", c]) [a, "AND", b, "OR", c] 6 (mkAND (parseFieldTerm a) (parseFieldTerm b)) 3 :=
    parseOr_of_parseAnd 5 _ 0 _ _ s1
  have e2 : InfSearch.parseOr.loop (parseOr 5 [a, "AND", b, "OR", c]) [a, "AND", b, "OR", c] 6 (mkAND (parseFieldTerm a) (parseFieldTerm b)) 3
      = InfSearch.parseOr.loop (parseOr 5 [a, "AND", b, "OR", c]) [a, "AND", b, "OR", c] 5
          (mkOR (mkAND (parseFieldTerm a) (parseFieldTerm b)) (parseFieldTerm c)) 5 :=
    parseOr_loop_step _ _ 5 _ _ 3 5 (by simp) rfl s2
  exact e1.trans (e2.trans (parseOr_loop_stop _ _ 4 _ 5 (by simp)))

theorem parse_or_or (a b c : String) (ha : isPlainTerm a = true) (hb : isPlainTerm b = true)
    (hc : isPlainTerm c = true) :
    QueryParser.parse (a ++ " OR " ++ b ++ " OR " ++ c)
      = .ok (mkOR (mkOR (parseFieldTerm a) (parseFieldTerm b)) (parseFieldTerm c)) := by
  have ht : tokenizeQuery (a ++ " OR " ++ b ++ " OR " ++ c) = [a, "OR", b, "OR", c] := by
    apply tokenizeQuery_words
    · simp [String.toList, String.data_append]
    · exact tokens_plain3 ha hb hc "OR" "OR" (by decide) (by decide)
  apply parse_of_parseOr _ _ _ 5 ht (by simp)
  have s1 : parseAnd (parseOr 5 [a, "OR", b, "OR", c]) [a, "OR", b, "OR", c] 0 = .ok (parseFieldTerm a, 1) :=
    parseAnd_segment _ a [] [] ["OR", b, "OR", c] ha (by simp) (Or.inr (Or.inl rfl))
  have s2 : parseAnd (parseOr 5 [a, "OR", b, "OR", c]) [a, "OR", b, "OR", c] 2 = .ok (parseFieldTerm b, 3) :=
    parseAnd_segment _ b [] [a, "OR"] ["OR", c] hb (by simp) (Or.inr (Or.inl rfl))
  have s3 : parseAnd (parseOr 5 [a, "OR", b, "OR", c]) [a, "OR", b, "OR", c] 4 = .ok (parseFieldTerm c, 5) :=
    parseAnd_segment _ c [] [a, "OR", b, "OR"] [] hc (by simp) (Or.inl rfl)
  have e1 : parseOr 6 [a, "OR", b, "OR", c] 0
      = InfSearch.parseOr.loop (parseOr 5 [a, "OR", b, "OR", c]) [a, "OR", b, "OR", c] 6 (parseFieldTerm a) 1 :=
    parseOr_of_parseAnd 5 _ 0 _ _ s1
  have e2 : InfSearch.parseOr.loop (parseOr 5 [a, "OR", b, "OR", c]) [a, "OR", b, "OR", c] 6 (parseFieldTerm a) 1
      = InfSearch.parseOr.loop (parseOr 5 [a, "OR", b, "OR", c]) [a, "OR", b, "OR", c] 5 (mkOR (parseFieldTerm a) (parseFieldTerm b)) 3 :=
    parseOr_loop_step _ _ 5 _ _ 1 3 (by simp) rfl s2
  have e3 : InfSearch.parseOr.loop (parseOr 5 [a, "OR", b, "OR", c]) [a, "OR", b, "OR", c] 5 (mkOR (parseFieldTerm a) (parseFieldTerm b)) 3
      = InfSearch.parseOr.loop (parseOr 5 [a, "OR", b, "OR", c]) [a, "OR", b, "OR", c] 4
          (mkOR (mkOR (parseFieldTerm a) (parseFieldTerm b)) (parseFieldTerm c)) 5 :=
    parseOr_loop_step _ _ 4 _ _ 3 5 (by simp) rfl s3
  exact e1.trans (e2.trans (e3.trans (parseOr_loop_stop _ _ 3 _ 5 (by simp))))

theorem parse_and_and (a b c : String) (ha : isPlainTerm a = true) (hb : isPlainTerm b = true)
    (hc : isPlainTerm c = true) :
    QueryParser.parse (a ++ " AND " ++ b ++ " AND " ++ c)
      = .ok (mkAND (mkAND (parseFieldTerm a) (parseFieldTerm b)) (parseFieldTerm c)) := by
  have ht : tokenizeQuery (a ++ " AND " ++ b ++ " AND " ++ c) = [a, "AND", b, "AND", c] := by
    apply tokenizeQuery_words
    · simp [String.toList, String.data_append]
    · exact tokens_plain3 ha hb hc "AND" "AND" (by decide) (by decide)
  apply parse_of_parseOr _ _ _ 5 ht (by simp)
  have s1 : parseAnd (parseOr 5 [a, "AND", b, "AND", c]) [a, "AND", b, "AND", c] 0
      = .ok (mkAND (mkAND (parseFieldTerm a) (parseFieldTerm b)) (parseFieldTerm c), 5) :=
    parseAnd_segment _ a [(true, b), (true, c)] [] [] ha
      (by simp only [List.mem_cons, List.mem_singleton, List.not_mem_nil, or_false]
          rintro it (h | h) <;> subst h <;> assumption) (Or.inl rfl)
  have e1 : parseOr 6 [a, "AND", b, "AND", c] 0
      = InfSearch.parseOr.loop (parseOr 5 [a, "AND", b, "AND", c]) [a, "AND", b, "AND", c] 6
          (mkAND (mkAND (parseFieldTerm a) (parseFieldTerm b)) (parseFieldTerm c)) 5 :=
    parseOr_of_parseAnd 5 _ 0 _ _ s1
  exact e1.trans (parseOr_loop_stop _ _ 5 _ 5 (by simp))

theorem parse_not_and (a b : String) (ha : isPlainTerm a = true) (hb : isPlainTerm b = true) :
    QueryParser.parse ("NOT " ++ a ++ " AND " ++ b)
      = .ok (mkAND (mkNOT (parseFieldTerm a)) (parseFieldTerm b)) := by
  obtain ⟨pa, _, _, _, a4, _, _⟩ := isPlainTerm_facts ha
  obtain ⟨pb, _, _, _, _, _, _⟩ := isPlainTerm_facts hb
  have ht : tokenizeQuery ("NOT " ++ a ++ " AND " ++ b) = ["NOT", a, "AND", b] := by
    apply tokenizeQuery_words
    · simp [String.toList, String.data_append]
    · intro x hx
      simp only [List.mem_cons, List.mem_singleton, List.not_mem_nil, or_false] at hx
      rcases hx with h | h | h | h <;> subst h <;> first | assumption | decide
  apply parse_of_parseOr _ _ _ 4 ht (by simp)
  have p1 : parsePrimary (parseOr 4 ["NOT", a, "AND", b]) ["NOT", a, "AND", b] 1
      = .ok (parseFieldTerm a, 2) :=
    parsePrimary_term _ _ 1 a rfl (by simp) a4 rfl
  have n1 : parseNot (parseOr 4 ["NOT", a, "AND", b]) ["NOT", a, "AND", b] 0
      = .ok (mkNOT (parseFieldTerm a), 2) :=
    parseNot_not _ _ 0 _ _ rfl (by simp) p1
  have l1 : parseAnd.loop (parseOr 4 ["NOT", a, "AND", b]) ["NOT", a, "AND", b] 5
      (mkNOT (parseFieldTerm a)) 2
      = .ok (mkAND (mkNOT (parseFieldTerm a)) (parseFieldTerm b), 4) :=
    parseAnd.loop_segment _ [(true, b)] ["NOT", a] [] _ 5 (by simpa using hb) (Or.inl rfl)
      (by simp)
  have s1 : parseAnd (parseOr 4 ["NOT", a, "AND", b]) ["NOT", a, "AND", b] 0
      = .ok (mkAND (mkNOT (parseFieldTerm a)) (parseFieldTerm b), 4) :=
    (parseAnd_of_parseNot _ _ _ _ _ n1).trans l1
  have e1 : parseOr 5 ["NOT", a, "AND", b] 0
      = InfSearch.parseOr.loop (parseOr 4 ["NOT", a, "AND", b]) ["NOT", a, "AND", b] 5
          (mkAND (mkNOT (parseFieldTerm a)) (parseFieldTerm b)) 4 :=
    parseOr_of_parseAnd 4 _ 0 _ _ s1
  exact e1.trans (parseOr_loop_stop _ _ 4 _ 4 (by simp))

/-- C16: for plain term lexemes `a`, `b`, `c` the parser returns `OR(a, AND(b, c))`
for `a OR b AND c`, `OR(AND(a, b), c)` for `a AND b OR c`, `OR(OR(a, b), c)` for
`a OR b OR c`, `AND(AND(a, b), c)` for `a AND b AND c` and `AND(NOT(a), b)` for
`NOT a AND b`, the leaves being the `TERM` nodes of the lexemes. -/
theorem precedence_and_associativity (a b c : String) (ha : isPlainTerm a = true)
    (hb : isPlainTerm b = true) (hc : isPlainTerm c = true) :
    QueryParser.parse (a ++ " OR " ++ b ++ " AND " ++ c)
      = .ok (mkOR (parseFieldTerm a) (mkAND (parseFieldTerm b) (parseFieldTerm c))) ∧
    QueryParser.parse (a ++ " AND " ++ b ++ " OR " ++ c)
      = .ok (mkOR (mkAND (parseFieldTerm a) (parseFieldTerm b)) (parseFieldTerm c)) ∧
    QueryParser.parse (a ++ " OR " ++ b ++ " OR " ++ c)
      = .ok (mkOR (mkOR (parseFieldTerm a) (parseFieldTerm b)) (parseFieldTerm c)) ∧
    QueryParser.parse (a ++ " AND " ++ b ++ " AND " ++ c)
      = .ok (mkAND (mkAND (parseFieldTerm a) (parseFieldTerm b)) (parseFieldTerm c)) ∧
    QueryParser.parse ("NOT " ++ a ++ " AND " ++ b)
      = .ok (mkAND (mkNOT (parseFieldTerm a)) (parseFieldTerm b)) :=
  ⟨parse_or_and a b c ha hb hc, parse_and_or a b c ha hb hc, parse_or_or a b c ha hb hc,
    parse_and_and a b c ha hb hc, parse_not_and a b ha hb⟩

theorem precedence_and_associativity_witness :
    isPlainTerm "quick" = true ∧ isPlainTerm "title:dog" = true ∧ isPlainTerm "lazy" = true ∧
    QueryParser.parse ("quick" ++ " OR " ++ "title:dog" ++ " AND " ++ "lazy")
      = .ok (mkOR (mkTERM "quick" "") (mkAND (mkTERM "dog" "title") (mkTERM "lazy" ""))) :=
  ⟨by decide, by decide, by decide,
    (precedence_and_associativity "quick" "title:dog" "lazy" (by decide) (by decide)
      (by decide)).1⟩
/-! ## Negation in the parser -/

theorem parse_plain_term (x : String) (hx : isPlainTerm x = true) :
    QueryParser.parse x = .ok (parseFieldTerm x) := by
  have ht : tokenizeQuery x = [x] := by
    apply tokenizeQuery_words x x []
    · simp
    · intro y hy
      rw [List.mem_singleton] at hy
      subst hy
      exact (isPlainTerm_facts hx).1
  apply parse_of_parseOr _ _ _ 1 ht (by simp)
  have s1 : parseAnd (parseOr 1 [x]) [x] 0 = .ok (parseFieldTerm x, 1) :=
    parseAnd_segment _ x [] [] [] hx (by simp) (Or.inl rfl)
  have e1 : parseOr 2 [x] 0
      = InfSearch.parseOr.loop (parseOr 1 [x]) [x] 2 (parseFieldTerm x) 1 :=
    parseOr_of_parseAnd 1 _ 0 _ _ s1
  exact e1.trans (parseOr_loop_stop _ _ 1 _ 1 (by simp))

theorem parseOr_a_not_b (a b : String) (ha : isPlainTerm a = true) :
    parseOr 4 [a, "NOT", b] 0 = .ok (parseFieldTerm a, 1) := by
  have s1 : parseAnd (parseOr 3 [a, "NOT", b]) [a, "NOT", b] 0 = .ok (parseFieldTerm a, 1) :=
    parseAnd_segment _ a [] [] ["NOT", b] ha (by simp) (Or.inr (Or.inr (Or.inl rfl)))
  have e1 : parseOr 4 [a, "NOT", b] 0
      = InfSearch.parseOr.loop (parseOr 3 [a, "NOT", b]) [a, "NOT", b] 4 (parseFieldTerm a) 1 :=
    parseOr_of_parseAnd 3 _ 0 _ _ s1
  exact e1.trans (parseOr_loop_stop _ _ 3 _ 1 (by simp))

theorem tokenizeQuery_a_not_b (a b : String) (ha : isPlainTerm a = true)
    (hb : isPlainTerm b = true) :
    tokenizeQuery (a ++ " NOT " ++ b) = [a, "NOT", b] := by
  obtain ⟨pa, _⟩ := isPlainTerm_facts ha
  obtain ⟨pb, _⟩ := isPlainTerm_facts hb
  apply tokenizeQuery_words
  · simp [String.toList, String.data_append]
  · intro x hx
    simp only [List.mem_cons, List.mem_singleton, List.not_mem_nil, or_false] at hx
    rcases hx with h | h | h <;> subst h <;> first | assumption | decide

theorem parse_a_not_b (a b : String) (ha : isPlainTerm a = true) (hb : isPlainTerm b = true) :
    QueryParser.parse (a ++ " NOT " ++ b) = .ok (parseFieldTerm a) :=
  parse_of_parseOr _ _ _ 1 (tokenizeQuery_a_not_b a b ha hb) (by simp)
    (parseOr_a_not_b a b ha)

theorem parse_a_and_not_b (a b : String) (ha : isPlainTerm a = true)
    (hb : isPlainTerm b = true) :
    QueryParser.parse (a ++ " AND NOT " ++ b)
      = .ok (mkAND (parseFieldTerm a) (mkNOT (parseFieldTerm b))) := by
  obtain ⟨pa, _, _, a3, a4, _, _⟩ := isPlainTerm_facts ha
  obtain ⟨pb, _, _, _, b4, _, _⟩ := isPlainTerm_facts hb
  have ht : tokenizeQuery (a ++ " AND NOT " ++ b) = [a, "AND", "NOT", b] := by
    apply tokenizeQuery_words
    · simp [String.toList, String.data_append]
    · intro x hx
      simp only [List.mem_cons, List.mem_singleton, List.not_mem_nil, or_false] at hx
      rcases hx with h | h | h | h <;> subst h <;> first | assumption | decide
  apply parse_of_parseOr _ _ _ 4 ht (by simp)
  have n0 : parseNot (parseOr 4 [a, "AND", "NOT", b]) [a, "AND", "NOT", b] 0
      = .ok (parseFieldTerm a, 1) :=
    parseNot_term _ _ 0 a rfl (by simp) a4 rfl a3
  have p3 : parsePrimary (parseOr 4 [a, "AND", "NOT", b]) [a, "AND", "NOT", b] 3
      = .ok (parseFieldTerm b, 4) :=
    parsePrimary_term _ _ 3 b rfl (by simp) b4 rfl
  have n2 : parseNot (parseOr 4 [a, "AND", "NOT", b]) [a, "AND", "NOT", b] 2
      = .ok (mkNOT (parseFieldTerm b), 4) :=
    parseNot_not _ _ 2 _ _ rfl (by simp) p3
  have l1 : parseAnd.loop (parseOr 4 [a, "AND", "NOT", b]) [a, "AND", "NOT", b] 5
      (parseFieldTerm a) 1
      = parseAnd.loop (parseOr 4 [a, "AND", "NOT", b]) [a, "AND", "NOT", b] 4
          (mkAND (parseFieldTerm a) (mkNOT (parseFieldTerm b))) 4 :=
    parseAnd.loop_step_and _ _ 4 _ _ 1 4 (by simp) rfl (by simp [mkNOT]) n2
  have s1 : parseAnd (parseOr 4 [a, "AND", "NOT", b]) [a, "AND", "NOT", b] 0
      = .ok (mkAND (parseFieldTerm a) (mkNOT (parseFieldTerm b)), 4) :=
    (parseAnd_of_parseNot _ _ _ _ _ n0).trans
      (l1.trans (parseAnd.loop_end _ _ 3 _ 4 (by simp)))
  have e1 : parseOr 5 [a, "AND", "NOT", b] 0
      = InfSearch.parseOr.loop (parseOr 4 [a, "AND", "NOT", b]) [a, "AND", "NOT", b] 5
          (mkAND (parseFieldTerm a) (mkNOT (parseFieldTerm b))) 4 :=
    parseOr_of_parseAnd 4 _ 0 _ _ s1
  exact e1.trans (parseOr_loop_stop _ _ 4 _ 4 (by simp))

theorem parse_not_not (x : String) (hx : isPlainTerm x = true) :
    QueryParser.parse ("NOT NOT " ++ x)
      = .ok (mkAND (mkNOT (mkTERM "NOT" "")) (parseFieldTerm x)) := by
  obtain ⟨px, _, _, _, _, _, x6⟩ := isPlainTerm_facts hx
  have ht : tokenizeQuery ("NOT NOT " ++ x) = ["NOT", "NOT", x] := by
    apply tokenizeQuery_words
    · simp [String.toList, String.data_append]
    · intro y hy
      simp only [List.mem_cons, List.mem_singleton, List.not_mem_nil, or_false] at hy
      rcases hy with h | h | h <;> subst h <;> first | assumption | decide
  apply parse_of_parseOr _ _ _ 3 ht (by simp)
  have p1 : parsePrimary (parseOr 3 ["NOT", "NOT", x]) ["NOT", "NOT", x] 1
      = .ok (mkTERM "NOT" "", 2) :=
    parsePrimary_term _ _ 1 "NOT" rfl (by simp) (by decide) x6
  have n0 : parseNot (parseOr 3 ["NOT", "NOT", x]) ["NOT", "NOT", x] 0
      = .ok (mkNOT (mkTERM "NOT" ""), 2) :=
    parseNot_not _ _ 0 _ _ rfl (by simp) p1
  have l1 : parseAnd.loop (parseOr 3 ["NOT", "NOT", x]) ["NOT", "NOT", x] 4
      (mkNOT (mkTERM "NOT" "")) 2
      = .ok (mkAND (mkNOT (mkTERM "NOT" "")) (parseFieldTerm x), 3) :=
    parseAnd.loop_segment _ [(false, x)] ["NOT", "NOT"] [] _ 4 (by simpa using hx)
      (Or.inl rfl) (by simp)
  have s1 : parseAnd (parseOr 3 ["NOT", "NOT", x]) ["NOT", "NOT", x] 0
      = .ok (mkAND (mkNOT (mkTERM "NOT" "")) (parseFieldTerm x), 3) :=
    (parseAnd_of_parseNot _ _ _ _ _ n0).trans l1
  have e1 : parseOr 4 ["NOT", "NOT", x] 0
      = InfSearch.parseOr.loop (parseOr 3 ["NOT", "NOT", x]) ["NOT", "NOT", x] 4
          (mkAND (mkNOT (mkTERM "NOT" "")) (parseFieldTerm x)) 3 :=
    parseOr_of_parseAnd 3 _ 0 _ _ s1
  exact e1.trans (parseOr_loop_stop _ _ 3 _ 3 (by simp))
theorem tokenizeQuery_not_paren (x : String) (hx : isPlainTerm x = true) :
    tokenizeQuery ("NOT (NOT " ++ x ++ ")") = ["NOT", "(", "NOT", x, ")"] := by
  obtain ⟨px, _⟩ := isPlainTerm_facts hx
  obtain ⟨hne, hall⟩ := (isPlainLexeme_iff x).1 px
  have he : x.toList.isEmpty = false := by
    cases hc : x.toList with
    | nil => exact absurd hc hne
    | cons a as => rfl
  have e1 : ("NOT (NOT " ++ x ++ ")").toList
      = 'N' :: 'O' :: 'T' :: ' ' :: '(' :: 'N' :: 'O' :: 'T' :: ' ' :: (x.toList ++ [')']) := by
    simp [String.toList, String.data_append]
  have e2 : tokenizeQuery.loop
      ('N' :: 'O' :: 'T' :: ' ' :: '(' :: 'N' :: 'O' :: 'T' :: ' ' :: (x.toList ++ [')']))
      [] false []
      = tokenizeQuery.loop (x.toList ++ [')']) [] false ["NOT", "(", "NOT"] := by
    simp [tokenizeQuery.loop, isspace, isQueryPunct]
  have e3 : tokenizeQuery.loop [')'] ([] ++ x.toList) false ["NOT", "(", "NOT"]
      = ["NOT", "(", "NOT", x, ")"] := by
    have hd : x.data ≠ [] := hne
    simp [tokenizeQuery.loop, isspace, isQueryPunct, String.toList, hd]
  unfold tokenizeQuery
  rw [e1, e2, tokenizeQuery.loop_plain _ _ _ _ hall, e3]
  apply combineTokens_id
  intro w hw
  simp only [List.mem_cons, List.mem_singleton, List.not_mem_nil, or_false] at hw
  rcases hw with h | h | h | h | h <;> subst h <;>
    first | exact isPlainLexeme_ne_slash px | decide

theorem parse_not_paren (x : String) (hx : isPlainTerm x = true) :
    QueryParser.parse ("NOT (NOT " ++ x ++ ")") = .ok (mkNOT (mkNOT (parseFieldTerm x))) := by
  obtain ⟨px, _, _, _, x4, _, _⟩ := isPlainTerm_facts hx
  apply parse_of_parseOr _ _ _ 5 (tokenizeQuery_not_paren x hx) (by simp)
  have p3 : parsePrimary (parseOr 4 ["NOT", "(", "NOT", x, ")"]) ["NOT", "(", "NOT", x, ")"] 3
      = .ok (parseFieldTerm x, 4) :=
    parsePrimary_term _ _ 3 x rfl (by simp) x4 rfl
  have n2 : parseNot (parseOr 4 ["NOT", "(", "NOT", x, ")"]) ["NOT", "(", "NOT", x, ")"] 2
      = .ok (mkNOT (parseFieldTerm x), 4) :=
    parseNot_not _ _ 2 _ _ rfl (by simp) p3
  have a2 : parseAnd (parseOr 4 ["NOT", "(", "NOT", x, ")"]) ["NOT", "(", "NOT", x, ")"] 2
      = .ok (mkNOT (parseFieldTerm x), 4) :=
    (parseAnd_of_parseNot _ _ _ _ _ n2).trans
      (parseAnd.loop_break _ _ 5 _ 4 (Or.inr (Or.inr rfl)))
  have o2 : parseOr 5 ["NOT", "(", "NOT", x, ")"] 2 = .ok (mkNOT (parseFieldTerm x), 4) :=
    (parseOr_of_parseAnd 4 _ 2 _ _ a2).trans (parseOr_loop_stop _ _ 5 _ 4 (by simp))
  have p1 : parsePrimary (parseOr 5 ["NOT", "(", "NOT", x, ")"]) ["NOT", "(", "NOT", x, ")"] 1
      = .ok (mkNOT (parseFieldTerm x), 5) :=
    parsePrimary_paren _ _ 1 _ 4 (by simp) rfl o2 ⟨by simp, rfl⟩
  have n0 : parseNot (parseOr 5 ["NOT", "(", "NOT", x, ")"]) ["NOT", "(", "NOT", x, ")"] 0
      = .ok (mkNOT (mkNOT (parseFieldTerm x)), 5) :=
    parseNot_not _ _ 0 _ _ rfl (by simp) p1
  have a0 : parseAnd (parseOr 5 ["NOT", "(", "NOT", x, ")"]) ["NOT", "(", "NOT", x, ")"] 0
      = .ok (mkNOT (mkNOT (parseFieldTerm x)), 5) :=
    (parseAnd_of_parseNot _ _ _ _ _ n0).trans (parseAnd.loop_end _ _ 5 _ 5 (by simp))
  exact (parseOr_of_parseAnd 5 _ 0 _ _ a0).trans (parseOr_loop_stop _ _ 5 _ 5 (by simp))
/-! ## Queries with negation, evaluated -/

theorem executeQuery_of_parse (s : TextIndexer) (query : String) (ast : ASTNode)
    (r : List Int) (hp : QueryParser.parse query = .ok ast) (he : evaluateAST s ast = some r) :
    executeQuery s query = .ok r := by
  unfold executeQuery
  rw [hp]
  cases ast with
  | null =>
    simp only [evaluateAST, Option.some.injEq] at he
    rw [← he]
  | node t v f d l r' => simp only [he]

theorem evaluateAST_mkTERM (s : TextIndexer) (value field : String) :
    evaluateAST s (mkTERM value field) = some (searchTerm s value field) := rfl

theorem mem_and_not {s : TextIndexer} (h : Reachable s) (va fa vb fb : String) (d : Int) :
    d ∈ executeAND (searchTerm s va fa) (executeNOT s (searchTerm s vb fb)) ↔
      d ∈ searchTerm s va fa ∧ d ∉ searchTerm s vb fb := by
  have ha := searchTerm_sorted h va fa
  have hb := searchTerm_sorted h vb fb
  have hn := executeNOT_filter_spec s h _ (sorted_lt_to_le hb.1)
  rw [executeAND_mem ha.1 hn.1, hn.2]
  constructor
  · rintro ⟨h1, _, h3⟩
    exact ⟨h1, h3⟩
  · rintro ⟨h1, h3⟩
    exact ⟨h1, ha.2 d h1, h3⟩

/-- C13, as amended: in a reachable state, for a plain term `x`, the query
`NOT (NOT x)` returns exactly the postings of `x`, the result of the query `x`;
the query `NOT NOT x` is parsed as `AND(NOT(TERM NOT), TERM x)` and returns the
postings of `x` without the documents that hold the term `not`. -/
theorem not_not_query (s : TextIndexer) (h : Reachable s) (x : String)
    (hx : isPlainTerm x = true) :
    ∃ value field, parseFieldTerm x = mkTERM value field ∧
      executeQuery s x = .ok (searchTerm s value field) ∧
      executeQuery s ("NOT (NOT " ++ x ++ ")") = .ok (searchTerm s value field) ∧
      QueryParser.parse ("NOT NOT " ++ x)
        = .ok (mkAND (mkNOT (mkTERM "NOT" "")) (mkTERM value field)) ∧
      executeQuery s ("NOT NOT " ++ x)
        = .ok (executeAND (executeNOT s (searchTerm s "NOT" "")) (searchTerm s value field)) ∧
      ∀ d, d ∈ executeAND (executeNOT s (searchTerm s "NOT" "")) (searchTerm s value field) ↔
        d ∈ searchTerm s value field ∧ d ∉ searchTerm s "NOT" "" := by
  obtain ⟨value, field, hv⟩ := parseFieldTerm_eq_mkTERM x
  have hs := searchTerm_sorted h value field
  have hnn : executeNOT s (executeNOT s (searchTerm s value field)) = searchTerm s value field :=
    executeNOT_executeNOT s h _ hs.1 hs.2
  have hn := executeNOT_filter_spec s h _ (sorted_lt_to_le (searchTerm_sorted h "NOT" "").1)
  refine ⟨value, field, hv, ?_, ?_, ?_, ?_, ?_⟩
  · exact executeQuery_of_parse s _ _ _ (parse_plain_term x hx) (by rw [hv]; rfl)
  · apply executeQuery_of_parse s _ _ _ (parse_not_paren x hx)
    rw [hv, evaluateAST_mkNOT, evaluateAST_mkNOT, evaluateAST_mkTERM]
    simp only [hnn]
  · rw [parse_not_not x hx, hv]
  · apply executeQuery_of_parse s _ _ _ (parse_not_not x hx)
    rw [hv, evaluateAST_mkAND, evaluateAST_mkNOT, evaluateAST_mkTERM, evaluateAST_mkTERM]
  · intro d
    rw [executeAND_comm hn.1 hs.1]
    exact mem_and_not h value field "NOT" "" d

theorem not_not_query_witness :
    Reachable (addDocument TextIndexer.init [("content", "not a")]).2 ∧
    isPlainTerm "a" = true ∧
    ∃ value field, parseFieldTerm "a" = mkTERM value field ∧
      executeQuery (addDocument TextIndexer.init [("content", "not a")]).2 "a"
        = .ok (searchTerm (addDocument TextIndexer.init [("content", "not a")]).2 value field) :=
  ⟨Reachable.add _ _ Reachable.init, by decide,
    (not_not_query _ (Reachable.add _ _ Reachable.init) "a" (by decide)).imp
      fun _ hv => hv.imp fun _ hf => ⟨hf.1, hf.2.1⟩⟩

theorem not_not_query_counterexample :
    Reachable (addDocument TextIndexer.init [("content", "not a")]).2 ∧
    isPlainTerm "a" = true ∧
    executeQuery (addDocument TextIndexer.init [("content", "not a")]).2 "NOT NOT a" = .ok [] ∧
    executeQuery (addDocument TextIndexer.init [("content", "not a")]).2 "a" = .ok [1] ∧
    executeQuery (addDocument TextIndexer.init [("content", "not a")]).2 "NOT NOT a"
      ≠ executeQuery (addDocument TextIndexer.init [("content", "not a")]).2 "a" := by
  refine ⟨Reachable.add _ _ Reachable.init, by decide, rfl, rfl, ?_⟩
  intro h
  have h1 : executeQuery (addDocument TextIndexer.init [("content", "not a")]).2 "NOT NOT a"
      = .ok [] := rfl
  have h2 : executeQuery (addDocument TextIndexer.init [("content", "not a")]).2 "a"
      = .ok [1] := rfl
  rw [h1, h2] at h
  cases h

/-- C14, as amended: in a reachable state, for plain terms `a` and `b`, the query
`a AND NOT b` returns the documents that contain `a` and do not contain `b`; the
query `a NOT b` returns the postings of `a`: the loop of `parseAnd` stops at `NOT`
and the parser returns with the tokens from `NOT` on unread (`current = 1`). -/
theorem and_not_query (s : TextIndexer) (h : Reachable s) (a b : String)
    (ha : isPlainTerm a = true) (hb : isPlainTerm b = true) :
    ∃ va fa vb fb, parseFieldTerm a = mkTERM va fa ∧ parseFieldTerm b = mkTERM vb fb ∧
      executeQuery s (a ++ " AND NOT " ++ b)
        = .ok (executeAND (searchTerm s va fa) (executeNOT s (searchTerm s vb fb))) ∧
      (∀ d, d ∈ executeAND (searchTerm s va fa) (executeNOT s (searchTerm s vb fb)) ↔
        d ∈ searchTerm s va fa ∧ d ∉ searchTerm s vb fb) ∧
      tokenizeQuery (a ++ " NOT " ++ b) = [a, "NOT", b] ∧
      parseOr 4 [a, "NOT", b] 0 = .ok (mkTERM va fa, 1) ∧
      executeQuery s (a ++ " NOT " ++ b) = .ok (searchTerm s va fa) := by
  obtain ⟨va, fa, hva⟩ := parseFieldTerm_eq_mkTERM a
  obtain ⟨vb, fb, hvb⟩ := parseFieldTerm_eq_mkTERM b
  refine ⟨va, fa, vb, fb, hva, hvb, ?_, mem_and_not h va fa vb fb,
    tokenizeQuery_a_not_b a b ha hb, ?_, ?_⟩
  · apply executeQuery_of_parse s _ _ _ (parse_a_and_not_b a b ha hb)
    rw [hva, hvb, evaluateAST_mkAND, evaluateAST_mkNOT, evaluateAST_mkTERM,
      evaluateAST_mkTERM]
  · rw [parseOr_a_not_b a b ha, hva]
  · exact executeQuery_of_parse s _ _ _ (parse_a_not_b a b ha hb) (by rw [hva]; rfl)

theorem and_not_query_witness :
    Reachable (addDocument TextIndexer.init [("content", "a b")]).2 ∧
    isPlainTerm "a" = true ∧ isPlainTerm "b" = true ∧
    ∃ va fa vb fb, parseFieldTerm "a" = mkTERM va fa ∧ parseFieldTerm "b" = mkTERM vb fb ∧
      executeQuery (addDocument TextIndexer.init [("content", "a b")]).2
          ("a" ++ " NOT " ++ "b")
        = .ok (searchTerm (addDocument TextIndexer.init [("content", "a b")]).2 va fa) :=
  ⟨Reachable.add _ _ Reachable.init, by decide, by decide,
    (and_not_query _ (Reachable.add _ _ Reachable.init) "a" "b" (by decide) (by decide)).imp
      fun _ h1 => h1.imp fun _ h2 => h2.imp fun _ h3 => h3.imp fun _ h4 =>
        ⟨h4.1, h4.2.1, h4.2.2.2.2.2.2⟩⟩

theorem and_not_query_counterexample :
    Reachable (addDocument TextIndexer.init [("content", "a b")]).2 ∧
    isPlainTerm "a" = true ∧ isPlainTerm "b" = true ∧
    executeQuery (addDocument TextIndexer.init [("content", "a b")]).2 "a NOT b" = .ok [1] ∧
    executeQuery (addDocument TextIndexer.init [("content", "a b")]).2 "a AND NOT b" = .ok [] ∧
    executeQuery (addDocument TextIndexer.init [("content", "a b")]).2 "a NOT b"
      ≠ executeQuery (addDocument TextIndexer.init [("content", "a b")]).2 "a AND NOT b" := by
  refine ⟨Reachable.add _ _ Reachable.init, by decide, by decide, rfl, rfl, ?_⟩
  intro h
  have h1 : executeQuery (addDocument TextIndexer.init [("content", "a b")]).2 "a NOT b"
      = .ok [1] := rfl
  have h2 : executeQuery (addDocument TextIndexer.init [("content", "a b")]).2 "a AND NOT b"
      = .ok [] := rfl
  rw [h1, h2] at h
  cases h
/-! ## Quoted literals after a field qualifier -/

/-- C15, the failing input: with the one document `(title, "dogs")` indexed, the
query `title:"dogs"` is lexed into the two tokens `title:` and `dogs` (the quote
flushes the token), parsed into `AND(TERM title:, TERM dogs)` with empty fields,
and answered with no document, while `title:dogs` is one `TERM` node of field
`title` and is answered with document 1. `parseFieldTerm` itself, given the
lexeme `title:"dogs"`, would strip the quotes and return that `TERM` node. -/
theorem field_quoted_literal_divergence :
    Reachable (addDocument TextIndexer.init [("title", "dogs")]).2 ∧
    tokenizeQuery "title:\"dogs\"" = ["title:", "dogs"] ∧
    QueryParser.parse "title:\"dogs\"" = .ok (mkAND (mkTERM "title:" "") (mkTERM "dogs" "")) ∧
    executeQuery (addDocument TextIndexer.init [("title", "dogs")]).2 "title:\"dogs\"" = .ok [] ∧
    QueryParser.parse "title:dogs" = .ok (mkTERM "dogs" "title") ∧
    executeQuery (addDocument TextIndexer.init [("title", "dogs")]).2 "title:dogs" = .ok [1] ∧
    parseFieldTerm "title:\"dogs\"" = mkTERM "dogs" "title" :=
  ⟨Reachable.add _ _ Reachable.init, by decide, rfl, rfl, rfl, rfl, by decide⟩
/-! ## The parser does not run out of fuel -/

theorem stoi_error (str : List Char) (e : QueryError) (h : stoi str = .error e) :
    e.isStoiError = true := by
  unfold stoi at h
  simp only at h
  split_ifs at h <;> cases h <;> rfl

theorem RecursionOK.mono {recOr : Nat → ParseResult} {tokens : List String} {lo lo' : Nat}
    (h : RecursionOK recOr tokens lo) (hle : lo ≤ lo') : RecursionOK recOr tokens lo' :=
  fun c hc hn => h c (le_trans hle hc) hn

theorem parsePrimary_progress (recOr : Nat → ParseResult) (tokens : List String)
    (current : Nat) (hc : current ≤ tokens.length)
    (hrec : RecursionOK recOr tokens (current + 1)) :
    (∀ e, parsePrimary recOr tokens current = .error e → e.isStoiError = true) ∧
    (∀ node cur, parsePrimary recOr tokens current = .ok (node, cur) →
      current ≤ cur ∧ cur ≤ tokens.length ∧ (current < tokens.length → current < cur)) := by
  unfold parsePrimary
  split
  · rename_i hlen
    refine ⟨fun e h => (by cases h), fun node cur h => ?_⟩
    cases h
    exact ⟨le_refl _, hc, fun hlt => absurd hlt (by omega)⟩
  · rename_i hlen
    have hlt : current < tokens.length := by omega
    split
    · obtain ⟨he, hok⟩ := hrec (current + 1) (le_refl _) hlt
      split
      · rename_i e hr
        refine ⟨fun e' h => ?_, fun node cur h => by cases h⟩
        cases h
        exact he e hr
      · rename_i node c hr
        obtain ⟨h1, h2⟩ := hok node c hr
        split
        · rename_i hclose
          refine ⟨fun e h => (by cases h), fun node' cur h => ?_⟩
          cases h
          exact ⟨by omega, by omega, fun _ => by omega⟩
        · refine ⟨fun e h => (by cases h), fun node' cur h => ?_⟩
          cases h
          exact ⟨by omega, h2, fun _ => by omega⟩
    · split
      · rename_i hprox
        simp only
        split
        · rename_i e hs
          refine ⟨fun e' h => ?_, fun node cur h => by cases h⟩
          cases h
          exact stoi_error _ e hs
        · refine ⟨fun e h => (by cases h), fun node cur h => ?_⟩
          cases h
          exact ⟨by omega, by omega, fun _ => by omega⟩
      · refine ⟨fun e h => (by cases h), fun node cur h => ?_⟩
        cases h
        exact ⟨by omega, by omega, fun _ => by omega⟩

theorem parseNot_progress (recOr : Nat → ParseResult) (tokens : List String)
    (current : Nat) (hc : current ≤ tokens.length)
    (hrec : RecursionOK recOr tokens (current + 1)) :
    (∀ e, parseNot recOr tokens current = .error e → e.isStoiError = true) ∧
    (∀ node cur, parseNot recOr tokens current = .ok (node, cur) →
      current ≤ cur ∧ cur ≤ tokens.length ∧ (current < tokens.length → current < cur)) := by
  unfold parseNot
  split
  · rename_i hnot
    obtain ⟨he, hok⟩ := parsePrimary_progress recOr tokens (current + 1) (by omega)
      (hrec.mono (by omega))
    split
    · rename_i e hr
      refine ⟨fun e' h => ?_, fun node cur h => by cases h⟩
      cases h
      exact he e hr
    · rename_i operand c hr
      obtain ⟨h1, h2, _⟩ := hok operand c hr
      refine ⟨fun e h => (by cases h), fun node cur h => ?_⟩
      cases h
      exact ⟨by omega, h2, fun _ => by omega⟩
  · exact parsePrimary_progress recOr tokens current hc hrec

theorem parseAnd.loop_progress (recOr : Nat → ParseResult) (tokens : List String)
    (fuel : Nat) (left : ASTNode) (current : Nat) (hc : current ≤ tokens.length)
    (hf : tokens.length - current + 1 ≤ fuel)
    (hrec : RecursionOK recOr tokens (current + 1)) :
    (∀ e, parseAnd.loop recOr tokens fuel left current = .error e → e.isStoiError = true) ∧
    (∀ node cur, parseAnd.loop recOr tokens fuel left current = .ok (node, cur) →
      current ≤ cur ∧ cur ≤ tokens.length) := by
  induction fuel generalizing left current with
  | zero => omega
  | succ fuel ih =>
    unfold parseAnd.loop
    split
    · rename_i hlt
      split
      · refine ⟨fun e h => (by cases h), fun node cur h => ?_⟩
        cases h
        exact ⟨le_refl _, hc⟩
      · split
        · refine ⟨fun e h => (by cases h), fun node cur h => ?_⟩
          cases h
          exact ⟨le_refl _, hc⟩
        · have hstart : current ≤ (if tokens.getD current "" = "AND" then current + 1
              else current) ∧
              (if tokens.getD current "" = "AND" then current + 1 else current)
                ≤ tokens.length := by
            split <;> omega
          obtain ⟨he, hok⟩ := parseNot_progress recOr tokens
            (if tokens.getD current "" = "AND" then current + 1 else current) hstart.2
            (hrec.mono (by omega))
          split
          · rename_i e hr
            refine ⟨fun e' h => ?_, fun node cur h => by cases h⟩
            cases h
            exact he e hr
          · rename_i c hr
            obtain ⟨h1, h2, _⟩ := hok _ c hr
            refine ⟨fun e h => (by cases h), fun node cur h => ?_⟩
            cases h
            exact ⟨by omega, h2⟩
          · rename_i right c hnn hr
            obtain ⟨h1, h2, h3⟩ := hok _ c hr
            have hgt : current < c := by
              by_cases hand : tokens.getD current "" = "AND"
              · rw [if_pos hand] at h1
                omega
              · rw [if_neg hand] at h1 h3
                exact h3 hlt
            obtain ⟨he', hok'⟩ := ih (mkAND left right) c h2 (by omega) (hrec.mono (by omega))
            refine ⟨he', fun node cur h => ?_⟩
            obtain ⟨h4, h5⟩ := hok' node cur h
            exact ⟨by omega, h5⟩
    · refine ⟨fun e h => (by cases h), fun node cur h => ?_⟩
      cases h
      exact ⟨le_refl _, hc⟩

theorem parseAnd_progress (recOr : Nat → ParseResult) (tokens : List String)
    (current : Nat) (hc : current ≤ tokens.length)
    (hrec : RecursionOK recOr tokens (current + 1)) :
    (∀ e, parseAnd recOr tokens current = .error e → e.isStoiError = true) ∧
    (∀ node cur, parseAnd recOr tokens current = .ok (node, cur) →
      current ≤ cur ∧ cur ≤ tokens.length ∧ (current < tokens.length → current < cur)) := by
  unfold parseAnd
  obtain ⟨he, hok⟩ := parseNot_progress recOr tokens current hc hrec
  split
  · rename_i e hr
    refine ⟨fun e' h => ?_, fun node cur h => by cases h⟩
    cases h
    exact he e hr
  · rename_i left c hr
    obtain ⟨h1, h2, h3⟩ := hok left c hr
    obtain ⟨he', hok'⟩ := parseAnd.loop_progress recOr tokens (tokens.length + 1) left c h2
      (by omega) (hrec.mono (by omega))
    refine ⟨he', fun node cur h => ?_⟩
    obtain ⟨h4, h5⟩ := hok' node cur h
    exact ⟨by omega, h5, fun hlt => by have := h3 hlt; omega⟩

theorem parseOr_loop_progress (recOr : Nat → ParseResult) (tokens : List String)
    (fuel : Nat) (left : ASTNode) (current : Nat) (hc : current ≤ tokens.length)
    (hf : tokens.length - current + 1 ≤ fuel)
    (hrec : RecursionOK recOr tokens (current + 1)) :
    (∀ e, InfSearch.parseOr.loop recOr tokens fuel left current = .error e →
      e.isStoiError = true) ∧
    (∀ node cur, InfSearch.parseOr.loop recOr tokens fuel left current = .ok (node, cur) →
      current ≤ cur ∧ cur ≤ tokens.length) := by
  induction fuel generalizing left current with
  | zero => omega
  | succ fuel ih =>
    unfold InfSearch.parseOr.loop
    split
    · rename_i hor
      obtain ⟨he, hok⟩ := parseAnd_progress recOr tokens (current + 1) (by omega)
        (hrec.mono (by omega))
      split
      · rename_i e hr
        refine ⟨fun e' h => ?_, fun node cur h => by cases h⟩
        cases h
        exact he e hr
      · rename_i right c hr
        obtain ⟨h1, h2, _⟩ := hok right c hr
        obtain ⟨he', hok'⟩ := ih (mkOR left right) c h2 (by omega) (hrec.mono (by omega))
        refine ⟨he', fun node cur h => ?_⟩
        obtain ⟨h4, h5⟩ := hok' node cur h
        exact ⟨by omega, h5⟩
    · refine ⟨fun e h => (by cases h), fun node cur h => ?_⟩
      cases h
      exact ⟨le_refl _, hc⟩

theorem parseOr_progress (tokens : List String) (depth : Nat) (current : Nat)
    (hc : current ≤ tokens.length) (hd : tokens.length - current + 1 ≤ depth) :
    (∀ e, parseOr depth tokens current = .error e → e.isStoiError = true) ∧
    (∀ node cur, parseOr depth tokens current = .ok (node, cur) →
      current ≤ cur ∧ cur ≤ tokens.length) := by
  induction depth generalizing current with
  | zero => omega
  | succ depth ih =>
    have hrec : RecursionOK (parseOr depth tokens) tokens (current + 1) :=
      fun c h1 h2 => ih c h2 (by omega)
    unfold parseOr
    obtain ⟨he, hok⟩ := parseAnd_progress (parseOr depth tokens) tokens current hc hrec
    split
    · rename_i e hr
      refine ⟨fun e' h => ?_, fun node cur h => by cases h⟩
      cases h
      exact he e hr
    · rename_i left c hr
      obtain ⟨h1, h2, _⟩ := hok left c hr
      obtain ⟨he', hok'⟩ := parseOr_loop_progress (parseOr depth tokens) tokens
        (tokens.length + 1) left c h2 (by omega) (hrec.mono (by omega))
      refine ⟨he', fun node cur h => ?_⟩
      obtain ⟨h4, h5⟩ := hok' node cur h
      exact ⟨by omega, h5⟩

theorem parse_error_is_stoi (query : String) (e : QueryError)
    (h : QueryParser.parse query = .error e) : e.isStoiError = true := by
  unfold QueryParser.parse at h
  simp only at h
  split at h
  · cases h
  · split at h
    · rename_i e' hr
      cases h
      exact (parseOr_progress _ _ 0 (Nat.zero_le _) (by omega)).1 e hr
    · cases h

theorem executeQuery_total_or_stoi (s : TextIndexer) (h : Reachable s) (query : String) :
    (∃ r, executeQuery s query = .ok r) ∨
    executeQuery s query = .error .invalid_argument ∨
    executeQuery s query = .error .out_of_range := by
  cases hp : QueryParser.parse query with
  | error e =>
    have he := parse_error_is_stoi query e hp
    right
    unfold executeQuery
    rw [hp]
    cases e with
    | invalid_argument => exact Or.inl rfl
    | out_of_range => exact Or.inr rfl
    | null_dereference => exact absurd he (by decide)
    | out_of_fuel => exact absurd he (by decide)
  | ok ast =>
    left
    obtain ⟨r, er, _, _⟩ := evaluateAST_sorted h ast (parse_wellFormed query ast hp)
    exact ⟨r, executeQuery_of_parse s query ast r hp er⟩

/-- C12, the failing input: the query `a "NEAR/x" b` is lexed into the tokens `a`,
`NEAR/x`, `b` (the quotes keep `NEAR/x` in one token), `parsePrimary` passes `x`
to `std::stoi`, and `executeQuery` ends with the exception `invalid_argument` in
every state; `a NEAR/99999999999 b` ends with `out_of_range`. These exceptions of
`std::stoi` are the only failures: on a reachable state every other query is
answered with a list. -/
theorem executeQuery_raises :
    tokenizeQuery "a \"NEAR/x\" b" = ["a", "NEAR/x", "b"] ∧
    (∀ s : TextIndexer, executeQuery s "a \"NEAR/x\" b" = .error .invalid_argument) ∧
    (∀ s : TextIndexer, executeQuery s "a NEAR/99999999999 b" = .error .out_of_range) ∧
    (∀ s : TextIndexer, Reachable s → ∀ query : String,
      (∃ r, executeQuery s query = .ok r) ∨
      executeQuery s query = .error .invalid_argument ∨
      executeQuery s query = .error .out_of_range) :=
  ⟨by decide, fun _ => rfl, fun _ => rfl, executeQuery_total_or_stoi⟩
/-! ## The position predicates against their reference definitions -/

theorem intAbs_eq_abs (x : Int) : intAbs x = |x| := by
  unfold intAbs
  split
  · rw [abs_of_neg (by assumption)]
  · rw [abs_of_nonneg (by omega)]

theorem hasClosePositions_loop_iff (k : Int) (fuel : Nat) (l1 l2 : List Int)
    (hf : l1.length + l2.length ≤ fuel)
    (h1 : l1.Sorted (· ≤ ·)) (h2 : l2.Sorted (· ≤ ·)) :
    hasClosePositions.loop k fuel l1 l2 = true ↔
      ∃ p1, p1 ∈ l1 ∧ ∃ p2, p2 ∈ l2 ∧ intAbs (p1 - p2) ≤ k := by
  induction fuel generalizing l1 l2 with
  | zero =>
    have e1 : l1 = [] := by
      cases l1 with
      | nil => rfl
      | cons a as => simp at hf
    subst e1
    simp [hasClosePositions.loop]
  | succ fuel ih =>
    cases l1 with
    | nil => simp [hasClosePositions.loop]
    | cons a as =>
      cases l2 with
      | nil => simp [hasClosePositions.loop]
      | cons b bs =>
        have ha := List.sorted_cons.1 h1
        have hb := List.sorted_cons.1 h2
        simp only [List.length_cons] at hf
        simp only [hasClosePositions.loop]
        by_cases hd : intAbs (a - b) ≤ k
        · simp only [if_pos hd, true_iff]
          exact ⟨a, List.mem_cons_self _ _, b, List.mem_cons_self _ _, hd⟩
        · simp only [if_neg hd]
          have hdab : ¬ (a - b ≤ k ∧ b - a ≤ k) := by
            intro hc
            apply hd
            unfold intAbs
            split <;> omega
          by_cases hlt : a < b
          · simp only [if_pos hlt]
            rw [ih as (b :: bs) (by simp; omega) ha.2 h2]
            constructor
            · rintro ⟨p1, hp1, p2, hp2, hp⟩
              exact ⟨p1, List.mem_cons_of_mem _ hp1, p2, hp2, hp⟩
            · rintro ⟨p1, hp1, p2, hp2, hp⟩
              rcases List.mem_cons.1 hp1 with e | e
              · exfalso
                subst e
                have hge : b ≤ p2 := by
                  rcases List.mem_cons.1 hp2 with e2 | e2
                  · omega
                  · exact hb.1 p2 e2
                unfold intAbs at hp
                split at hp <;> omega
              · exact ⟨p1, e, p2, hp2, hp⟩
          · simp only [if_neg hlt]
            rw [ih (a :: as) bs (by simp; omega) h1 hb.2]
            constructor
            · rintro ⟨p1, hp1, p2, hp2, hp⟩
              exact ⟨p1, hp1, p2, List.mem_cons_of_mem _ hp2, hp⟩
            · rintro ⟨p1, hp1, p2, hp2, hp⟩
              rcases List.mem_cons.1 hp2 with e | e
              · exfalso
                subst e
                have hge : a ≤ p1 := by
                  rcases List.mem_cons.1 hp1 with e1 | e1
                  · omega
                  · exact ha.1 p1 e1
                unfold intAbs at hp
                split at hp <;> omega
              · exact ⟨p1, hp1, p2, e, hp⟩

theorem wrap32_of_fits (x : Int) (h1 : -2147483648 ≤ x) (h2 : x < 2147483648) :
    wrap32 x = x := by
  unfold wrap32
  rw [Int.emod_eq_of_lt (by omega) (by omega)]
  omega

theorem abs32_of_fits (x : Int) (h1 : -2147483648 < x) (h2 : x < 2147483648) :
    abs32 x = intAbs x := by
  unfold abs32
  apply wrap32_of_fits
  · have := intAbs_nonneg x
    omega
  · unfold intAbs
    split <;> omega

theorem differencesFit_tail_left {a : Int} {as l2 : List Int}
    (h : DifferencesFit (a :: as) l2) : DifferencesFit as l2 :=
  fun p1 hp1 p2 hp2 => h p1 (List.mem_cons_of_mem _ hp1) p2 hp2

theorem differencesFit_tail_right {b : Int} {l1 bs : List Int}
    (h : DifferencesFit l1 (b :: bs)) : DifferencesFit l1 bs :=
  fun p1 hp1 p2 hp2 => h p1 hp1 p2 (List.mem_cons_of_mem _ hp2)

theorem differencesFit_of_positions (l1 l2 : List Int)
    (h1 : ∀ p, p ∈ l1 → 0 ≤ p ∧ p < 2147483648)
    (h2 : ∀ p, p ∈ l2 → 0 ≤ p ∧ p < 2147483648) : DifferencesFit l1 l2 := by
  intro p1 hp1 p2 hp2
  have a := h1 p1 hp1
  have b := h2 p2 hp2
  omega

theorem hasClosePositions32_loop_eq (k : Int) (fuel : Nat) (l1 l2 : List Int)
    (h : DifferencesFit l1 l2) :
    hasClosePositions32.loop k fuel l1 l2 = hasClosePositions.loop k fuel l1 l2 := by
  induction fuel generalizing l1 l2 with
  | zero => simp [hasClosePositions32.loop, hasClosePositions.loop]
  | succ fuel ih =>
    cases l1 with
    | nil => simp [hasClosePositions32.loop, hasClosePositions.loop]
    | cons a as =>
      cases l2 with
      | nil => simp [hasClosePositions32.loop, hasClosePositions.loop]
      | cons b bs =>
        have hab := h a (List.mem_cons_self _ _) b (List.mem_cons_self _ _)
        simp only [hasClosePositions32.loop, hasClosePositions.loop]
        rw [wrap32_of_fits (a - b) (by omega) hab.2, abs32_of_fits (a - b) hab.1 hab.2,
          ih as (b :: bs) (differencesFit_tail_left h),
          ih (a :: as) bs (differencesFit_tail_right h)]

/-- C21, as amended: on ascending position lists whose differences are exact in
`int` arithmetic, `hasClosePositions` with the `int` subtraction of the source
returns true exactly when some position of the first list and some position of
the second list are at distance at most `k`, and it then agrees with the
predicate on exact integers that the evaluation of queries uses; the differences
are exact for all lists of non-negative `int` positions. -/
theorem hasClosePositions_reference (P1 P2 : List Int) (k : Int)
    (h1 : P1.Sorted (· ≤ ·)) (h2 : P2.Sorted (· ≤ ·)) (hfit : DifferencesFit P1 P2) :
    (hasClosePositions32 P1 P2 k = true ↔
      ∃ p1, p1 ∈ P1 ∧ ∃ p2, p2 ∈ P2 ∧ |p1 - p2| ≤ k) ∧
    hasClosePositions32 P1 P2 k = hasClosePositions P1 P2 k ∧
    (∀ Q1 Q2 : List Int, (∀ p, p ∈ Q1 → 0 ≤ p ∧ p < 2147483648) →
      (∀ p, p ∈ Q2 → 0 ≤ p ∧ p < 2147483648) → DifferencesFit Q1 Q2) := by
  have e : hasClosePositions32 P1 P2 k = hasClosePositions P1 P2 k := by
    unfold hasClosePositions32 hasClosePositions
    exact hasClosePositions32_loop_eq k _ P1 P2 hfit
  refine ⟨?_, e, differencesFit_of_positions⟩
  rw [e]
  unfold hasClosePositions
  rw [hasClosePositions_loop_iff k _ P1 P2 (le_refl _) h1 h2]
  simp only [intAbs_eq_abs]

theorem hasClosePositions_reference_witness :
    ([1, 5, 9] : List Int).Sorted (· ≤ ·) ∧ ([3, 12] : List Int).Sorted (· ≤ ·) ∧
    DifferencesFit [1, 5, 9] [3, 12] ∧
    (hasClosePositions32 [1, 5, 9] [3, 12] 2 = true ↔
      ∃ p1, p1 ∈ ([1, 5, 9] : List Int) ∧ ∃ p2, p2 ∈ ([3, 12] : List Int) ∧ |p1 - p2| ≤ 2) :=
  ⟨by decide, by decide, by unfold DifferencesFit; decide,
    (hasClosePositions_reference [1, 5, 9] [3, 12] 2 (by decide) (by decide)
      (by unfold DifferencesFit; decide)).1⟩

theorem hasClosePositions_reference_counterexample :
    ([2147483647] : List Int).Sorted (· ≤ ·) ∧ ([-1] : List Int).Sorted (· ≤ ·) ∧
    hasClosePositions32 [2147483647] [-1] 10 = true ∧
    wrap32 (2147483647 - -1) = -2147483648 ∧ abs32 (-2147483648) = -2147483648 ∧
    ¬ ∃ p1, p1 ∈ ([2147483647] : List Int) ∧ ∃ p2, p2 ∈ ([-1] : List Int) ∧
      |p1 - p2| ≤ 10 := by
  refine ⟨by decide, by decide, by decide, by decide, by decide, ?_⟩
  rintro ⟨p1, hp1, p2, hp2, h⟩
  rw [List.mem_singleton] at hp1 hp2
  subst hp1 hp2
  rw [abs_of_nonneg (by decide)] at h
  revert h
  decide

theorem hasAdjacentPositions_loop_iff (k : Int) (fuel : Nat) (l1 l2 : List Int)
    (hf : l1.length + l2.length ≤ fuel)
    (h1 : l1.Sorted (· ≤ ·)) (h2 : l2.Sorted (· ≤ ·)) :
    hasAdjacentPositions.loop k fuel l1 l2 = true ↔
      ∃ p1, p1 ∈ l1 ∧ ∃ p2, p2 ∈ l2 ∧ 0 < p2 - p1 ∧ p2 - p1 ≤ k := by
  induction fuel generalizing l1 l2 with
  | zero =>
    have e1 : l1 = [] := by
      cases l1 with
      | nil => rfl
      | cons a as => simp at hf
    subst e1
    simp [hasAdjacentPositions.loop]
  | succ fuel ih =>
    cases l1 with
    | nil => simp [hasAdjacentPositions.loop]
    | cons a as =>
      cases l2 with
      | nil => simp [hasAdjacentPositions.loop]
      | cons b bs =>
        have ha := List.sorted_cons.1 h1
        have hb := List.sorted_cons.1 h2
        simp only [List.length_cons] at hf
        simp only [hasAdjacentPositions.loop]
        by_cases hd : 0 < b - a ∧ b - a ≤ k
        · simp only [if_pos hd, true_iff]
          exact ⟨a, List.mem_cons_self _ _, b, List.mem_cons_self _ _, hd⟩
        · simp only [if_neg hd]
          by_cases hlt : a < b
          · simp only [if_pos hlt]
            rw [ih as (b :: bs) (by simp; omega) ha.2 h2]
            constructor
            · rintro ⟨p1, hp1, p2, hp2, hp⟩
              exact ⟨p1, List.mem_cons_of_mem _ hp1, p2, hp2, hp⟩
            · rintro ⟨p1, hp1, p2, hp2, hp⟩
              rcases List.mem_cons.1 hp1 with e | e
              · exfalso
                subst e
                have hge : b ≤ p2 := by
                  rcases List.mem_cons.1 hp2 with e2 | e2
                  · omega
                  · exact hb.1 p2 e2
                omega
              · exact ⟨p1, e, p2, hp2, hp⟩
          · simp only [if_neg hlt]
            rw [ih (a :: as) bs (by simp; omega) h1 hb.2]
            constructor
            · rintro ⟨p1, hp1, p2, hp2, hp⟩
              exact ⟨p1, hp1, p2, List.mem_cons_of_mem _ hp2, hp⟩
            · rintro ⟨p1, hp1, p2, hp2, hp⟩
              rcases List.mem_cons.1 hp2 with e | e
              · exfalso
                subst e
                have hge : a ≤ p1 := by
                  rcases List.mem_cons.1 hp1 with e1 | e1
                  · omega
                  · exact ha.1 p1 e1
                omega
              · exact ⟨p1, hp1, p2, e, hp⟩

theorem hasAdjacentPositions32_loop_eq (k : Int) (fuel : Nat) (l1 l2 : List Int)
    (h : DifferencesFit l1 l2) :
    hasAdjacentPositions32.loop k fuel l1 l2 = hasAdjacentPositions.loop k fuel l1 l2 := by
  induction fuel generalizing l1 l2 with
  | zero => simp [hasAdjacentPositions32.loop, hasAdjacentPositions.loop]
  | succ fuel ih =>
    cases l1 with
    | nil => simp [hasAdjacentPositions32.loop, hasAdjacentPositions.loop]
    | cons a as =>
      cases l2 with
      | nil => simp [hasAdjacentPositions32.loop, hasAdjacentPositions.loop]
      | cons b bs =>
        have hab := h a (List.mem_cons_self _ _) b (List.mem_cons_self _ _)
        simp only [hasAdjacentPositions32.loop, hasAdjacentPositions.loop]
        rw [wrap32_of_fits (b - a) (by omega) (by omega),
          ih as (b :: bs) (differencesFit_tail_left h),
          ih (a :: as) bs (differencesFit_tail_right h)]

/-- C22, as amended: on ascending position lists whose differences are exact in
`int` arithmetic, `hasAdjacentPositions` with the `int` subtraction of the source
returns true exactly when some position `p1` of the first list and some position
`p2` of the second list satisfy `0 < p2 - p1 ≤ k`, and it then agrees with the
predicate on exact integers that the evaluation of queries uses; the differences
are exact for all lists of non-negative `int` positions. -/
theorem hasAdjacentPositions_reference (P1 P2 : List Int) (k : Int)
    (h1 : P1.Sorted (· ≤ ·)) (h2 : P2.Sorted (· ≤ ·)) (hfit : DifferencesFit P1 P2) :
    (hasAdjacentPositions32 P1 P2 k = true ↔
      ∃ p1, p1 ∈ P1 ∧ ∃ p2, p2 ∈ P2 ∧ 0 < p2 - p1 ∧ p2 - p1 ≤ k) ∧
    hasAdjacentPositions32 P1 P2 k = hasAdjacentPositions P1 P2 k ∧
    (∀ Q1 Q2 : List Int, (∀ p, p ∈ Q1 → 0 ≤ p ∧ p < 2147483648) →
      (∀ p, p ∈ Q2 → 0 ≤ p ∧ p < 2147483648) → DifferencesFit Q1 Q2) := by
  have e : hasAdjacentPositions32 P1 P2 k = hasAdjacentPositions P1 P2 k := by
    unfold hasAdjacentPositions32 hasAdjacentPositions
    exact hasAdjacentPositions32_loop_eq k _ P1 P2 hfit
  refine ⟨?_, e, differencesFit_of_positions⟩
  rw [e]
  unfold hasAdjacentPositions
  exact hasAdjacentPositions_loop_iff k _ P1 P2 (le_refl _) h1 h2

theorem hasAdjacentPositions_reference_witness :
    ([4, 5, 9] : List Int).Sorted (· ≤ ·) ∧ ([3, 12] : List Int).Sorted (· ≤ ·) ∧
    DifferencesFit [4, 5, 9] [3, 12] ∧
    (hasAdjacentPositions32 [4, 5, 9] [3, 12] 3 = true ↔
      ∃ p1, p1 ∈ ([4, 5, 9] : List Int) ∧ ∃ p2, p2 ∈ ([3, 12] : List Int) ∧
        0 < p2 - p1 ∧ p2 - p1 ≤ 3) :=
  ⟨by decide, by decide, by unfold DifferencesFit; decide,
    (hasAdjacentPositions_reference [4, 5, 9] [3, 12] 3 (by decide) (by decide)
      (by unfold DifferencesFit; decide)).1⟩

theorem hasAdjacentPositions_reference_counterexample :
    ([2147483647] : List Int).Sorted (· ≤ ·) ∧ ([-2147483648] : List Int).Sorted (· ≤ ·) ∧
    hasAdjacentPositions32 [2147483647] [-2147483648] 1 = true ∧
    wrap32 (-2147483648 - 2147483647) = 1 ∧
    ¬ ∃ p1, p1 ∈ ([2147483647] : List Int) ∧ ∃ p2, p2 ∈ ([-2147483648] : List Int) ∧
      0 < p2 - p1 ∧ p2 - p1 ≤ 1 := by
  refine ⟨by decide, by decide, by decide, by decide, ?_⟩
  rintro ⟨p1, hp1, p2, hp2, h, _⟩
  rw [List.mem_singleton] at hp1 hp2
  subst hp1 hp2
  revert h
  decide

/-! ## Fixture positions -/

/-- C26, as amended: after the three fixture documents the global coordinate index
records for D1 the positions `0:cats 1:the 2:quick 3:brown 4:fox 5:jumps 6:over
7:the 8:lazy 9:dog` (fox = 4, dog = 9) and for D3 `mix` at 0, `quick` at 1 and
`dog` at 2: the title is the first token of the indexed text. The coordinate
index of the field `content` records for D1 the positions `0:the 1:quick 2:brown
3:fox 4:jumps 5:over 6:the 7:lazy 8:dog` (fox = 3, dog = 8) and for D3 `quick` at 0
and `dog` at 1. -/
theorem fixture_global_positions :
    (positionsOf fixtureIndexer none "cats" 1 = [0] ∧
      positionsOf fixtureIndexer none "the" 1 = [1, 7] ∧
      positionsOf fixtureIndexer none "quick" 1 = [2] ∧
      positionsOf fixtureIndexer none "brown" 1 = [3] ∧
      positionsOf fixtureIndexer none "fox" 1 = [4] ∧
      positionsOf fixtureIndexer none "jumps" 1 = [5] ∧
      positionsOf fixtureIndexer none "over" 1 = [6] ∧
      positionsOf fixtureIndexer none "lazy" 1 = [8] ∧
      positionsOf fixtureIndexer none "dog" 1 = [9] ∧
      positionsOf fixtureIndexer none "mix" 3 = [0] ∧
      positionsOf fixtureIndexer none "quick" 3 = [1] ∧
      positionsOf fixtureIndexer none "dog" 3 = [2]) ∧
    (positionsOf fixtureIndexer (some "content") "the" 1 = [0, 6] ∧
      positionsOf fixtureIndexer (some "content") "quick" 1 = [1] ∧
      positionsOf fixtureIndexer (some "content") "brown" 1 = [2] ∧
      positionsOf fixtureIndexer (some "content") "fox" 1 = [3] ∧
      positionsOf fixtureIndexer (some "content") "jumps" 1 = [4] ∧
      positionsOf fixtureIndexer (some "content") "over" 1 = [5] ∧
      positionsOf fixtureIndexer (some "content") "lazy" 1 = [7] ∧
      positionsOf fixtureIndexer (some "content") "dog" 1 = [8] ∧
      positionsOf fixtureIndexer (some "content") "quick" 3 = [0] ∧
      positionsOf fixtureIndexer (some "content") "dog" 3 = [1]) := by
  refine ⟨⟨?_, ?_, ?_, ?_, ?_, ?_, ?_, ?_, ?_, ?_, ?_, ?_⟩,
    ⟨?_, ?_, ?_, ?_, ?_, ?_, ?_, ?_, ?_, ?_⟩⟩ <;> rfl

theorem fixture_global_positions_counterexample :
    fixtureIndexer = (addDocuments TextIndexer.init
      [[("title", "Cats"), ("content", "the quick brown fox jumps over the lazy dog")],
       [("title", "Dogs"), ("content", "the lazy dog sleeps")],
       [("title", "Mix"), ("content", "quick dog and lazy fox")]]).2 ∧
    fixtureIndexer.coordinate_index "fox" = some [⟨1, [4]⟩, ⟨3, [5]⟩] ∧
    fixtureIndexer.coordinate_index "dog" = some [⟨1, [9]⟩, ⟨2, [3]⟩, ⟨3, [2]⟩] ∧
    fixtureIndexer.coordinate_index "quick" = some [⟨1, [2]⟩, ⟨3, [1]⟩] ∧
    positionsOf fixtureIndexer none "fox" 1 ≠ [3] ∧
    positionsOf fixtureIndexer none "dog" 1 ≠ [8] ∧
    positionsOf fixtureIndexer none "quick" 3 ≠ [0] ∧
    positionsOf fixtureIndexer none "dog" 3 ≠ [1] := by
  refine ⟨rfl, rfl, rfl, rfl, ?_, ?_, ?_, ?_⟩ <;> decide
/-! ## The global position space -/

theorem tokenize.loop_acc (cs token : List Char) (tokens : List String) :
    tokenize.loop cs token tokens = tokens ++ tokenize.loop cs token [] := by
  induction cs generalizing token tokens with
  | nil =>
    unfold tokenize.loop
    split <;> simp
  | cons c cs ih =>
    unfold tokenize.loop
    split
    · split
      · rw [ih [] (tokens ++ _), ih [] ([] ++ _)]
        simp
      · exact ih _ _
    · exact ih _ _

theorem tokenize.loop_blank (cs1 cs2 token : List Char) (tokens : List String) :
    tokenize.loop (cs1 ++ ' ' :: cs2) token tokens
      = tokenize.loop cs2 [] (tokenize.loop cs1 token tokens) := by
  induction cs1 generalizing token tokens with
  | nil =>
    have hb : isTokenSeparator ' ' = true := by decide
    show tokenize.loop (' ' :: cs2) token tokens = _
    rw [tokenize.loop.eq_2, if_pos hb, tokenize.loop.eq_1]
    split
    · rfl
    · rename_i h
      have : token = [] := by simpa using h
      subst this
      rfl
  | cons c cs ih =>
    show tokenize.loop (c :: (cs ++ ' ' :: cs2)) token tokens = _
    rw [tokenize.loop.eq_2, tokenize.loop.eq_2]
    split
    · split
      · exact ih _ _
      · exact ih _ _
    · exact ih _ _

theorem tokenize_blank_append (cs1 cs2 : List Char) :
    tokenize.loop (cs1 ++ ' ' :: cs2) [] []
      = tokenize.loop cs1 [] [] ++ tokenize.loop cs2 [] [] := by
  rw [tokenize.loop_blank, tokenize.loop_acc]

theorem tokenize_trailing_blanks (texts : List String) :
    tokenize.loop (texts.flatMap fun x => x.toList ++ [' ']) [] []
      = texts.flatMap tokenize := by
  induction texts with
  | nil => rfl
  | cons x rest ih =>
    simp only [List.flatMap_cons, List.append_assoc, List.singleton_append]
    rw [tokenize_blank_append, ih]
    rfl

theorem tokenize_intercalate (texts : List String) :
    tokenize (String.intercalate " " texts) = texts.flatMap tokenize := by
  cases texts with
  | nil => rfl
  | cons x rest =>
    show tokenize.loop (String.intercalate.go x " " rest).data [] [] = _
    rw [intercalate_go_data]
    induction rest generalizing x with
    | nil => simp [tokenize]
    | cons y rest ih =>
      have e : (" " : String).data = [' '] := rfl
      simp only [List.flatMap_cons, e, List.singleton_append] at ih ⊢
      show tokenize.loop (x.data ++ ' ' :: (y.data ++ rest.flatMap fun w => ' ' :: w.data))
        [] [] = _
      rw [tokenize_blank_append, ih y]
      rfl

theorem addDocument_fold_full_content (doc_id : Int) (pairs : List (String × String))
    (acc : TextIndexer × String) :
    ((pairs.foldl (addDocument.step doc_id) acc).2).toList
      = acc.2.toList ++ pairs.flatMap fun p => p.2.toList ++ [' '] := by
  induction pairs generalizing acc with
  | nil => simp
  | cons p rest ih =>
    rw [List.foldl_cons, ih]
    show (acc.2 ++ (p.2 ++ " ")).toList ++ _ = _
    simp [String.toList]

theorem tokenize_full_content (doc_id : Int) (pairs : List (String × String))
    (s : TextIndexer) :
    tokenize (pairs.foldl (addDocument.step doc_id) (s, "")).2
      = pairs.flatMap fun p => tokenize p.2 := by
  unfold tokenize
  rw [addDocument_fold_full_content]
  have := tokenize_trailing_blanks (pairs.map Prod.snd)
  simp only [List.flatMap_map] at this
  simpa [tokenize] using this
/-! ## The content of the coordinate index -/

theorem TermPosMap.find_push (tp : TermPosMap) (term : String) (pos : Int) (t : String) :
    (tp.push term pos).find t
      = if term = t then some ((tp.find t).getD [] ++ [pos]) else tp.find t := by
  induction tp with
  | nil =>
    simp only [TermPosMap.push, TermPosMap.find]
    split <;> simp
  | cons e rest ih =>
    obtain ⟨t1, ps⟩ := e
    by_cases h1 : t1 = term
    · simp only [TermPosMap.push, if_pos h1, TermPosMap.find]
      subst h1
      by_cases h2 : t1 = t <;> simp [h2]
    · simp only [TermPosMap.push, if_neg h1, TermPosMap.find, ih]
      by_cases h2 : t1 = t
      · have h3 : ¬ term = t := fun h => h1 (h2.trans h.symm)
        simp [h2, h3]
      · simp [h2]

theorem TermPosMap.push_keys (tp : TermPosMap) (term : String) (pos : Int) :
    (tp.push term pos).map Prod.fst
      = if term ∈ tp.map Prod.fst then tp.map Prod.fst else tp.map Prod.fst ++ [term] := by
  induction tp with
  | nil => simp [TermPosMap.push]
  | cons e rest ih =>
    obtain ⟨t1, ps⟩ := e
    by_cases h1 : t1 = term
    · simp [TermPosMap.push, h1]
    · have h1' : ¬ term = t1 := fun h => h1 h.symm
      simp only [TermPosMap.push, if_neg h1, List.map_cons, ih, List.mem_cons, h1', false_or]
      split <;> simp

theorem TermPosMap.find_of_not_mem (tp : TermPosMap) (t : String)
    (h : t ∉ tp.map Prod.fst) : tp.find t = none := by
  induction tp with
  | nil => rfl
  | cons e rest ih =>
    obtain ⟨t1, ps⟩ := e
    simp only [List.map_cons, List.mem_cons, not_or] at h
    have h1 : ¬ t1 = t := fun hh => h.1 hh.symm
    simp only [TermPosMap.find, if_neg h1]
    exact ih h.2

theorem collectTermPositions_keys (toks : List String) (pos : Int) (tp : TermPosMap)
    (hn : (tp.map Prod.fst).Nodup) (he : ∀ k, k ∈ tp.map Prod.fst → k ≠ "") :
    ((collectTermPositions toks pos tp).map Prod.fst).Nodup ∧
    ∀ k, k ∈ (collectTermPositions toks pos tp).map Prod.fst → k ≠ "" := by
  induction toks generalizing pos tp with
  | nil => exact ⟨hn, he⟩
  | cons tok toks ih =>
    simp only [collectTermPositions]
    split
    · exact ih _ _ hn he
    · rename_i hne
      apply ih
      · rw [TermPosMap.push_keys]
        split
        · exact hn
        · rename_i hmem
          exact List.Nodup.append hn (List.nodup_singleton _) (by simpa using hmem)
      · intro k hk
        rw [TermPosMap.push_keys] at hk
        split at hk
        · exact he k hk
        · rcases List.mem_append.1 hk with h | h
          · exact he k h
          · simp only [List.mem_singleton] at h
            subst h
            intro h0
            apply hne
            rw [h0]
            rfl

theorem termIndices_nil (t : String) : termIndices [] t = [] := rfl

theorem termIndices_cons (tok : String) (toks : List String) (t : String) :
    termIndices (tok :: toks) t
      = (if normalizeTerm tok = t then [0] else [])
        ++ (termIndices toks t).map (· + 1) := by
  unfold termIndices
  rw [List.length_cons, List.range_succ_eq_map, List.filter_cons, List.filter_map]
  have e : ((fun i => decide (normalizeTerm ((tok :: toks).getD i "") = t)) ∘ Nat.succ)
      = fun i => decide (normalizeTerm (toks.getD i "") = t) := by
    funext i
    simp
  rw [e]
  simp only [List.getD_cons_zero, List.map_map, List.map_cons]
  have e2 : (Int.ofNat ∘ Nat.succ) = ((fun x : Int => x + 1) ∘ Int.ofNat) := by
    funext i
    rfl
  split
  · rename_i h
    have h' : normalizeTerm tok = t := by simpa using h
    rw [if_pos h', List.map_cons, List.map_map, e2]
    rfl
  · rename_i h
    have h' : ¬ normalizeTerm tok = t := by simpa using h
    rw [if_neg h', List.map_map, e2]
    rfl

theorem termIndices_sorted (toks : List String) (t : String) :
    (termIndices toks t).Sorted (· < ·) := by
  unfold termIndices
  have h : (List.range toks.length).Sorted (· < ·) := List.sorted_lt_range _
  have h2 := List.Sorted.filter (fun i => decide (normalizeTerm (toks.getD i "") = t)) h
  exact List.Pairwise.map _ (fun a b hab => Int.ofNat_lt.2 hab) h2

theorem mem_termIndices (toks : List String) (t : String) (p : Int) :
    p ∈ termIndices toks t ↔
      ∃ i : Nat, p = i ∧ ∃ h : i < toks.length, normalizeTerm (toks.get ⟨i, h⟩) = t := by
  unfold termIndices
  simp only [List.mem_map, List.mem_filter, List.mem_range, decide_eq_true_eq]
  constructor
  · rintro ⟨i, ⟨hi, hn⟩, rfl⟩
    refine ⟨i, rfl, hi, ?_⟩
    rw [List.getD_eq_getElem _ _ hi] at hn
    exact hn
  · rintro ⟨i, rfl, hi, hn⟩
    refine ⟨i, ⟨hi, ?_⟩, rfl⟩
    rw [List.getD_eq_getElem _ _ hi]
    exact hn

theorem collectTermPositions_find (toks : List String) (pos : Int) (tp : TermPosMap)
    (t : String) (ht : t ≠ "") :
    (collectTermPositions toks pos tp).find t
      = if termIndices toks t = [] then tp.find t
        else some ((tp.find t).getD [] ++ (termIndices toks t).map (pos + ·)) := by
  induction toks generalizing pos tp with
  | nil => simp [collectTermPositions, termIndices_nil]
  | cons tok toks ih =>
    have hm : (List.map (fun x => x + 1) (termIndices toks t)).map (pos + ·)
        = (termIndices toks t).map (pos + 1 + ·) := by
      rw [List.map_map]
      apply List.map_congr_left
      intro a _
      show pos + (a + 1) = pos + 1 + a
      omega
    simp only [collectTermPositions, termIndices_cons]
    split
    · rename_i he
      have hne : ¬ normalizeTerm tok = t := by
        intro h
        apply ht
        rw [← h]
        exact (String.isEmpty_iff _).1 he
      rw [if_neg hne, ih, List.nil_append]
      by_cases h0 : termIndices toks t = []
      · simp [h0]
      · have h1 : ¬ List.map (fun x => x + 1) (termIndices toks t) = [] := by simpa using h0
        rw [if_neg h0, if_neg h1, hm]
    · rw [ih, TermPosMap.find_push]
      by_cases hn : normalizeTerm tok = t
      · rw [if_pos hn, if_pos hn]
        have h1 : ¬ ([0] ++ List.map (fun x => x + 1) (termIndices toks t)) = [] := by simp
        rw [if_neg h1]
        by_cases h0 : termIndices toks t = []
        · simp [h0]
        · rw [if_neg h0, List.map_append, hm]
          simp
      · rw [if_neg hn, if_neg hn, List.nil_append]
        by_cases h0 : termIndices toks t = []
        · simp [h0]
        · have h1 : ¬ List.map (fun x => x + 1) (termIndices toks t) = [] := by simpa using h0
          rw [if_neg h0, if_neg h1, hm]

theorem collectTermPositions_find_zero (toks : List String) (t : String) :
    (collectTermPositions toks 0 []).find t
      = if t ≠ "" ∧ termIndices toks t ≠ [] then some (termIndices toks t) else none := by
  by_cases ht : t = ""
  · rw [if_neg (fun h => h.1 ht)]
    apply TermPosMap.find_of_not_mem
    intro hk
    exact (collectTermPositions_keys toks 0 [] List.nodup_nil (by simp)).2 t hk ht
  · rw [collectTermPositions_find toks 0 [] t ht]
    by_cases h0 : termIndices toks t = []
    · simp [h0, TermPosMap.find]
    · rw [if_neg h0, if_pos ⟨ht, h0⟩]
      simp [TermPosMap.find]
theorem coordListOf_indexField_fold (d : Int) (f : String) (entries : TermPosMap)
    (hn : (entries.map Prod.fst).Nodup) (s : TextIndexer) (scope : Option String)
    (t : String) :
    coordListOf (entries.foldl (indexField.step d f) s) scope t
      = if scope = some f then
          (entries.find t).elim (coordListOf s scope t) (addToCoordList (coordListOf s scope t) d)
        else coordListOf s scope t := by
  induction entries generalizing s with
  | nil => simp [TermPosMap.find]
  | cons e rest ih =>
    obtain ⟨t1, ps⟩ := e
    simp only [List.map_cons, List.nodup_cons] at hn
    rw [List.foldl_cons, ih hn.2, coordListOf_indexField_step]
    by_cases hs : scope = some f
    · simp only [if_pos hs, TermPosMap.find]
      by_cases ht : t1 = t
      · subst ht
        rw [if_pos rfl, if_pos ⟨hs, rfl⟩, TermPosMap.find_of_not_mem rest t1 hn.1]
        rfl
      · have ht' : ¬ (scope = some f ∧ t = t1) := fun h => ht h.2.symm
        rw [if_neg ht, if_neg ht']
    · simp [hs]

theorem coordListOf_indexDocumentFields_fold (d : Int) (entries : TermPosMap)
    (hn : (entries.map Prod.fst).Nodup) (s : TextIndexer) (scope : Option String)
    (t : String) :
    coordListOf (entries.foldl (indexDocumentFields.step d) s) scope t
      = if scope = none then
          (entries.find t).elim (coordListOf s scope t) (addToCoordList (coordListOf s scope t) d)
        else coordListOf s scope t := by
  induction entries generalizing s with
  | nil => simp [TermPosMap.find]
  | cons e rest ih =>
    obtain ⟨t1, ps⟩ := e
    simp only [List.map_cons, List.nodup_cons] at hn
    rw [List.foldl_cons, ih hn.2, coordListOf_indexDocumentFields_step]
    by_cases hs : scope = none
    · simp only [if_pos hs, TermPosMap.find]
      by_cases ht : t1 = t
      · subst ht
        rw [if_pos rfl, if_pos ⟨hs, rfl⟩, TermPosMap.find_of_not_mem rest t1 hn.1]
        rfl
      · have ht' : ¬ (scope = none ∧ t = t1) := fun h => ht h.2.symm
        rw [if_neg ht, if_neg ht']
    · simp [hs]

/-- What `indexField` and `indexDocumentFields` add to the coordinate list of a
term for the text they index. -/
theorem termEntry_elim (toks : List String) (t : String) (old : List TermPositions)
    (d : Int) :
    ((collectTermPositions toks 0 []).find t).elim old (addToCoordList old d)
      = if t ≠ "" ∧ termIndices toks t ≠ [] then addToCoordList old d (termIndices toks t)
        else old := by
  rw [collectTermPositions_find_zero]
  split <;> rfl

theorem coordListOf_indexField (s : TextIndexer) (d : Int) (f x : String)
    (scope : Option String) (t : String) :
    coordListOf (indexField s d f x) scope t
      = if scope = some f ∧ t ≠ "" ∧ termIndices (tokenize x) t ≠ [] then
          addToCoordList (coordListOf s scope t) d (termIndices (tokenize x) t)
        else coordListOf s scope t := by
  unfold indexField
  rw [coordListOf_indexField_fold _ _ _
    (collectTermPositions_keys _ 0 [] List.nodup_nil (by simp)).1, termEntry_elim]
  by_cases hs : scope = some f
  · simp only [hs, true_and, if_true]
  · simp [hs]

theorem coordListOf_indexDocumentFields (s : TextIndexer) (d : Int) (x : String)
    (scope : Option String) (t : String) :
    coordListOf (indexDocumentFields s d x) scope t
      = if scope = none ∧ t ≠ "" ∧ termIndices (tokenize x) t ≠ [] then
          addToCoordList (coordListOf s scope t) d (termIndices (tokenize x) t)
        else coordListOf s scope t := by
  unfold indexDocumentFields
  rw [coordListOf_indexDocumentFields_fold _ _
    (collectTermPositions_keys _ 0 [] List.nodup_nil (by simp)).1, termEntry_elim]
  by_cases hs : scope = none
  · simp only [hs, true_and, if_true]
  · simp [hs]

theorem coordListOf_addDocument_step (d : Int) (acc : TextIndexer × String)
    (p : String × String) (scope : Option String) (t : String) :
    coordListOf (addDocument.step d acc p).1 scope t
      = if scope = some p.1 ∧ t ≠ "" ∧ termIndices (tokenize p.2) t ≠ [] then
          addToCoordList (coordListOf acc.1 scope t) d (termIndices (tokenize p.2) t)
        else coordListOf acc.1 scope t := by
  unfold InfSearch.addDocument.step
  simp only
  rw [coordListOf_indexField]
  have e : ∀ u : TextIndexer, u.coordinate_index = acc.1.coordinate_index →
      u.field_coordinate_index = acc.1.field_coordinate_index →
      coordListOf u scope t = coordListOf acc.1 scope t := by
    intro u h1 h2
    unfold coordListOf
    rw [h1, h2]
  rw [e _ (by split <;> split <;> rfl) (by split <;> split <;> rfl)]

theorem coordListOf_addDocument_fold_other (d : Int) (pairs : List (String × String))
    (acc : TextIndexer × String) (scope : Option String) (t : String)
    (h : ∀ p, p ∈ pairs → scope ≠ some p.1) :
    coordListOf (pairs.foldl (addDocument.step d) acc).1 scope t
      = coordListOf acc.1 scope t := by
  induction pairs generalizing acc with
  | nil => rfl
  | cons p rest ih =>
    rw [List.foldl_cons, ih _ (fun q hq => h q (List.mem_cons_of_mem _ hq)),
      coordListOf_addDocument_step, if_neg]
    intro hh
    exact h p (List.mem_cons_self _ _) hh.1
/-! ## The empty string is no key -/

theorem noEmptyKey_init : NoEmptyKey TextIndexer.init :=
  ⟨rfl, rfl, fun _ _ h => (by cases h), fun _ _ h => (by cases h)⟩

theorem StrMap.at_empty_key {V : Type} (m : StrMap (StrMap V)) (f : String)
    (h : ∀ field idx, m field = some idx → idx "" = none) :
    (m.at f StrMap.empty) "" = none := by
  unfold StrMap.at
  cases hm : m f with
  | none => rfl
  | some idx => exact h f idx hm

theorem StrMap.set_empty_key {V : Type} (m : StrMap (StrMap V)) (f k : String) (v : V)
    (hk : k ≠ "") (h : ∀ field idx, m field = some idx → idx "" = none) :
    ∀ field idx, (m.set f ((m.at f StrMap.empty).set k v)) field = some idx →
      idx "" = none := by
  intro field idx hi
  unfold StrMap.set at hi
  by_cases hf : field = f
  · simp only [hf, if_true, Option.some.injEq] at hi
    subst hi
    have hk' : ¬ "" = k := fun e => hk e.symm
    simp only [hk', if_false]
    exact StrMap.at_empty_key m f h
  · simp only [hf, if_false] at hi
    exact h field idx hi

theorem noEmptyKey_indexField_step {s : TextIndexer} (h : NoEmptyKey s) (d : Int)
    (f : String) (entry : String × List Int) (he : entry.1 ≠ "") :
    NoEmptyKey (indexField.step d f s entry) :=
  ⟨h.inverted, h.coordinate,
    StrMap.set_empty_key _ _ _ _ he h.field_inverted,
    StrMap.set_empty_key _ _ _ _ he h.field_coordinate⟩

theorem noEmptyKey_indexDocumentFields_step {s : TextIndexer} (h : NoEmptyKey s) (d : Int)
    (entry : String × List Int) (he : entry.1 ≠ "") :
    NoEmptyKey (indexDocumentFields.step d s entry) := by
  have hk : ¬ "" = entry.1 := fun e => he e.symm
  refine ⟨?_, ?_, h.field_inverted, h.field_coordinate⟩
  · show (s.inverted_index.set entry.1 _) "" = none
    unfold StrMap.set
    simp only [hk, if_false]
    exact h.inverted
  · show (s.coordinate_index.set entry.1 _) "" = none
    unfold StrMap.set
    simp only [hk, if_false]
    exact h.coordinate

theorem noEmptyKey_indexField {s : TextIndexer} (h : NoEmptyKey s) (d : Int)
    (f x : String) : NoEmptyKey (indexField s d f x) := by
  unfold indexField
  have hk := (collectTermPositions_keys (tokenize x) 0 [] List.nodup_nil (by simp)).2
  generalize collectTermPositions (tokenize x) 0 [] = entries at hk
  induction entries generalizing s with
  | nil => exact h
  | cons e rest ih =>
    rw [List.foldl_cons]
    apply ih
    · exact noEmptyKey_indexField_step h d f e (hk e.1 (by simp))
    · intro k hmem
      exact hk k (by simp only [List.map_cons, List.mem_cons]; exact Or.inr hmem)

theorem noEmptyKey_indexDocumentFields {s : TextIndexer} (h : NoEmptyKey s) (d : Int)
    (x : String) : NoEmptyKey (indexDocumentFields s d x) := by
  unfold indexDocumentFields
  have hk := (collectTermPositions_keys (tokenize x) 0 [] List.nodup_nil (by simp)).2
  generalize collectTermPositions (tokenize x) 0 [] = entries at hk
  induction entries generalizing s with
  | nil => exact h
  | cons e rest ih =>
    rw [List.foldl_cons]
    apply ih
    · exact noEmptyKey_indexDocumentFields_step h d e (hk e.1 (by simp))
    · intro k hmem
      exact hk k (by simp only [List.map_cons, List.mem_cons]; exact Or.inr hmem)

theorem noEmptyKey_of_same_maps {s u : TextIndexer} (h : NoEmptyKey s)
    (h1 : u.inverted_index = s.inverted_index) (h2 : u.coordinate_index = s.coordinate_index)
    (h3 : u.field_inverted_index = s.field_inverted_index)
    (h4 : u.field_coordinate_index = s.field_coordinate_index) : NoEmptyKey u :=
  ⟨h1 ▸ h.inverted, h2 ▸ h.coordinate, h3 ▸ h.field_inverted, h4 ▸ h.field_coordinate⟩

theorem noEmptyKey_addDocument_step {acc : TextIndexer × String} (h : NoEmptyKey acc.1)
    (d : Int) (p : String × String) : NoEmptyKey (addDocument.step d acc p).1 := by
  unfold InfSearch.addDocument.step
  simp only
  apply noEmptyKey_indexField
  apply noEmptyKey_of_same_maps h <;> (split <;> split <;> rfl)

theorem noEmptyKey_addDocument_fold (d : Int) (pairs : List (String × String))
    (acc : TextIndexer × String) (h : NoEmptyKey acc.1) :
    NoEmptyKey (pairs.foldl (addDocument.step d) acc).1 := by
  induction pairs generalizing acc with
  | nil => exact h
  | cons p rest ih =>
    rw [List.foldl_cons]
    exact ih _ (noEmptyKey_addDocument_step h d p)

theorem StrMap.mapValues_empty_key {V : Type} (g : V → V) (m : StrMap V)
    (h : m "" = none) : (m.mapValues g) "" = none := by
  unfold StrMap.mapValues
  simp [h]

theorem StrMap.mapValues_nested_empty_key {V : Type} (g : V → V) (m : StrMap (StrMap V))
    (h : ∀ field idx, m field = some idx → idx "" = none) :
    ∀ field idx, (m.mapValues (StrMap.mapValues g)) field = some idx → idx "" = none := by
  intro field idx hi
  unfold StrMap.mapValues at hi
  cases hm : m field with
  | none => simp [hm] at hi
  | some idx0 =>
    simp only [hm, Option.map_some', Option.some.injEq] at hi
    subst hi
    simp [h field idx0 hm]

theorem noEmptyKey_sortIndexes {s : TextIndexer} (h : NoEmptyKey s) :
    NoEmptyKey (sortIndexes s) :=
  ⟨StrMap.mapValues_empty_key _ _ h.inverted, StrMap.mapValues_empty_key _ _ h.coordinate,
    StrMap.mapValues_nested_empty_key _ _ h.field_inverted,
    StrMap.mapValues_nested_empty_key _ _ h.field_coordinate⟩

theorem noEmptyKey_addDocument {s : TextIndexer} (h : NoEmptyKey s)
    (pairs : List (String × String)) : NoEmptyKey (addDocument s pairs).2 := by
  unfold addDocument
  apply noEmptyKey_sortIndexes
  apply noEmptyKey_indexDocumentFields
  apply noEmptyKey_addDocument_fold
  exact ⟨h.inverted, h.coordinate, h.field_inverted, h.field_coordinate⟩

theorem Reachable.noEmptyKey {s : TextIndexer} (h : Reachable s) : NoEmptyKey s := by
  induction h with
  | init => exact noEmptyKey_init
  | add s pairs _ ih => exact noEmptyKey_addDocument ih pairs
/-! ## The entries of a new document -/

theorem Coherent.coord_ids_fresh {s : TextIndexer} (h : Coherent s) (scope : Option String)
    (t : String) : ∀ x, x ∈ (coordListOf s scope t).map TermPositions.doc_id →
      x < s.next_doc_id := by
  intro x hx
  exact h.fresh x (h.ids scope t x ((h.coh scope t x).2 hx))

theorem sortDocPositions_addToCoordList_new {s : TextIndexer} (h : Reachable s)
    (scope : Option String) (t : String) (toks : List String) :
    sortDocPositions (addToCoordList (coordListOf s scope t) s.next_doc_id (termIndices toks t))
      = coordListOf s scope t ++ [⟨s.next_doc_id, termIndices toks t⟩] := by
  have hc := h.coherent
  have hs := h.indexSorted
  have hfresh := hc.coord_ids_fresh scope t
  rw [addToCoordList_append_new _ _ _ (fun hm => lt_irrefl _ (hfresh _ hm)),
    sortDocPositions_append_new _ _ _ (hs.coord_sorted scope t) (hs.positions_sorted scope t)
      hfresh,
    sortDocList_of_sorted _ (termIndices_sorted toks t)]

theorem coordListOf_addDocument_field_once (s : TextIndexer) (h : Reachable s)
    (pre post : List (String × String)) (f x : String)
    (hpre : f ∉ pre.map Prod.fst) (hpost : f ∉ post.map Prod.fst) (t : String) :
    coordListOf (addDocument s (pre ++ (f, x) :: post)).2 (some f) t
      = if t ≠ "" ∧ termIndices (tokenize x) t ≠ [] then
          coordListOf s (some f) t ++ [⟨s.next_doc_id, termIndices (tokenize x) t⟩]
        else coordListOf s (some f) t := by
  have hs := h.indexSorted
  have hother : ∀ l : List (String × String), f ∉ l.map Prod.fst →
      ∀ p, p ∈ l → some f ≠ some p.1 := by
    intro l hl p hp e
    apply hl
    rw [Option.some.injEq] at e
    rw [e]
    exact List.mem_map_of_mem _ hp
  unfold addDocument
  simp only
  rw [coordListOf_sortIndexes, coordListOf_indexDocumentFields, if_neg (by simp),
    List.foldl_append, List.foldl_cons,
    coordListOf_addDocument_fold_other _ _ _ _ _ (hother post hpost),
    coordListOf_addDocument_step,
    coordListOf_addDocument_fold_other _ _ _ _ _ (hother pre hpre)]
  show sortDocPositions (if some f = some f ∧ _ then
    addToCoordList (coordListOf s (some f) t) s.next_doc_id _ else coordListOf s (some f) t) = _
  by_cases hc : t ≠ "" ∧ termIndices (tokenize x) t ≠ []
  · rw [if_pos ⟨rfl, hc⟩, if_pos hc]
    exact sortDocPositions_addToCoordList_new h (some f) t (tokenize x)
  · rw [if_neg (fun hh => hc hh.2), if_neg hc]
    exact sortDocPositions_of_sorted _ (hs.coord_sorted _ t) (hs.positions_sorted _ t)

theorem coordListOf_addDocument_global (s : TextIndexer) (h : Reachable s)
    (pairs : List (String × String)) (t : String) :
    coordListOf (addDocument s pairs).2 none t
      = if t ≠ "" ∧ termIndices (pairs.flatMap fun p => tokenize p.2) t ≠ [] then
          coordListOf s none t
            ++ [⟨s.next_doc_id, termIndices (pairs.flatMap fun p => tokenize p.2) t⟩]
        else coordListOf s none t := by
  have hs := h.indexSorted
  unfold addDocument
  simp only
  rw [coordListOf_sortIndexes, coordListOf_indexDocumentFields, tokenize_full_content,
    coordListOf_addDocument_fold_other _ _ _ _ _ (fun _ _ e => by cases e)]
  show sortDocPositions (if none = none ∧ _ then
    addToCoordList (coordListOf s none t) s.next_doc_id _ else coordListOf s none t) = _
  by_cases hc : t ≠ "" ∧ termIndices (pairs.flatMap fun p => tokenize p.2) t ≠ []
  · rw [if_pos ⟨rfl, hc⟩, if_pos hc]
    exact sortDocPositions_addToCoordList_new h none t _
  · rw [if_neg (fun hh => hc hh.2), if_neg hc]
    exact sortDocPositions_of_sorted _ (hs.coord_sorted _ t) (hs.positions_sorted _ t)

theorem reachable_addDocuments {s : TextIndexer} (h : Reachable s)
    (docs : List (List (String × String))) : Reachable (addDocuments s docs).2 := by
  induction docs generalizing s with
  | nil => exact h
  | cons doc rest ih => exact ih (Reachable.add s doc h)

theorem filter_doc_addDocument {s : TextIndexer} (h : Reachable s)
    (pairs : List (String × String)) (d : Int) (hd : d < s.next_doc_id)
    (scope : Option String) (t : String) :
    (coordListOf (addDocument s pairs).2 scope t).filter (fun e => e.doc_id = d)
      = (coordListOf s scope t).filter (fun e => e.doc_id = d) := by
  rcases (addDocument_growsBy s h pairs).1.coord scope t with e | ⟨ps, e⟩
  · rw [e]
  · rw [e, List.filter_append]
    have hne : ¬ s.next_doc_id = d := fun hh => by omega
    simp [hne]

theorem filter_doc_addDocuments {s : TextIndexer} (h : Reachable s)
    (docs : List (List (String × String))) (d : Int) (hd : d < s.next_doc_id)
    (scope : Option String) (t : String) :
    (coordListOf (addDocuments s docs).2 scope t).filter (fun e => e.doc_id = d)
      = (coordListOf s scope t).filter (fun e => e.doc_id = d) := by
  induction docs generalizing s with
  | nil => rfl
  | cons doc rest ih =>
    show (coordListOf (addDocuments (addDocument s doc).2 rest).2 scope t).filter _ = _
    rw [ih (Reachable.add s doc h) (by rw [addDocument_next_doc_id]; omega),
      filter_doc_addDocument h doc d hd]

theorem filter_doc_fresh {s : TextIndexer} (h : Reachable s) (scope : Option String)
    (t : String) :
    (coordListOf s scope t).filter (fun e => e.doc_id = s.next_doc_id) = [] := by
  rw [List.filter_eq_nil_iff]
  intro e he hd
  have := h.coherent.coord_ids_fresh scope t e.doc_id (List.mem_map_of_mem _ he)
  simp only [decide_eq_true_eq] at hd
  omega
/-- C23: for a document, of id `d`, whose pairs supply the field `f` exactly once,
with the text `x`, the entries of `d` in the coordinate list of `(f, t)`, right
after the call and after any further documents, are the single entry holding
`termIndices (tokenize x) t` when `t` is not empty and that list is not empty,
and none otherwise; the list is strictly ascending and holds exactly the indices
`i` of the raw token sequence with `normalizeTerm(tokenize(x)[i]) = t`; the
empty string is no key of any index. -/
theorem positional_index_content (s : TextIndexer) (h : Reachable s)
    (pre post : List (String × String)) (f x : String)
    (hpre : f ∉ pre.map Prod.fst) (hpost : f ∉ post.map Prod.fst)
    (more : List (List (String × String))) (t : String) :
    (addDocument s (pre ++ (f, x) :: post)).1 = s.next_doc_id ∧
    (coordListOf (addDocuments (addDocument s (pre ++ (f, x) :: post)).2 more).2
        (some f) t).filter (fun e => e.doc_id = s.next_doc_id)
      = (if t ≠ "" ∧ termIndices (tokenize x) t ≠ [] then
          [⟨s.next_doc_id, termIndices (tokenize x) t⟩]
        else []) ∧
    (termIndices (tokenize x) t).Sorted (· < ·) ∧
    (∀ p, p ∈ termIndices (tokenize x) t ↔
      ∃ i : Nat, p = i ∧ ∃ hi : i < (tokenize x).length,
        normalizeTerm ((tokenize x).get ⟨i, hi⟩) = t) ∧
    NoEmptyKey (addDocuments (addDocument s (pre ++ (f, x) :: post)).2 more).2 := by
  refine ⟨rfl, ?_, termIndices_sorted _ _, mem_termIndices _ _,
    (reachable_addDocuments (Reachable.add s _ h) more).noEmptyKey⟩
  rw [filter_doc_addDocuments (Reachable.add s _ h) more _
      (by rw [addDocument_next_doc_id]; omega),
    coordListOf_addDocument_field_once s h pre post f x hpre hpost t]
  split
  · rw [List.filter_append, filter_doc_fresh h]
    simp
  · exact filter_doc_fresh h _ _

theorem positional_index_content_witness :
    (coordListOf (addDocuments (addDocument TextIndexer.init
        ([("title", "Cats")] ++ ("content", "a - b, a") :: [])).2 [[("content", "a")]]).2
        (some "content") "a").filter (fun e => e.doc_id = 1)
      = [⟨1, [0, 3]⟩] ∧
    (coordListOf (addDocuments (addDocument TextIndexer.init
        ([("title", "Cats")] ++ ("content", "a - b, a") :: [])).2 [[("content", "a")]]).2
        (some "content") "b").filter (fun e => e.doc_id = 1)
      = [⟨1, [2]⟩] :=
  ⟨(positional_index_content TextIndexer.init Reachable.init [("title", "Cats")] []
      "content" "a - b, a" (by decide) (by decide) [[("content", "a")]] "a").2.1,
    (positional_index_content TextIndexer.init Reachable.init [("title", "Cats")] []
      "content" "a - b, a" (by decide) (by decide) [[("content", "a")]] "b").2.1⟩

theorem length_flatMap_tokenize (pairs : List (String × String)) :
    (pairs.flatMap fun p => tokenize p.2).length
      = (pairs.map fun p => (tokenize p.2).length).sum := by
  induction pairs with
  | nil => rfl
  | cons p rest ih => simp [List.flatMap_cons, ih]

theorem termIndices_offset (pre post : List (String × String)) (x t : String) (p : Int)
    (hp : p ∈ termIndices (tokenize x) t) :
    p + ((pre.map fun q => (tokenize q.2).length).sum : Nat)
      ∈ termIndices ((pre.flatMap fun q => tokenize q.2) ++ tokenize x
          ++ post.flatMap fun q => tokenize q.2) t := by
  rw [mem_termIndices] at hp ⊢
  obtain ⟨i, rfl, hi, hn⟩ := hp
  rw [← length_flatMap_tokenize]
  refine ⟨i + (pre.flatMap fun q => tokenize q.2).length, by push_cast; rfl, ?_, ?_⟩
  · simp only [List.length_append]
    omega
  · rw [← hn]
    congr 1
    simp only [List.get_eq_getElem, List.append_assoc]
    rw [List.getElem_append_right (by omega)]
    simp only [Nat.add_sub_cancel]
    rw [List.getElem_append_left]
/-- C24: in `addDocument` the text indexed globally is the local `full_content`
of the loop over the pairs; its token sequence is that of the texts joined by
single blanks and is the concatenation of the token sequences of the texts, so
the tokens of a field take the global positions from the number of tokens of
the fields before it on, a local position `p` of a term becoming `p` plus that
number; the global coordinate entry of the new document for a term holds the
indices of the term in the concatenated sequence. -/
theorem global_position_space (s : TextIndexer) (h : Reachable s)
    (pre post : List (String × String)) (f x t : String) :
    (addDocument s (pre ++ (f, x) :: post)).2
      = sortIndexes (indexDocumentFields
          ((pre ++ (f, x) :: post).foldl (addDocument.step s.next_doc_id)
            (addDocument.allocate s, "")).1 s.next_doc_id
          ((pre ++ (f, x) :: post).foldl (addDocument.step s.next_doc_id)
            (addDocument.allocate s, "")).2) ∧
    tokenize ((pre ++ (f, x) :: post).foldl (addDocument.step s.next_doc_id)
        (addDocument.allocate s, "")).2
      = tokenize (String.intercalate " " ((pre ++ (f, x) :: post).map Prod.snd)) ∧
    tokenize ((pre ++ (f, x) :: post).foldl (addDocument.step s.next_doc_id)
        (addDocument.allocate s, "")).2
      = (pre.flatMap fun q => tokenize q.2) ++ tokenize x
          ++ (post.flatMap fun q => tokenize q.2) ∧
    ((((pre.flatMap fun q => tokenize q.2) ++ tokenize x
          ++ (post.flatMap fun q => tokenize q.2)).drop
        (pre.map fun q => (tokenize q.2).length).sum).take (tokenize x).length
      = tokenize x) ∧
    (∀ p, p ∈ termIndices (tokenize x) t →
      p + ((pre.map fun q => (tokenize q.2).length).sum : Nat)
        ∈ termIndices ((pre.flatMap fun q => tokenize q.2) ++ tokenize x
            ++ (post.flatMap fun q => tokenize q.2)) t) ∧
    (coordListOf (addDocument s (pre ++ (f, x) :: post)).2 none t).filter
        (fun e => e.doc_id = s.next_doc_id)
      = (if t ≠ "" ∧ termIndices ((pre.flatMap fun q => tokenize q.2) ++ tokenize x
            ++ (post.flatMap fun q => tokenize q.2)) t ≠ [] then
          [⟨s.next_doc_id, termIndices ((pre.flatMap fun q => tokenize q.2) ++ tokenize x
            ++ (post.flatMap fun q => tokenize q.2)) t⟩]
        else []) := by
  have e : ((pre ++ (f, x) :: post).flatMap fun q => tokenize q.2)
      = (pre.flatMap fun q => tokenize q.2) ++ tokenize x
          ++ (post.flatMap fun q => tokenize q.2) := by
    simp [List.flatMap_append, List.flatMap_cons]
  refine ⟨rfl, ?_, ?_, ?_, termIndices_offset pre post x t, ?_⟩
  · rw [tokenize_full_content, tokenize_intercalate, List.flatMap_map]
  · rw [tokenize_full_content, e]
  · rw [← length_flatMap_tokenize, List.append_assoc, List.drop_left, List.take_left]
  · rw [coordListOf_addDocument_global s h, e]
    split
    · rw [List.filter_append, filter_doc_fresh h]
      simp
    · exact filter_doc_fresh h _ _

theorem global_position_space_witness :
    tokenize "Cats the quick brown fox jumps over the lazy dog "
      = tokenize "Cats the quick brown fox jumps over the lazy dog" ∧
    tokenize "Cats the quick brown fox jumps over the lazy dog "
      = ["Cats"] ++ ["the", "quick", "brown", "fox", "jumps", "over", "the", "lazy", "dog"]
        ++ [] ∧
    (coordListOf (addDocument TextIndexer.init ([("title", "Cats")]
        ++ ("content", "the quick brown fox jumps over the lazy dog") :: [])).2 none
        "fox").filter (fun e => e.doc_id = 1) = [⟨1, [4]⟩] :=
  ⟨(global_position_space TextIndexer.init Reachable.init [("title", "Cats")] []
      "content" "the quick brown fox jumps over the lazy dog" "fox").2.1,
    (global_position_space TextIndexer.init Reachable.init [("title", "Cats")] []
      "content" "the quick brown fox jumps over the lazy dog" "fox").2.2.1,
    (global_position_space TextIndexer.init Reachable.init [("title", "Cats")] []
      "content" "the quick brown fox jumps over the lazy dog" "fox").2.2.2.2.2⟩
/-! ## The global inverted list and the inverted lists of the fields -/

theorem termIndices_ne_nil_iff (toks : List String) (t : String) :
    termIndices toks t ≠ [] ↔ ∃ tok, tok ∈ toks ∧ normalizeTerm tok = t := by
  induction toks with
  | nil => simp [termIndices_nil]
  | cons tok toks ih =>
    rw [termIndices_cons]
    by_cases hn : normalizeTerm tok = t
    · simp only [if_pos hn, List.singleton_append, ne_eq, reduceCtorEq, not_false_eq_true,
        List.mem_cons, true_iff]
      exact ⟨tok, Or.inl rfl, hn⟩
    · have e : (List.map (fun x => x + 1) (termIndices toks t) = []) ↔ termIndices toks t = [] := by
        simp
      simp only [if_neg hn, List.nil_append, ne_eq, e, List.mem_cons]
      rw [← ne_eq, ih]
      constructor
      · rintro ⟨k, hk, hkn⟩
        exact ⟨k, Or.inr hk, hkn⟩
      · rintro ⟨k, hk | hk, hkn⟩
        · subst hk
          exact absurd hkn hn
        · exact ⟨k, hk, hkn⟩

theorem termIndices_flatMap_ne_nil_iff (pairs : List (String × String)) (t : String) :
    termIndices (pairs.flatMap fun p => tokenize p.2) t ≠ [] ↔
      ∃ p, p ∈ pairs ∧ termIndices (tokenize p.2) t ≠ [] := by
  rw [termIndices_ne_nil_iff]
  constructor
  · rintro ⟨tok, hmem, hn⟩
    obtain ⟨p, hp, htok⟩ := List.mem_flatMap.1 hmem
    exact ⟨p, hp, (termIndices_ne_nil_iff _ _).2 ⟨tok, htok, hn⟩⟩
  · rintro ⟨p, hp, hne⟩
    obtain ⟨tok, htok, hn⟩ := (termIndices_ne_nil_iff _ _).1 hne
    exact ⟨tok, List.mem_flatMap.2 ⟨p, hp, htok⟩, hn⟩

theorem mem_coord_addDocument_fold (d0 : Int) (pairs : List (String × String))
    (acc : TextIndexer × String) (f t : String) (x : Int) :
    x ∈ (coordListOf (pairs.foldl (addDocument.step d0) acc).1 (some f) t).map
        TermPositions.doc_id ↔
      x ∈ (coordListOf acc.1 (some f) t).map TermPositions.doc_id ∨
      (x = d0 ∧ ∃ p, p ∈ pairs ∧ p.1 = f ∧ t ≠ "" ∧ termIndices (tokenize p.2) t ≠ []) := by
  induction pairs generalizing acc with
  | nil => simp
  | cons p rest ih =>
    rw [List.foldl_cons, ih, coordListOf_addDocument_step]
    by_cases hc : some f = some p.1 ∧ t ≠ "" ∧ termIndices (tokenize p.2) t ≠ []
    · rw [if_pos hc, addToCoordList_map_doc_id, mem_addToInvList]
      have hf : p.1 = f := by
        have := hc.1
        rw [Option.some.injEq] at this
        exact this.symm
      constructor
      · rintro ((h | h) | ⟨h, q, hq, hq'⟩)
        · exact Or.inl h
        · exact Or.inr ⟨h, p, List.mem_cons_self _ _, hf, hc.2⟩
        · exact Or.inr ⟨h, q, List.mem_cons_of_mem _ hq, hq'⟩
      · rintro (h | ⟨h, q, hq, hq'⟩)
        · exact Or.inl (Or.inl h)
        · rcases List.mem_cons.1 hq with e | e
          · exact Or.inl (Or.inr h)
          · exact Or.inr ⟨h, q, e, hq'⟩
    · rw [if_neg hc]
      constructor
      · rintro (h | ⟨h, q, hq, hq'⟩)
        · exact Or.inl h
        · exact Or.inr ⟨h, q, List.mem_cons_of_mem _ hq, hq'⟩
      · rintro (h | ⟨h, q, hq, hq'⟩)
        · exact Or.inl h
        · rcases List.mem_cons.1 hq with e | e
          · subst e
            exact absurd ⟨by rw [hq'.1], hq'.2⟩ hc
          · exact Or.inr ⟨h, q, e, hq'⟩

theorem mem_invListOf_addDocument_field (s : TextIndexer) (h : Reachable s)
    (pairs : List (String × String)) (f t : String) (x : Int) :
    x ∈ invListOf (addDocument s pairs).2 (some f) t ↔
      x ∈ invListOf s (some f) t ∨
      (x = s.next_doc_id ∧
        ∃ p, p ∈ pairs ∧ p.1 = f ∧ t ≠ "" ∧ termIndices (tokenize p.2) t ≠ []) := by
  rw [(Reachable.add s pairs h).coherent.coh, h.coherent.coh]
  unfold addDocument
  simp only
  rw [coordListOf_sortIndexes, sortDocPositions_map_doc_id, mem_sort,
    coordListOf_indexDocumentFields, if_neg (by simp), mem_coord_addDocument_fold]
  rfl

theorem mem_invListOf_addDocument_global (s : TextIndexer) (h : Reachable s)
    (pairs : List (String × String)) (t : String) (x : Int) :
    x ∈ invListOf (addDocument s pairs).2 none t ↔
      x ∈ invListOf s none t ∨
      (x = s.next_doc_id ∧
        ∃ p, p ∈ pairs ∧ t ≠ "" ∧ termIndices (tokenize p.2) t ≠ []) := by
  rw [(Reachable.add s pairs h).coherent.coh, h.coherent.coh,
    coordListOf_addDocument_global s h]
  by_cases hc : t ≠ "" ∧ termIndices (pairs.flatMap fun p => tokenize p.2) t ≠ []
  · rw [if_pos hc]
    obtain ⟨p, hp, hne⟩ := (termIndices_flatMap_ne_nil_iff pairs t).1 hc.2
    simp only [List.map_append, List.map_cons, List.map_nil, List.mem_append,
      List.mem_singleton]
    constructor
    · rintro (h1 | h1)
      · exact Or.inl h1
      · exact Or.inr ⟨h1, p, hp, hc.1, hne⟩
    · rintro (h1 | ⟨h1, _⟩)
      · exact Or.inl h1
      · exact Or.inr h1
  · rw [if_neg hc]
    constructor
    · exact Or.inl
    · rintro (h1 | ⟨_, p, hp, ht, hne⟩)
      · exact h1
      · exact absurd ⟨ht, (termIndices_flatMap_ne_nil_iff pairs t).2 ⟨p, hp, hne⟩⟩ hc

theorem Reachable.global_iff_field {s : TextIndexer} (h : Reachable s) (t : String)
    (d : Int) :
    d ∈ invListOf s none t ↔ ∃ f, d ∈ invListOf s (some f) t := by
  induction h with
  | init => simp [invListOf, StrMap.at, TextIndexer.init, StrMap.empty]
  | add s pairs hs ih =>
    rw [mem_invListOf_addDocument_global s hs, ih]
    constructor
    · rintro (⟨f, hf⟩ | ⟨hd, p, hp, ht, hne⟩)
      · exact ⟨f, (mem_invListOf_addDocument_field s hs pairs f t d).2 (Or.inl hf)⟩
      · exact ⟨p.1, (mem_invListOf_addDocument_field s hs pairs p.1 t d).2
          (Or.inr ⟨hd, p, hp, rfl, ht, hne⟩)⟩
    · rintro ⟨f, hf⟩
      rcases (mem_invListOf_addDocument_field s hs pairs f t d).1 hf with h1 | ⟨hd, p, hp, _, ht, hne⟩
      · exact Or.inl ⟨f, h1⟩
      · exact Or.inr ⟨hd, p, hp, ht, hne⟩
theorem invListOf_field_absent (s : TextIndexer) (f t : String)
    (h : s.field_inverted_index f = none) : invListOf s (some f) t = [] := by
  simp [invListOf, StrMap.at, h, StrMap.empty]

theorem searchTerm_field (s : TextIndexer) (value f : String) (hf : f ≠ "") :
    searchTerm s value f = invListOf s (some f) (normalizeTerm value) := by
  rw [searchTerm_eq_invListOf, if_neg]
  intro h
  exact hf ((String.isEmpty_iff _).1 h)

theorem searchTerm_global (s : TextIndexer) (value : String) :
    searchTerm s value "" = invListOf s none (normalizeTerm value) := by
  rw [searchTerm_eq_invListOf]
  rfl

theorem stripQuotes_of_not_mem (cs : List Char) (h : '"' ∉ cs) : stripQuotes cs = cs := by
  unfold stripQuotes
  rw [if_neg]
  rintro ⟨_, hh, _⟩
  cases cs with
  | nil => cases hh
  | cons c rest =>
    simp only [List.head?_cons, Option.some.injEq] at hh
    exact h (hh ▸ List.mem_cons_self _ _)

theorem isPlainLexeme_no_quote {x : String} (hx : isPlainLexeme x = true) :
    '"' ∉ x.toList := by
  intro hm
  have := ((isPlainLexeme_iff x).1 hx).2
  rw [List.all_eq_true] at this
  have h := this _ hm
  simp at h

theorem indexOf_append_colon (l r : List Char) (h : ':' ∉ l) :
    (l ++ ':' :: r).indexOf ':' = l.length := by
  induction l with
  | nil => simp [List.indexOf_cons]
  | cons c rest ih =>
    simp only [List.mem_cons, not_or] at h
    have hc : ¬ c = ':' := fun e => h.1 e.symm
    have hb : (c == ':') = false := by simpa using hc
    simp only [List.cons_append, List.indexOf_cons, ih h.2, List.length_cons, hb, cond_false]

theorem parseFieldTerm_unqualified (t : String) (ht : isPlainLexeme t = true)
    (hc : ':' ∉ t.toList) : parseFieldTerm t = mkTERM t "" := by
  unfold parseFieldTerm
  simp only
  rw [if_neg, stripQuotes_of_not_mem _ (isPlainLexeme_no_quote ht)]
  · rfl
  · rintro ⟨h1, _⟩
    exact hc (List.indexOf_lt_length.1 h1)

theorem parseFieldTerm_qualified (f t : String) (hf : isFieldName f = true)
    (ht : isPlainLexeme t = true) :
    parseFieldTerm (f ++ ":" ++ t) = mkTERM t f := by
  unfold isFieldName at hf
  simp only [Bool.and_eq_true, Bool.not_eq_true', List.contains_eq_any_beq,
    List.any_eq_false, beq_iff_eq] at hf
  obtain ⟨hfp, hfc⟩ := hf
  have hcolon : ':' ∉ f.toList := fun hm => hfc _ hm rfl
  have hfne := ((isPlainLexeme_iff f).1 hfp).1
  have htne := ((isPlainLexeme_iff t).1 ht).1
  have e : (f ++ ":" ++ t).toList = f.toList ++ ':' :: t.toList := by
    simp [String.toList]
  have hfl : 0 < f.toList.length := List.length_pos.2 hfne
  have htl : 0 < t.toList.length := List.length_pos.2 htne
  unfold parseFieldTerm
  simp only
  rw [e, indexOf_append_colon _ _ hcolon, if_pos]
  · have e1 : (f.toList ++ ':' :: t.toList).drop (f.toList.length + 1) = t.toList := by
      rw [← List.drop_drop, List.drop_left]
      rfl
    have e2 : (f.toList ++ ':' :: t.toList).take f.toList.length = f.toList :=
      List.take_left _ _
    rw [e1, e2, stripQuotes_of_not_mem _ (isPlainLexeme_no_quote ht)]
    rfl
  · simp only [List.length_append, List.length_cons]
    omega

theorem isPlainTerm_qualified (f t : String) (hf : isFieldName f = true)
    (ht : isPlainLexeme t = true) : isPlainTerm (f ++ ":" ++ t) = true := by
  unfold isFieldName at hf
  simp only [Bool.and_eq_true] at hf
  have e : (f ++ ":" ++ t).toList = f.toList ++ ':' :: t.toList := by
    simp [String.toList]
  have hmem : ':' ∈ (f ++ ":" ++ t).toList := by
    rw [e]
    simp
  have hf2 := (isPlainLexeme_iff f).1 hf.1
  have ht2 := (isPlainLexeme_iff t).1 ht
  have hp : isPlainLexeme (f ++ ":" ++ t) = true := by
    rw [isPlainLexeme_iff, e]
    refine ⟨by simp, ?_⟩
    rw [List.all_append, List.all_cons, hf2.2, ht2.2]
    decide
  unfold isPlainTerm
  rw [hp]
  have h1 : f ++ ":" ++ t ≠ "AND" := by
    intro h0
    rw [h0] at hmem
    revert hmem
    decide
  have h2 : f ++ ":" ++ t ≠ "OR" := by
    intro h0
    rw [h0] at hmem
    revert hmem
    decide
  have h3 : f ++ ":" ++ t ≠ "NOT" := by
    intro h0
    rw [h0] at hmem
    revert hmem
    decide
  simp [h1, h2, h3]

theorem executeQuery_unqualified (s : TextIndexer) (q : String) (hq : isPlainTerm q = true)
    (hc : ':' ∉ q.toList) : executeQuery s q = .ok (searchTerm s q "") :=
  executeQuery_of_parse s q _ _ (parse_plain_term q hq)
    (by rw [parseFieldTerm_unqualified q (isPlainTerm_facts hq).1 hc, evaluateAST_mkTERM])

theorem executeQuery_qualified (s : TextIndexer) (f q : String) (hf : isFieldName f = true)
    (hq : isPlainLexeme q = true) :
    executeQuery s (f ++ ":" ++ q) = .ok (searchTerm s q f) :=
  executeQuery_of_parse s _ _ _ (parse_plain_term _ (isPlainTerm_qualified f q hf hq))
    (by rw [parseFieldTerm_qualified f q hf hq, evaluateAST_mkTERM])

theorem isFieldName_ne_empty {f : String} (hf : isFieldName f = true) : f ≠ "" := by
  rintro rfl
  revert hf
  decide

theorem field_index_indexField (s : TextIndexer) (d : Int) (fn x f : String)
    (h : (indexField s d fn x).field_inverted_index f ≠ none) :
    s.field_inverted_index f ≠ none ∨ f = fn := by
  unfold indexField at h
  generalize collectTermPositions (tokenize x) 0 [] = entries at h
  induction entries generalizing s with
  | nil => exact Or.inl h
  | cons e rest ih =>
    rw [List.foldl_cons] at h
    rcases ih _ h with h1 | h1
    · by_cases hf : f = fn
      · exact Or.inr hf
      · left
        have e1 : (indexField.step d fn s e).field_inverted_index f
            = s.field_inverted_index f := by
          simp [indexField.step, StrMap.set, hf]
        rw [e1] at h1
        exact h1
    · exact Or.inr h1

theorem field_index_addDocument_fold (d : Int) (pairs : List (String × String))
    (acc : TextIndexer × String) (f : String)
    (h : (pairs.foldl (addDocument.step d) acc).1.field_inverted_index f ≠ none) :
    acc.1.field_inverted_index f ≠ none ∨ f ∈ pairs.map Prod.fst := by
  induction pairs generalizing acc with
  | nil => exact Or.inl h
  | cons p rest ih =>
    rw [List.foldl_cons] at h
    rcases ih _ h with h1 | h1
    · unfold InfSearch.addDocument.step at h1
      simp only at h1
      rcases field_index_indexField _ _ _ _ _ h1 with h2 | h2
      · left
        have e : ∀ u : TextIndexer, u.field_inverted_index = acc.1.field_inverted_index →
            u.field_inverted_index f ≠ none → acc.1.field_inverted_index f ≠ none := by
          intro u hu hne
          rw [hu] at hne
          exact hne
        exact e _ (by split <;> split <;> rfl) h2
      · exact Or.inr (by rw [h2]; simp)
    · exact Or.inr (List.mem_cons_of_mem _ h1)

theorem field_index_addDocument (s : TextIndexer) (pairs : List (String × String))
    (f : String) (h : (addDocument s pairs).2.field_inverted_index f ≠ none) :
    s.field_inverted_index f ≠ none ∨ f ∈ pairs.map Prod.fst := by
  unfold addDocument at h
  simp only at h
  have h1 : (indexDocumentFields
      (pairs.foldl (addDocument.step s.next_doc_id) (addDocument.allocate s, "")).1
      s.next_doc_id
      (pairs.foldl (addDocument.step s.next_doc_id) (addDocument.allocate s, "")).2
      ).field_inverted_index f ≠ none := by
    intro hn
    apply h
    simp [sortIndexes, buildSkipLists, StrMap.mapValues, hn]
  rw [(indexDocumentFields_frame _ _ _).2.2.1] at h1
  exact field_index_addDocument_fold _ _ _ f h1

/-- C27, as amended: in every reachable state a document id is in the global
inverted list of a term exactly when it is in the inverted list of the term of
some field, for the document just added one of the field names of its pairs. For
a plain term `q` without a colon and a field name `f` that is a plain lexeme
without a colon, the query `q` returns `searchTerm(q, "")` and the query `f:q`
returns `searchTerm(q, f)`; every document that such a query `f:q` returns is
returned by the query `q`; and when every field that has an index has such a
name, the query `q` returns a document exactly when some query `f:q` returns
it. -/
theorem global_search_union (s : TextIndexer) (h : Reachable s)
    (pairs : List (String × String)) (t q : String) (d : Int) :
    (d ∈ invListOf s none t ↔ ∃ f, d ∈ invListOf s (some f) t) ∧
    (s.next_doc_id ∈ invListOf (addDocument s pairs).2 none t ↔
      ∃ f, f ∈ pairs.map Prod.fst ∧
        s.next_doc_id ∈ invListOf (addDocument s pairs).2 (some f) t) ∧
    (isPlainTerm q = true → ':' ∉ q.toList →
      executeQuery s q = .ok (searchTerm s q "") ∧
      (∀ f, isFieldName f = true →
        executeQuery s (f ++ ":" ++ q) = .ok (searchTerm s q f)) ∧
      (∀ f r, isFieldName f = true → executeQuery s (f ++ ":" ++ q) = .ok r → d ∈ r →
        ∃ r0, executeQuery s q = .ok r0 ∧ d ∈ r0) ∧
      ((∀ f, s.field_inverted_index f ≠ none → isFieldName f = true) →
        ((∃ r0, executeQuery s q = .ok r0 ∧ d ∈ r0) ↔
          ∃ f r, isFieldName f = true ∧ executeQuery s (f ++ ":" ++ q) = .ok r ∧ d ∈ r))) := by
  have hfresh : ∀ scope, s.next_doc_id ∉ invListOf s scope t := by
    intro scope hm
    have := h.coherent.fresh _ (h.coherent.ids scope t _ hm)
    omega
  refine ⟨h.global_iff_field t d, ?_, ?_⟩
  · rw [mem_invListOf_addDocument_global s h]
    constructor
    · rintro (h1 | ⟨_, p, hp, ht, hne⟩)
      · exact absurd h1 (hfresh none)
      · exact ⟨p.1, List.mem_map_of_mem _ hp,
          (mem_invListOf_addDocument_field s h pairs p.1 t _).2
            (Or.inr ⟨rfl, p, hp, rfl, ht, hne⟩)⟩
    · rintro ⟨f, _, hf⟩
      rcases (mem_invListOf_addDocument_field s h pairs f t _).1 hf with
        h1 | ⟨_, p, hp, _, ht, hne⟩
      · exact absurd h1 (hfresh _)
      · exact Or.inr ⟨rfl, p, hp, ht, hne⟩
  · intro hq hc
    have e0 := executeQuery_unqualified s q hq hc
    have eq := fun f hf => executeQuery_qualified s f q hf (isPlainTerm_facts hq).1
    have hsub : ∀ f, isFieldName f = true → d ∈ searchTerm s q f → d ∈ searchTerm s q "" := by
      intro f hf hd
      rw [searchTerm_field s q f (isFieldName_ne_empty hf)] at hd
      rw [searchTerm_global, h.global_iff_field]
      exact ⟨f, hd⟩
    refine ⟨e0, eq, ?_, ?_⟩
    · intro f r hf er hd
      rw [eq f hf] at er
      cases er
      exact ⟨_, e0, hsub f hf hd⟩
    · intro hnames
      constructor
      · rintro ⟨r0, er, hd⟩
        rw [e0] at er
        cases er
        rw [searchTerm_global, h.global_iff_field] at hd
        obtain ⟨f, hf⟩ := hd
        have hidx : s.field_inverted_index f ≠ none := by
          intro hnone
          rw [invListOf_field_absent s f _ hnone] at hf
          cases hf
        have hfn := hnames f hidx
        refine ⟨f, _, hfn, eq f hfn, ?_⟩
        rw [searchTerm_field s q f (isFieldName_ne_empty hfn)]
        exact hf
      · rintro ⟨f, r, hf, er, hd⟩
        rw [eq f hf] at er
        cases er
        exact ⟨_, e0, hsub f hf hd⟩

theorem global_search_union_witness :
    Reachable (addDocument TextIndexer.init [("title", "a b")]).2 ∧
    ((1 : Int) ∈ invListOf (addDocument TextIndexer.init [("title", "a b")]).2 none "b" ↔
      ∃ f, (1 : Int) ∈ invListOf (addDocument TextIndexer.init [("title", "a b")]).2
        (some f) "b") ∧
    executeQuery (addDocument TextIndexer.init [("title", "a b")]).2 ("title" ++ ":" ++ "b")
      = .ok (searchTerm (addDocument TextIndexer.init [("title", "a b")]).2 "b" "title") ∧
    ((∃ r0, executeQuery (addDocument TextIndexer.init [("title", "a b")]).2 "b" = .ok r0 ∧
        (1 : Int) ∈ r0) ↔
      ∃ f r, isFieldName f = true ∧
        executeQuery (addDocument TextIndexer.init [("title", "a b")]).2 (f ++ ":" ++ "b")
          = .ok r ∧ (1 : Int) ∈ r) :=
  ⟨Reachable.add _ _ Reachable.init,
    (global_search_union _ (Reachable.add _ _ Reachable.init) [] "b" "b" 1).1,
    ((global_search_union _ (Reachable.add _ _ Reachable.init) [] "b" "b" 1).2.2
      (by decide) (by decide)).2.1 "title" (by decide),
    ((global_search_union _ (Reachable.add _ _ Reachable.init) [] "b" "b" 1).2.2
      (by decide) (by decide)).2.2.2 (fun f hf => by
        rcases field_index_addDocument _ _ f hf with h | h
        · exact absurd rfl h
        · simp only [List.map_cons, List.map_nil, List.mem_singleton] at h
          subst h
          decide)⟩

theorem global_search_union_counterexample :
    Reachable (addDocument TextIndexer.init [("", "hello")]).2 ∧
    executeQuery (addDocument TextIndexer.init [("", "hello")]).2 "hello" = .ok [1] ∧
    searchTerm (addDocument TextIndexer.init [("", "hello")]).2 "hello" "" = [1] ∧
    (∀ value f, f ≠ "" →
      searchTerm (addDocument TextIndexer.init [("", "hello")]).2 value f = []) ∧
    (∀ value f, f ≠ "" →
      evaluateAST (addDocument TextIndexer.init [("", "hello")]).2 (mkTERM value f)
        = some []) ∧
    (∀ x, isPlainTerm x = true → (∀ v, parseFieldTerm x ≠ mkTERM v "") →
      executeQuery (addDocument TextIndexer.init [("", "hello")]).2 x = .ok []) ∧
    executeQuery (addDocument TextIndexer.init [("", "hello")]).2 "title:hello" = .ok [] ∧
    executeQuery (addDocument TextIndexer.init [("a:b", "hello")]).2 "hello" = .ok [1] ∧
    executeQuery (addDocument TextIndexer.init [("a:b", "hello")]).2 "a:b:hello" = .ok [] ∧
    QueryParser.parse "a:b:hello" = .ok (mkTERM "b:hello" "a") := by
  have hs : ∀ value f, f ≠ "" →
      searchTerm (addDocument TextIndexer.init [("", "hello")]).2 value f = [] := by
    intro value f hf
    rw [searchTerm_field _ value f hf, List.eq_nil_iff_forall_not_mem]
    intro x hx
    rcases (mem_invListOf_addDocument_field _ Reachable.init _ f _ x).1 hx with
      h1 | ⟨_, p, hp, hpf, _⟩
    · cases h1
    · rw [List.mem_singleton] at hp
      subst hp
      exact hf hpf.symm
  refine ⟨Reachable.add _ _ Reachable.init, rfl, rfl, hs, ?_, ?_, rfl, rfl, rfl, rfl⟩
  · intro value f hf
    rw [evaluateAST_mkTERM, hs value f hf]
  · intro x hx hq
    obtain ⟨value, field, e, he⟩ :=
      evaluateAST_parseFieldTerm (addDocument TextIndexer.init [("", "hello")]).2 x
    have hf : field ≠ "" := by
      intro h0
      subst h0
      exact hq value e
    rw [hs value field hf] at he
    exact executeQuery_of_parse _ x _ [] (parse_plain_term x hx) he
/-! ## Proximity operators in the lexer -/

theorem tokenizeQuery.loop_word_slash (x : String) (rest : List Char) (tokens : List String)
    (hx : isPlainLexeme x = true) :
    tokenizeQuery.loop (x.toList ++ '/' :: rest) [] false tokens
      = tokenizeQuery.loop rest [] false (tokens ++ [x] ++ ["/"]) := by
  obtain ⟨hne, hall⟩ := (isPlainLexeme_iff x).1 hx
  rw [tokenizeQuery.loop_plain x.toList ('/' :: rest) [] tokens hall, List.nil_append]
  have he : x.toList.isEmpty = false := by
    cases hc : x.toList with
    | nil => exact absurd hc hne
    | cons a as => rfl
  have hq : ¬ ('/' = '"') := by decide
  have hs : isspace '/' = false := by decide
  have hp : isQueryPunct '/' = true := by decide
  simp only [tokenizeQuery.loop, if_neg hq, hs, hp, Bool.not_false, Bool.and_self, if_true, he,
    Bool.false_and, Bool.false_eq_true, if_false]
  rfl

theorem proximity_query_toList (a X Y b : String) :
    (a ++ " " ++ X ++ "/" ++ Y ++ " " ++ b).toList
      = a.toList ++ ' ' :: (X.toList ++ '/' :: (Y.toList ++ ' ' :: b.toList)) := by
  simp [String.toList]

theorem lex_proximity_raw (a X Y b : String) (ha : isPlainLexeme a = true)
    (hX : isPlainLexeme X = true) (hY : isPlainLexeme Y = true)
    (hb : isPlainLexeme b = true) :
    tokenizeQuery.loop (a ++ " " ++ X ++ "/" ++ Y ++ " " ++ b).toList [] false []
      = [a, X, "/", Y, b] := by
  rw [proximity_query_toList, tokenizeQuery.loop_word_blank a _ _ ha,
    tokenizeQuery.loop_word_slash X _ _ hX, tokenizeQuery.loop_word_blank Y _ _ hY,
    tokenizeQuery.loop_word_end b _ hb]
  rfl

theorem combineTokens_proximity (a X Y b : String) (hX : X = "NEAR" ∨ X = "ADJ") :
    combineTokens [a, X, "/", Y, b]
      = if beginsWithDigit Y then [a, X ++ "/" ++ Y, b] else [a, X, "/", Y, b] := by
  have h1 : X ≠ "/" := by rcases hX with rfl | rfl <;> decide
  have h2 : (X = "NEAR" ∨ X = "ADJ") := hX
  have h3 : ¬ (("/" : String) = "NEAR" ∨ ("/" : String) = "ADJ") := by decide
  by_cases hd : beginsWithDigit Y = true
  · simp [combineTokens, h1, h2, hd]
  · simp [combineTokens, h1, h2, hd, h3]

theorem lex_proximity (a X Y b : String) (ha : isPlainLexeme a = true)
    (hX : X = "NEAR" ∨ X = "ADJ") (hY : isPlainLexeme Y = true)
    (hb : isPlainLexeme b = true) :
    tokenizeQuery (a ++ " " ++ X ++ "/" ++ Y ++ " " ++ b)
      = if beginsWithDigit Y then [a, X ++ "/" ++ Y, b] else [a, X, "/", Y, b] := by
  have hXp : isPlainLexeme X = true := by rcases hX with rfl | rfl <;> decide
  unfold tokenizeQuery
  rw [lex_proximity_raw a X Y b ha hXp hY hb, combineTokens_proximity a X Y b hX]

/-! ## The distance of a proximity operator -/

theorem digitsValue_foldl_nonneg (digits : List Char) (acc : Int) (hacc : 0 ≤ acc)
    (h : ∀ c, c ∈ digits → isdigit c = true) :
    0 ≤ digits.foldl (fun acc c => acc * 10 + ((c.toNat : Int) - 48)) acc := by
  induction digits generalizing acc with
  | nil => exact hacc
  | cons c cs ih =>
    rw [List.foldl_cons]
    apply ih
    · have hc := h c (List.mem_cons_self _ _)
      simp only [isdigit, Char.isDigit, Bool.and_eq_true, decide_eq_true_eq] at hc
      have h48 : (48 : Int) ≤ (c.toNat : Int) := by
        have := hc.1
        have e : c.val.toNat = c.toNat := rfl
        have h' : (48 : Nat) ≤ c.toNat := by
          rw [← e]
          exact_mod_cast this
        exact_mod_cast h'
      nlinarith
    · intro c' hc'
      exact h c' (List.mem_cons_of_mem _ hc')

theorem digitsValue_nonneg (cs : List Char) : 0 ≤ digitsValue (cs.takeWhile isdigit) := by
  unfold digitsValue
  apply digitsValue_foldl_nonneg _ _ (le_refl _)
  intro c hc
  exact (List.mem_takeWhile_imp hc)

theorem stoi_digits (Y : String) (hd : beginsWithDigit Y = true)
    (hfit : digitsValue (Y.toList.takeWhile isdigit) ≤ 2147483647) :
    stoi Y.toList = .ok (digitsValue (Y.toList.takeWhile isdigit)) := by
  have hd' : (match Y.toList with
      | [] => false
      | c :: _ => isdigit c) = true := hd
  clear hd
  cases hY : Y.toList with
  | nil =>
    rw [hY] at hd'
    cases hd'
  | cons c cs =>
    rw [hY] at hd' hfit
    have hd : isdigit c = true := hd'
    have hsp : isspace c = false := by
      simp only [isdigit, Char.isDigit, Bool.and_eq_true, decide_eq_true_eq] at hd
      have e : c.val.toNat = c.toNat := rfl
      have h1 : 48 ≤ c.toNat := by
        rw [← e]
        exact_mod_cast hd.1
      simp only [isspace, Bool.or_eq_false_iff, decide_eq_false_iff_not, Bool.and_eq_false_iff]
      omega
    have hm : c ≠ '-' := by
      rintro rfl
      revert hd
      decide
    have hp : c ≠ '+' := by
      rintro rfl
      revert hd
      decide
    have hnn := digitsValue_nonneg (c :: cs)
    have htw : (c :: cs).takeWhile isdigit = c :: cs.takeWhile isdigit := by
      simp [List.takeWhile, hd]
    unfold stoi
    simp only [List.dropWhile, hsp, List.head?_cons, Option.some.injEq, hm, hp, or_self,
      if_false, htw, List.isEmpty_cons, Bool.false_eq_true]
    rw [htw] at hnn hfit
    rw [if_neg]
    intro h
    rcases h with h | h <;> omega
/-! ## Proximity operators in the parser -/

theorem proximity_token_facts (X Y : String) (hX : X = "NEAR" ∨ X = "ADJ") :
    isProximityToken (X ++ "/" ++ Y) = true ∧
    ((X ++ "/" ++ Y).toList.take ((X ++ "/" ++ Y).toList.indexOf '/') = X.toList) ∧
    ((X ++ "/" ++ Y).toList.drop ((X ++ "/" ++ Y).toList.indexOf '/' + 1) = Y.toList) := by
  rcases hX with rfl | rfl
  · have e : ("NEAR" ++ "/" ++ Y).toList = 'N' :: 'E' :: 'A' :: 'R' :: '/' :: Y.toList := by
      simp [String.toList]
    rw [isProximityToken, e]
    refine ⟨by simp [startsWith, String.toList], ?_, ?_⟩
    · simp [List.indexOf_cons]
    · simp [List.indexOf_cons]
  · have e : ("ADJ" ++ "/" ++ Y).toList = 'A' :: 'D' :: 'J' :: '/' :: Y.toList := by
      simp [String.toList]
    rw [isProximityToken, e]
    refine ⟨by simp [startsWith, String.toList], ?_, ?_⟩
    · simp [List.indexOf_cons]
    · simp [List.indexOf_cons]

/-- The operator type of a fused token: `op == "NEAR" ? NEAR : ADJ`. -/
theorem proximity_type_eq (X : String) (hX : X = "NEAR" ∨ X = "ADJ") :
    (if X.toList = "NEAR".toList then OperatorType.NEAR else OperatorType.ADJ)
      = if X = "NEAR" then OperatorType.NEAR else OperatorType.ADJ := by
  rcases hX with rfl | rfl <;> rfl

theorem parsePrimary_proximity (recOr : Nat → ParseResult) (tokens : List String)
    (current : Nat) (X Y : String) (k : Int) (hX : X = "NEAR" ∨ X = "ADJ")
    (hc : current + 2 < tokens.length) (h1 : tokens.getD current "" ≠ "(")
    (h2 : tokens.getD (current + 1) "" = X ++ "/" ++ Y) (hk : stoi Y.toList = .ok k) :
    parsePrimary recOr tokens current
      = .ok (mkProximity (if X = "NEAR" then .NEAR else .ADJ) k
          (parseFieldTerm (tokens.getD current ""))
          (parseFieldTerm (tokens.getD (current + 2) "")), current + 3) := by
  obtain ⟨f1, f2, f3⟩ := proximity_token_facts X Y hX
  have hlen : ¬ tokens.length ≤ current := by omega
  unfold parsePrimary
  rw [if_neg hlen, if_neg h1, h2, if_pos ⟨hc, f1⟩]
  simp only [f2, f3, hk, proximity_type_eq X hX]

theorem parse_fused (a X Y b : String) (k : Int) (ha : isPlainTerm a = true)
    (hX : X = "NEAR" ∨ X = "ADJ") (hk : stoi Y.toList = .ok k) :
    parseOr ([a, X ++ "/" ++ Y, b].length + 1) [a, X ++ "/" ++ Y, b] 0
      = .ok (mkProximity (if X = "NEAR" then .NEAR else .ADJ) k
          (parseFieldTerm a) (parseFieldTerm b), 3) := by
  obtain ⟨_, _, _, hnot, hpar, _, _⟩ := isPlainTerm_facts ha
  have e1 : parsePrimary (parseOr 3 [a, X ++ "/" ++ Y, b]) [a, X ++ "/" ++ Y, b] 0
      = .ok (mkProximity (if X = "NEAR" then .NEAR else .ADJ) k
          (parseFieldTerm a) (parseFieldTerm b), 3) :=
    parsePrimary_proximity _ [a, X ++ "/" ++ Y, b] 0 X Y k hX (by simp) hpar rfl hk
  have e2 : parseNot (parseOr 3 [a, X ++ "/" ++ Y, b]) [a, X ++ "/" ++ Y, b] 0
      = .ok (mkProximity (if X = "NEAR" then .NEAR else .ADJ) k
          (parseFieldTerm a) (parseFieldTerm b), 3) := by
    unfold parseNot
    rw [if_neg (fun h => hnot h.2), e1]
  have e3 := parseAnd_of_parseNot _ _ _ _ _ e2
  have e4 : parseAnd (parseOr 3 [a, X ++ "/" ++ Y, b]) [a, X ++ "/" ++ Y, b] 0
      = .ok (mkProximity (if X = "NEAR" then .NEAR else .ADJ) k
          (parseFieldTerm a) (parseFieldTerm b), 3) :=
    e3.trans (parseAnd.loop_end _ _ _ _ _ (by simp))
  exact (parseOr_of_parseAnd 3 _ 0 _ _ e4).trans
    (parseOr_loop_stop _ _ _ _ _ (fun h => absurd h.1 (by simp)))
theorem parseAnd.loop_step_term (recOr : Nat → ParseResult) (tokens : List String)
    (fuel : Nat) (left : ASTNode) (current : Nat) (t : String) (cur : Nat)
    (hc : current < tokens.length)
    (h1 : tokens.getD current "" ≠ "OR") (h2 : tokens.getD current "" ≠ "NOT")
    (h3 : tokens.getD current "" ≠ ")")
    (h4 : isProximityToken (tokens.getD current "") = false)
    (h5 : tokens.getD current "" ≠ "AND")
    (hp : parseNot recOr tokens current = .ok (parseFieldTerm t, cur)) :
    parseAnd.loop recOr tokens (fuel + 1) left current
      = parseAnd.loop recOr tokens fuel (mkAND left (parseFieldTerm t)) cur := by
  obtain ⟨v, f, e⟩ := parseFieldTerm_eq_mkTERM t
  rw [e] at hp ⊢
  exact parseAnd.loop_step recOr tokens fuel left current v f cur hc h1 h2 h3 h4 h5 hp

theorem parseFieldTerm_ne_null (t : String) : parseFieldTerm t ≠ .null := by
  obtain ⟨v, f, e⟩ := parseFieldTerm_eq_mkTERM t
  rw [e]
  intro h
  cases h

theorem proximity_facts (X : String) (hX : X = "NEAR" ∨ X = "ADJ") :
    isPlainTerm X = true ∧ X ≠ "(" ∧ X ≠ ")" ∧ X ≠ "OR" ∧ X ≠ "NOT" ∧ X ≠ "AND" ∧
    isProximityToken X = false := by
  rcases hX with rfl | rfl <;> decide

/-- The part of `parseAnd` on `[a, X, "/", Y, b]` that does not depend on `Y`. -/
theorem parseAnd_unfused_prefix (recOr : Nat → ParseResult) (a X Y b : String)
    (ha : isPlainTerm a = true) (hX : X = "NEAR" ∨ X = "ADJ")
    (hY : isPlainLexeme Y = true) :
    parseAnd recOr [a, X, "/", Y, b] 0
      = parseAnd.loop recOr [a, X, "/", Y, b] 4
          (mkAND (mkAND (parseFieldTerm a) (parseFieldTerm X)) (parseFieldTerm "/")) 3 := by
  obtain ⟨_, _, _, hnot, hpar, _, _⟩ := isPlainTerm_facts ha
  obtain ⟨_, x1, x2, x3, x4, x5, x6⟩ := proximity_facts X hX
  have hYp := isPlainLexeme_not_proximity hY
  have hs : isProximityToken "/" = false := by decide
  have q1 : ("/" : String) ≠ "OR" := by decide
  have q2 : ("/" : String) ≠ "NOT" := by decide
  have q3 : ("/" : String) ≠ ")" := by decide
  have q4 : ("/" : String) ≠ "AND" := by decide
  have e0 : parseNot recOr [a, X, "/", Y, b] 0 = .ok (parseFieldTerm a, 1) :=
    parseNot_term recOr [a, X, "/", Y, b] 0 a rfl (by simp) hpar x6 hnot
  have e1 : parseNot recOr [a, X, "/", Y, b] 1 = .ok (parseFieldTerm X, 2) :=
    parseNot_term recOr [a, X, "/", Y, b] 1 X rfl (by simp) x1 hs x4
  have e2 : parseNot recOr [a, X, "/", Y, b] 2 = .ok (parseFieldTerm "/", 3) :=
    parseNot_term recOr [a, X, "/", Y, b] 2 "/" rfl (by simp) (by decide) hYp (by decide)
  have s0 := parseAnd_of_parseNot recOr _ _ _ _ e0
  have s1 : parseAnd.loop recOr [a, X, "/", Y, b] 6 (parseFieldTerm a) 1
      = parseAnd.loop recOr [a, X, "/", Y, b] 5
          (mkAND (parseFieldTerm a) (parseFieldTerm X)) 2 :=
    parseAnd.loop_step_term recOr [a, X, "/", Y, b] 5 _ 1 X 2 (by simp) x3 x4 x2 x6 x5 e1
  have s2 : parseAnd.loop recOr [a, X, "/", Y, b] 5
        (mkAND (parseFieldTerm a) (parseFieldTerm X)) 2
      = parseAnd.loop recOr [a, X, "/", Y, b] 4
          (mkAND (mkAND (parseFieldTerm a) (parseFieldTerm X)) (parseFieldTerm "/")) 3 :=
    parseAnd.loop_step_term recOr [a, X, "/", Y, b] 4 _ 2 "/" 3 (by simp) q1 q2 q3 hs q4 e2
  exact s0.trans (s1.trans s2)

/-- The tree that the parser builds from the five tokens `[a, X, "/", Y, b]`. -/
theorem parse_unfused (a X Y b : String) (ha : isPlainTerm a = true)
    (hX : X = "NEAR" ∨ X = "ADJ") (hY : isPlainLexeme Y = true)
    (hb : isPlainTerm b = true) :
    ∃ cur, parseOr ([a, X, "/", Y, b].length + 1) [a, X, "/", Y, b] 0
      = .ok (
          if Y = "NOT" then
            mkAND (mkAND (parseFieldTerm a) (parseFieldTerm X)) (parseFieldTerm "/")
          else if Y = "OR" then
            mkOR (mkAND (mkAND (parseFieldTerm a) (parseFieldTerm X)) (parseFieldTerm "/"))
              (parseFieldTerm b)
          else if Y = "AND" then
            mkAND (mkAND (mkAND (parseFieldTerm a) (parseFieldTerm X)) (parseFieldTerm "/"))
              (parseFieldTerm b)
          else
            mkAND (mkAND (mkAND (mkAND (parseFieldTerm a) (parseFieldTerm X))
              (parseFieldTerm "/")) (parseFieldTerm Y)) (parseFieldTerm b), cur) := by
  obtain ⟨_, _, _, bnot, bpar, _, bprox⟩ := isPlainTerm_facts hb
  have hYp := isPlainLexeme_not_proximity hY
  have hpre := parseAnd_unfused_prefix (parseOr 5 [a, X, "/", Y, b]) a X Y b ha hX hY
  have hend : isProximityToken "" = false := by decide
  have e4 : parseNot (parseOr 5 [a, X, "/", Y, b]) [a, X, "/", Y, b] 4
      = .ok (parseFieldTerm b, 5) :=
    parseNot_term _ [a, X, "/", Y, b] 4 b rfl (by simp) bpar hend bnot
  by_cases hn : Y = "NOT"
  · rw [if_pos hn]
    refine ⟨3, ?_⟩
    have s3 := parseAnd.loop_break (parseOr 5 [a, X, "/", Y, b]) [a, X, "/", Y, b] 3
      (mkAND (mkAND (parseFieldTerm a) (parseFieldTerm X)) (parseFieldTerm "/")) 3
      (Or.inr (Or.inl hn))
    refine (parseOr_of_parseAnd 5 _ 0 _ _ (hpre.trans s3)).trans
      (parseOr_loop_stop _ _ _ _ _ ?_)
    rintro ⟨_, h⟩
    have h' : Y = "OR" := h
    rw [hn] at h'
    revert h'
    decide
  rw [if_neg hn]
  by_cases ho : Y = "OR"
  · rw [if_pos ho]
    refine ⟨5, ?_⟩
    have s3 := parseAnd.loop_break (parseOr 5 [a, X, "/", Y, b]) [a, X, "/", Y, b] 3
      (mkAND (mkAND (parseFieldTerm a) (parseFieldTerm X)) (parseFieldTerm "/")) 3
      (Or.inl ho)
    have s4 : parseAnd (parseOr 5 [a, X, "/", Y, b]) [a, X, "/", Y, b] 4
        = .ok (parseFieldTerm b, 5) :=
      (parseAnd_of_parseNot _ _ _ _ _ e4).trans (parseAnd.loop_end _ _ _ _ _ (by simp))
    have s5 := parseOr_loop_step (parseOr 5 [a, X, "/", Y, b]) [a, X, "/", Y, b] 5
      (mkAND (mkAND (parseFieldTerm a) (parseFieldTerm X)) (parseFieldTerm "/"))
      (parseFieldTerm b) 3 5 (by simp) ho s4
    exact (parseOr_of_parseAnd 5 _ 0 _ _ (hpre.trans s3)).trans
      (s5.trans (parseOr_loop_stop _ _ 4 _ _ (fun h => absurd h.1 (by simp))))
  rw [if_neg ho]
  by_cases hand : Y = "AND"
  · rw [if_pos hand]
    refine ⟨5, ?_⟩
    have s3 := parseAnd.loop_step_and (parseOr 5 [a, X, "/", Y, b]) [a, X, "/", Y, b] 3
      (mkAND (mkAND (parseFieldTerm a) (parseFieldTerm X)) (parseFieldTerm "/"))
      (parseFieldTerm b) 3 5 (by simp) hand (parseFieldTerm_ne_null b) e4
    have s4 := parseAnd.loop_end (parseOr 5 [a, X, "/", Y, b]) [a, X, "/", Y, b] 2
      (mkAND (mkAND (mkAND (parseFieldTerm a) (parseFieldTerm X)) (parseFieldTerm "/"))
        (parseFieldTerm b)) 5 (by simp)
    exact (parseOr_of_parseAnd 5 _ 0 _ _ (hpre.trans (s3.trans s4))).trans
      (parseOr_loop_stop _ _ _ _ _ (fun h => absurd h.1 (by simp)))
  rw [if_neg hand]
  refine ⟨5, ?_⟩
  have ypar : Y ≠ "(" := isPlainLexeme_ne_paren hY
  have yclose : Y ≠ ")" := isPlainLexeme_ne_close hY
  have e3 : parseNot (parseOr 5 [a, X, "/", Y, b]) [a, X, "/", Y, b] 3
      = .ok (parseFieldTerm Y, 4) :=
    parseNot_term _ [a, X, "/", Y, b] 3 Y rfl (by simp) ypar bprox hn
  have s3 := parseAnd.loop_step_term (parseOr 5 [a, X, "/", Y, b]) [a, X, "/", Y, b] 3
    (mkAND (mkAND (parseFieldTerm a) (parseFieldTerm X)) (parseFieldTerm "/")) 3 Y 4
    (by simp) ho hn yclose hYp hand e3
  have s4 := parseAnd.loop_step_term (parseOr 5 [a, X, "/", Y, b]) [a, X, "/", Y, b] 2
    (mkAND (mkAND (mkAND (parseFieldTerm a) (parseFieldTerm X)) (parseFieldTerm "/"))
      (parseFieldTerm Y)) 4 b 5
    (by simp) (isPlainTerm_facts hb).2.2.1 bnot (isPlainTerm_facts hb).2.2.2.2.2.1 bprox
    (isPlainTerm_facts hb).2.1 e4
  have s5 := parseAnd.loop_end (parseOr 5 [a, X, "/", Y, b]) [a, X, "/", Y, b] 1
    (mkAND (mkAND (mkAND (mkAND (parseFieldTerm a) (parseFieldTerm X)) (parseFieldTerm "/"))
      (parseFieldTerm Y)) (parseFieldTerm b)) 5 (by simp)
  exact (parseOr_of_parseAnd 5 _ 0 _ _ (hpre.trans (s3.trans (s4.trans s5)))).trans
    (parseOr_loop_stop _ _ _ _ _ (fun h => absurd h.1 (by simp)))
/-- C25: for plain term lexemes `a` and `b`, `X` one of `NEAR` and `ADJ`, and
every text `Y` (a lexeme, so not empty) without white space, quotes and the
characters `( ) ~ /`: when `Y` begins with a decimal digit the query `a X/Y b`
lexes to the three tokens `[a, X/Y, b]` and, the leading decimal number of `Y`
fitting 32 bits, parses to an `X` node with that distance and the two `TERM`
operands of `a` and `b`; when `Y` does not begin with a digit the lexer yields
the five tokens `[a, X, /, Y, b]` and the parser builds a tree of `AND` and `OR`
nodes over `TERM` leaves, `X` being the `TERM` leaf of an ordinary term. -/
theorem proximity_fusion (a X Y b : String) (ha : isPlainTerm a = true)
    (hb : isPlainTerm b = true) (hX : X = "NEAR" ∨ X = "ADJ")
    (hY : isPlainLexeme Y = true) :
    (beginsWithDigit Y = true →
      tokenizeQuery (a ++ " " ++ X ++ "/" ++ Y ++ " " ++ b) = [a, X ++ "/" ++ Y, b] ∧
      (digitsValue (Y.toList.takeWhile isdigit) ≤ 2147483647 →
        QueryParser.parse (a ++ " " ++ X ++ "/" ++ Y ++ " " ++ b)
          = .ok (mkProximity (if X = "NEAR" then .NEAR else .ADJ)
              (digitsValue (Y.toList.takeWhile isdigit))
              (parseFieldTerm a) (parseFieldTerm b)))) ∧
    (beginsWithDigit Y = false →
      tokenizeQuery (a ++ " " ++ X ++ "/" ++ Y ++ " " ++ b) = [a, X, "/", Y, b] ∧
      QueryParser.parse (a ++ " " ++ X ++ "/" ++ Y ++ " " ++ b)
        = .ok (
          if Y = "NOT" then
            mkAND (mkAND (parseFieldTerm a) (parseFieldTerm X)) (parseFieldTerm "/")
          else if Y = "OR" then
            mkOR (mkAND (mkAND (parseFieldTerm a) (parseFieldTerm X)) (parseFieldTerm "/"))
              (parseFieldTerm b)
          else if Y = "AND" then
            mkAND (mkAND (mkAND (parseFieldTerm a) (parseFieldTerm X)) (parseFieldTerm "/"))
              (parseFieldTerm b)
          else
            mkAND (mkAND (mkAND (mkAND (parseFieldTerm a) (parseFieldTerm X))
              (parseFieldTerm "/")) (parseFieldTerm Y)) (parseFieldTerm b))) ∧
    parseFieldTerm X = mkTERM X "" ∧ parseFieldTerm "/" = mkTERM "/" "" ∧
    (∃ va fa vb fb vy fy, parseFieldTerm a = mkTERM va fa ∧ parseFieldTerm b = mkTERM vb fb ∧
      parseFieldTerm Y = mkTERM vy fy) := by
  have hlex := lex_proximity a X Y b (isPlainTerm_facts ha).1 hX hY (isPlainTerm_facts hb).1
  refine ⟨?_, ?_, ?_, ?_, ?_⟩
  · intro hd
    rw [if_pos hd] at hlex
    refine ⟨hlex, fun hfit => ?_⟩
    exact parse_of_parseOr _ _ _ 3 hlex (by simp)
      (parse_fused a X Y b _ ha hX (stoi_digits Y hd hfit))
  · intro hd
    rw [if_neg (by rw [hd]; decide)] at hlex
    obtain ⟨cur, hp⟩ := parse_unfused a X Y b ha hX hY hb
    exact ⟨hlex, parse_of_parseOr _ _ _ cur hlex (by simp) hp⟩
  · rcases hX with rfl | rfl <;> rfl
  · rfl
  · obtain ⟨va, fa, ea⟩ := parseFieldTerm_eq_mkTERM a
    obtain ⟨vb, fb, eb⟩ := parseFieldTerm_eq_mkTERM b
    obtain ⟨vy, fy, ey⟩ := parseFieldTerm_eq_mkTERM Y
    exact ⟨va, fa, vb, fb, vy, fy, ea, eb, ey⟩

theorem proximity_fusion_witness :
    (tokenizeQuery "quick ADJ/3 fox" = ["quick", "ADJ/3", "fox"] ∧
      QueryParser.parse "quick ADJ/3 fox"
        = .ok (mkProximity .ADJ 3 (mkTERM "quick" "") (mkTERM "fox" ""))) ∧
    (tokenizeQuery "quick NEAR/abc fox" = ["quick", "NEAR", "/", "abc", "fox"] ∧
      QueryParser.parse "quick NEAR/abc fox"
        = .ok (mkAND (mkAND (mkAND (mkAND (mkTERM "quick" "") (mkTERM "NEAR" ""))
            (mkTERM "/" "")) (mkTERM "abc" "")) (mkTERM "fox" ""))) :=
  ⟨⟨((proximity_fusion "quick" "ADJ" "3" "fox" (by decide) (by decide) (by decide)
        (by decide)).1 (by decide)).1,
      ((proximity_fusion "quick" "ADJ" "3" "fox" (by decide) (by decide) (by decide)
        (by decide)).1 (by decide)).2 (by decide)⟩,
    (proximity_fusion "quick" "NEAR" "abc" "fox" (by decide) (by decide) (by decide)
      (by decide)).2.1 (by decide)⟩

end InfSearch
